import Mathlib

/-!
# kubevirt-hooks: the disk-permission hook sidecar (perms.go)

A shallow embedding of `perms.go` and a verification of its specification.

* The capability server `infoServer.Info`.
* The shared `onDefineDomain` and its two versioned wrappers.
* The directory walk that `onDefineDomain` runs over the disk-image root, with the walk
  callback and the error callback of the source.
* The helper `ensureFinalPathExists` over a document tree.

The filesystem is a tree of entries carrying mode, uid and gid; a second model keeps the
names in a tree and mode, uid and gid in a table of inodes, so that a file can be linked under
several names. The outcome of a system call (chmod, chown, reading a directory) is given by an
environment that maps the path of the call to an optional error, and the system calls issued
are recorded. The library functions the source calls (`godirwalk.Walk`, `os.Chmod`,
`os.Chown`, `strings.Split`, and of `mxj` the methods `Exists` and `SetValueForPath`) are
embedded from their documented behaviour; the two deserializers and the order in which the
library ranges over a map are parameters. Log output is not modelled.
-/

namespace PermHook

/-! ## Constants of the source -/

/-- Go `error` values are represented by their message. -/
abbrev Error := String

/-- Go byte slices. -/
abbrev Bytes := List UInt8

def uidQemu : Nat := 107

def gidQemu : Nat := 107

def insecureMode : Nat := 0o666

def hookName : String := "disk-permission"

/-- The local `disk_root` of `onDefineDomain`. -/
def disk_root : String := "/var/run/kubevirt-private/vmi-disks"

/-! ## Capability server -/

/-- The constant `hooksInfo.OnDefineDomainHookPointName` of the hook protocol package. -/
def OnDefineDomainHookPointName : String := "OnDefineDomain"

structure HookPoint where
  Name : String
  Priority : Int
  deriving DecidableEq, Repr

structure InfoParams where
  Version : String
  deriving DecidableEq, Repr

structure InfoResult where
  Name : String
  Versions : List String
  HookPoints : List HookPoint
  deriving DecidableEq, Repr

structure infoServer where
  Version : String
  deriving DecidableEq, Repr

/-- The method `infoServer.Info`: the pair (result, error) it returns. The context and the
request are not read. -/
def infoServer.Info (s : infoServer) (_params : InfoParams) : Option InfoResult × Option Error :=
  (some
    { Name := "permission-hook"
      Versions := [s.Version]
      HookPoints := [{ Name := OnDefineDomainHookPointName, Priority := 1 }] },
   none)

/-! ## Filesystem model -/

/-- Mode bits, owner and group of a filesystem entry. -/
structure Stat where
  mode : Nat
  uid : Nat
  gid : Nat
  deriving DecidableEq, Repr

/-- The type of an entry that is not a directory. -/
inductive FileType
  | regular
  | symlink
  | other
  deriving DecidableEq, Repr

/-- A filesystem entry: a non-directory, or a directory with the entries it contains. -/
inductive Node
  | file (name : String) (type : FileType) (st : Stat)
  | dir (name : String) (st : Stat) (children : List Node)
  deriving Repr

/-- The directory entry `godirwalk.Dirent` handed to the walk callback. -/
structure Dirent where
  name : String
  isDir : Bool
  isSymlink : Bool
  deriving DecidableEq, Repr

def Dirent.IsDir (de : Dirent) : Bool := de.isDir

def Dirent.IsSymlink (de : Dirent) : Bool := de.isSymlink

def Node.name : Node → String
  | .file name _ _ => name
  | .dir name _ _ => name

/-- A system call issued on a path. -/
inductive Syscall
  | chmod (path : String) (mode : Nat)
  | chown (path : String) (uid gid : Nat)
  deriving DecidableEq, Repr

def Syscall.path : Syscall → String
  | .chmod path _ => path
  | .chown path _ _ => path

/-- The outcome of each system call, by the path it is issued on: `none` is success. -/
structure Env where
  chmodErr : String → Option Error
  chownErr : String → Option Error
  readdirErr : String → Option Error

/-- Go `strings.HasSuffix`. -/
def HasSuffix (s suffix : String) : Bool := suffix.data.isSuffixOf s.data

/-- Go `os.Chmod(path, mode)` on the entry the path names: on failure the entry is unchanged. -/
def Chmod (env : Env) (path : String) (mode : Nat) (st : Stat) : Stat × Option Error :=
  match env.chmodErr path with
  | some e => (st, some e)
  | none => ({ st with mode := mode }, none)

/-- Go `os.Chown(path, uid, gid)` on the entry the path names: on failure the entry is unchanged. -/
def Chown (env : Env) (path : String) (uid gid : Nat) (st : Stat) : Stat × Option Error :=
  match env.chownErr path with
  | some e => (st, some e)
  | none => ({ st with uid := uid, gid := gid }, none)

/-- What one invocation of the walk callback does: the new state of the visited entry, the
system calls issued, and the error returned. -/
structure Visit where
  st : Stat
  calls : List Syscall
  err : Option Error
  deriving DecidableEq, Repr

/-- The `Callback` closure of `onDefineDomain` (perms.go lines 115-139). -/
def Callback (env : Env) (path : String) (de : Dirent) (st : Stat) : Visit :=
  if de.IsDir || de.IsSymlink then
    { st := st, calls := [], err := none }
  else if !HasSuffix path "img" then
    { st := st, calls := [], err := none }
  else
    match Chmod env path insecureMode st with
    | (st1, some err) =>
      { st := st1, calls := [.chmod path insecureMode], err := some err }
    | (st1, none) =>
      -- a chown error is logged only
      let st2 := (Chown env path uidQemu gidQemu st1).1
      { st := st2
        calls := [.chmod path insecureMode, .chown path uidQemu gidQemu]
        err := none }

/-- The type `godirwalk.ErrorAction`. -/
inductive ErrorAction
  | Halt
  | SkipNode
  deriving DecidableEq, Repr

/-- The `ErrorCallback` closure of `onDefineDomain` (perms.go lines 140-143). -/
def ErrorCallback (_s : String) (_e : Error) : ErrorAction := .SkipNode

/-- The fields of `godirwalk.Options` the source sets. `Unsorted: true` leaves the children in
the order the directory lists them. -/
structure Options where
  Callback : String → Dirent → Stat → Visit
  ErrorCallback : String → Error → ErrorAction

/-- The result of walking: the tree afterwards, the system calls issued, the error returned. -/
structure Walked (α : Type) where
  tree : α
  calls : List Syscall
  err : Option Error
  deriving Repr

mutual
/-- The library function `godirwalk.walk` on one node: the callback is invoked on the node; an
error it returns goes to the error callback, which decides between skipping the node and
halting; symbolic links are not followed; a directory is read and its children are walked, an
error of the read going to the error callback as well. The callbacks of the source never
return `filepath.SkipDir`, which is not modelled. -/
def walk (opts : Options) (env : Env) (osPathname : String) : Node → Walked Node
  | .file name type st =>
    let v := opts.Callback osPathname { name := name, isDir := false, isSymlink := decide (type = .symlink) } st
    match v.err with
    | some e =>
      match opts.ErrorCallback osPathname e with
      | .SkipNode => { tree := .file name type v.st, calls := v.calls, err := none }
      | .Halt => { tree := .file name type v.st, calls := v.calls, err := some e }
    | none => { tree := .file name type v.st, calls := v.calls, err := none }
  | .dir name st children =>
    let v := opts.Callback osPathname { name := name, isDir := true, isSymlink := false } st
    match v.err with
    | some e =>
      match opts.ErrorCallback osPathname e with
      | .SkipNode => { tree := .dir name v.st children, calls := v.calls, err := none }
      | .Halt => { tree := .dir name v.st children, calls := v.calls, err := some e }
    | none =>
      match env.readdirErr osPathname with
      | some e =>
        match opts.ErrorCallback osPathname e with
        | .SkipNode => { tree := .dir name v.st children, calls := v.calls, err := none }
        | .Halt => { tree := .dir name v.st children, calls := v.calls, err := some e }
      | none =>
        let r := walkChildren opts env osPathname children
        { tree := .dir name v.st r.tree, calls := v.calls ++ r.calls, err := r.err }
/-- The loop of `godirwalk.walk` over the children of a directory: each child is walked under
the joined path; the first error returned stops the loop. -/
def walkChildren (opts : Options) (env : Env) (osPathname : String) : List Node → Walked (List Node)
  | [] => { tree := [], calls := [], err := none }
  | child :: rest =>
    let r := walk opts env (osPathname ++ "/" ++ child.name) child
    match r.err with
    | some e => { tree := r.tree :: rest, calls := r.calls, err := some e }
    | none =>
      let rs := walkChildren opts env osPathname rest
      { tree := r.tree :: rs.tree, calls := r.calls ++ rs.calls, err := rs.err }
end

/-- The library function `godirwalk.Walk`: the root is inspected without following links; a
missing root and a root that is not a directory are errors; otherwise the root is walked. -/
def Walk (env : Env) (pathname : String) (opts : Options) : Option Node → Walked (Option Node)
  | none => { tree := none, calls := [], err := some "no such file or directory" }
  | some (.file name type st) =>
    { tree := some (.file name type st), calls := [], err := some "cannot Walk non-directory" }
  | some (.dir name st children) =>
    let r := walk opts env pathname (.dir name st children)
    { tree := some r.tree, calls := r.calls, err := r.err }

/-- The options `onDefineDomain` passes to the walk. -/
def walkOptions (env : Env) : Options :=
  { Callback := Callback env, ErrorCallback := ErrorCallback }

/-- The enforcer walk of `onDefineDomain` (perms.go lines 113-144). -/
def enforce (env : Env) (root : Option Node) : Walked (Option Node) :=
  Walk env disk_root (walkOptions env) root

/-- The entries of a tree with their paths, the node itself first, children under the path
joined with their name. -/
structure Entry where
  path : String
  de : Dirent
  st : Stat
  deriving DecidableEq, Repr

mutual
def entries (path : String) : Node → List Entry
  | .file name type st =>
    [{ path := path, de := { name := name, isDir := false, isSymlink := decide (type = .symlink) }, st := st }]
  | .dir name st children =>
    { path := path, de := { name := name, isDir := true, isSymlink := false }, st := st }
      :: entriesList path children
def entriesList (path : String) : List Node → List Entry
  | [] => []
  | child :: rest => entries (path ++ "/" ++ child.name) child ++ entriesList path rest
end

/-- The entries under the disk-image root. -/
def rootEntries : Option Node → List Entry
  | none => []
  | some n => entries disk_root n

/-- An entry the callback acts on: neither a directory nor a symbolic link, and its path ends
in the image suffix. -/
def Entry.qualifies (e : Entry) : Bool :=
  !e.de.IsDir && !e.de.IsSymlink && HasSuffix e.path "img"

/-- The state the enforcer aims at: mode 0666, owner and group 107. -/
def fixedStat : Stat := { mode := insecureMode, uid := uidQemu, gid := gidQemu }

/-- The entry as the callback leaves it. -/
def visited (env : Env) (e : Entry) : Entry :=
  { e with st := (Callback env e.path e.de e.st).st }

/-! ## Filesystem with hard links

In the tree above every name has a mode, uid and gid of its own. On a filesystem a name links
to an inode, which carries them, and a file can be linked under several names; `os.Chmod` and
`os.Chown` change the inode the path leads to, under every name it has. Below, the names are
kept in a tree and the inodes in tables, by inode number. The tree above is this filesystem
where no two names link to the same inode (`enforce_of_linked`); what the walk leaves
unchanged is stated on the filesystem with hard links. -/

/-- The kind of an inode. -/
inductive InodeType
  | regular
  | symlink
  | other
  | directory
  deriving DecidableEq, Repr

/-- A name in a directory: the inode it links to and, where that is a directory, the names the
directory holds. -/
inductive Link
  | link (name : String) (ino : Nat) (children : List Link)
  deriving Repr

def Link.name : Link → String
  | .link name _ _ => name

def Link.ino : Link → Nat
  | .link _ ino _ => ino

/-- The directory entry of a name: it has the kind of the inode the name links to. -/
def direntOf (types : Nat → InodeType) (name : String) (ino : Nat) : Dirent :=
  { name := name
    isDir := decide (types ino = .directory)
    isSymlink := decide (types ino = .symlink) }

/-- The table of mode, uid and gid after a system call has left `st` on one inode. -/
def setStat (stats : Nat → Stat) (ino : Nat) (st : Stat) : Nat → Stat :=
  fun i => if i = ino then st else stats i

/-- The result of walking: mode, uid and gid of every inode afterwards, the system calls
issued, the error returned. -/
structure Linked.Walked where
  stats : Nat → Stat
  calls : List Syscall
  err : Option Error

mutual
/-- The library function `godirwalk.walk` on one name, as `walk` above: the callback acts on
the inode the name links to; a symbolic link is not followed; the names of a directory are
walked. The kind of an inode is not changed by chmod and chown. -/
def Linked.walk (opts : Options) (env : Env) (types : Nat → InodeType) (osPathname : String) :
    Link → (Nat → Stat) → Linked.Walked
  | .link name ino children, stats =>
    let v := opts.Callback osPathname (direntOf types name ino) (stats ino)
    match v.err with
    | some e =>
      match opts.ErrorCallback osPathname e with
      | .SkipNode => { stats := setStat stats ino v.st, calls := v.calls, err := none }
      | .Halt => { stats := setStat stats ino v.st, calls := v.calls, err := some e }
    | none =>
      if types ino = .directory then
        match env.readdirErr osPathname with
        | some e =>
          match opts.ErrorCallback osPathname e with
          | .SkipNode => { stats := setStat stats ino v.st, calls := v.calls, err := none }
          | .Halt => { stats := setStat stats ino v.st, calls := v.calls, err := some e }
        | none =>
          let r := Linked.walkChildren opts env types osPathname children (setStat stats ino v.st)
          { stats := r.stats, calls := v.calls ++ r.calls, err := r.err }
      else { stats := setStat stats ino v.st, calls := v.calls, err := none }
/-- The loop of `godirwalk.walk` over the names of a directory. -/
def Linked.walkChildren (opts : Options) (env : Env) (types : Nat → InodeType)
    (osPathname : String) : List Link → (Nat → Stat) → Linked.Walked
  | [], stats => { stats := stats, calls := [], err := none }
  | child :: rest, stats =>
    let r := Linked.walk opts env types (osPathname ++ "/" ++ child.name) child stats
    match r.err with
    | some e => { stats := r.stats, calls := r.calls, err := some e }
    | none =>
      let rs := Linked.walkChildren opts env types osPathname rest r.stats
      { stats := rs.stats, calls := r.calls ++ rs.calls, err := rs.err }
end

/-- The library function `godirwalk.Walk`, as `Walk` above. -/
def Linked.Walk (env : Env) (types : Nat → InodeType) (pathname : String) (opts : Options)
    (stats : Nat → Stat) : Option Link → Linked.Walked
  | none => { stats := stats, calls := [], err := some "no such file or directory" }
  | some root =>
    if types root.ino = .directory then Linked.walk opts env types pathname root stats
    else { stats := stats, calls := [], err := some "cannot Walk non-directory" }

/-- The enforcer walk of `onDefineDomain` (perms.go lines 113-144) on a filesystem with hard
links. -/
def Linked.enforce (env : Env) (types : Nat → InodeType) (stats : Nat → Stat)
    (root : Option Link) : Linked.Walked :=
  Linked.Walk env types disk_root (walkOptions env) stats root

/-- A name of the tree with its path and the inode it links to. -/
structure Linked.Entry where
  path : String
  name : String
  ino : Nat
  deriving DecidableEq, Repr

mutual
/-- The names of a tree with their paths, the name itself first; only a directory holds names.
-/
def Linked.entries (types : Nat → InodeType) (path : String) : Link → List Linked.Entry
  | .link name ino children =>
    { path := path, name := name, ino := ino }
      :: (if types ino = .directory then Linked.entriesList types path children else [])
def Linked.entriesList (types : Nat → InodeType) (path : String) :
    List Link → List Linked.Entry
  | [] => []
  | child :: rest =>
    Linked.entries types (path ++ "/" ++ child.name) child ++ Linked.entriesList types path rest
end

/-- The names under the disk-image root. -/
def Linked.rootEntries (types : Nat → InodeType) : Option Link → List Linked.Entry
  | none => []
  | some n => Linked.entries types disk_root n

/-- The directory entry the callback is handed for a name. -/
def Linked.Entry.de (types : Nat → InodeType) (e : Linked.Entry) : Dirent :=
  direntOf types e.name e.ino

/-- A name the callback acts on: neither a directory nor a symbolic link, and its path ends in
the image suffix. -/
def Linked.Entry.qualifies (types : Nat → InodeType) (e : Linked.Entry) : Bool :=
  !(e.de types).IsDir && !(e.de types).IsSymlink && HasSuffix e.path "img"

mutual
/-- The names the walk visits, in the order it visits them: the names of the tree but those
below a directory that cannot be read. -/
def Linked.visits (env : Env) (types : Nat → InodeType) (path : String) :
    Link → List Linked.Entry
  | .link name ino children =>
    { path := path, name := name, ino := ino }
      :: (if types ino = .directory ∧ env.readdirErr path = none then
            Linked.visitsList env types path children
          else [])
def Linked.visitsList (env : Env) (types : Nat → InodeType) (path : String) :
    List Link → List Linked.Entry
  | [] => []
  | child :: rest =>
    Linked.visits env types (path ++ "/" ++ child.name) child
      ++ Linked.visitsList env types path rest
end

/-- Mode, uid and gid of an inode as the callback, invoked on one of its names, leaves them. -/
def Linked.Entry.visit (env : Env) (types : Nat → InodeType) (e : Linked.Entry) (st : Stat) :
    Stat :=
  (Callback env e.path (e.de types) st).st

/-- The inodes after the callback has been invoked on the names of a list, one after the
other. -/
def Linked.applyVisits (env : Env) (types : Nat → InodeType) :
    List Linked.Entry → (Nat → Stat) → (Nat → Stat)
  | [], stats => stats
  | e :: rest, stats =>
    Linked.applyVisits env types rest (setStat stats e.ino (e.visit env types (stats e.ino)))

/-- What invocations of the callback have done to an inode: whether a chmod on it succeeded,
and whether a chown on it did. -/
structure Effect where
  chmod : Bool
  chown : Bool
  deriving DecidableEq, Repr

/-- Mode, uid and gid after an effect. -/
def Effect.apply (b : Effect) (st : Stat) : Stat :=
  { mode := if b.chmod then insecureMode else st.mode
    uid := if b.chown then uidQemu else st.uid
    gid := if b.chown then gidQemu else st.gid }

/-- Two effects, one after the other. -/
def Effect.join (b c : Effect) : Effect :=
  { chmod := b.chmod || c.chmod, chown := b.chown || c.chown }

/-- The effect of the callback invoked on a name: none unless the name qualifies; the chown
is issued when the chmod has succeeded. -/
def Linked.Entry.effect (env : Env) (types : Nat → InodeType) (e : Linked.Entry) : Effect :=
  if e.qualifies types then
    match env.chmodErr e.path, env.chownErr e.path with
    | some _, _ => { chmod := false, chown := false }
    | none, some _ => { chmod := true, chown := false }
    | none, none => { chmod := true, chown := true }
  else { chmod := false, chown := false }

/-- The effect on one inode of the callback invoked on the names of a list. -/
def Linked.effectAt (env : Env) (types : Nat → InodeType) (i : Nat) :
    List Linked.Entry → Effect
  | [] => { chmod := false, chown := false }
  | e :: rest =>
    if e.ino = i then (e.effect env types).join (Linked.effectAt env types i rest)
    else Linked.effectAt env types i rest

/-- The type the tree of entries gives a name that is not a directory. -/
def InodeType.fileType : InodeType → FileType
  | .symlink => .symlink
  | .other => .other
  | _ => .regular

mutual
/-- The tree of entries of a filesystem with hard links: every name with mode, uid and gid of
the inode it links to. -/
def Linked.toNode (types : Nat → InodeType) (stats : Nat → Stat) : Link → Node
  | .link name ino children =>
    if types ino = .directory then .dir name (stats ino) (Linked.toNodes types stats children)
    else .file name (types ino).fileType (stats ino)
def Linked.toNodes (types : Nat → InodeType) (stats : Nat → Stat) : List Link → List Node
  | [] => []
  | child :: rest => Linked.toNode types stats child :: Linked.toNodes types stats rest
end

/-! ## The document model of the domain description -/

/-- A value of the generic document `mxj.Map` holds: a scalar, a list of values, or a mapping
from names to values (Go `map[string]interface{}`, as an association list read at the first
occurrence of a key). -/
inductive Value
  | scalar (s : String)
  | list (items : List Value)
  | map (fields : List (String × Value))
  deriving Repr

/-- Go map read `m[key]`. -/
def lookup (key : String) : List (String × Value) → Option Value
  | [] => none
  | (k, v) :: rest => if k = key then some v else lookup key rest

/-- Go map write `m[key] = value`. -/
def assign (key : String) (value : Value) : List (String × Value) → List (String × Value)
  | [] => [(key, value)]
  | (k, v) :: rest => if k = key then (k, value) :: rest else (k, v) :: assign key value rest

/-! ## The shared define-domain logic -/

/-- The deserializers `onDefineDomain` calls: `json.Unmarshal` into the machine specification
(the error it returns) and `mxj.NewMapXml` (the map, possibly nil, and the error). -/
structure Decoders where
  jsonUnmarshal : Bytes → Option Error
  NewMapXml : Bytes → Option (List (String × Value)) × Option Error

/-- How a call ends: it returns a value with a nil error, it returns an error, the process
is terminated by `log.Fatalf`, or a run-time panic is raised. -/
inductive Outcome (α : Type)
  | returned (value : α)
  | failed (err : Error)
  | fatal
  | panic
  deriving DecidableEq, Repr

/-- A call together with its effect on the filesystem. -/
structure Call (α : Type) where
  outcome : Outcome α
  root : Option Node
  calls : List Syscall

/-- The function `onDefineDomain` (perms.go lines 103-159). The result of the walk is
discarded. -/
def onDefineDomain (dec : Decoders) (env : Env) (root : Option Node)
    (vmiJSON domainXML : Bytes) : Call Bytes :=
  match dec.jsonUnmarshal vmiJSON with
  | some _ => { outcome := .fatal, root := root, calls := [] }
  | none =>
    let w := enforce env root
    match dec.NewMapXml domainXML with
    | (_, some _) => { outcome := .fatal, root := w.tree, calls := w.calls }
    | (none, none) => { outcome := .fatal, root := w.tree, calls := w.calls }
    | (some _, none) => { outcome := .returned domainXML, root := w.tree, calls := w.calls }

structure OnDefineDomainParams where
  DomainXML : Bytes
  Vmi : Bytes
  deriving DecidableEq, Repr

structure OnDefineDomainResult where
  DomainXML : Bytes
  deriving DecidableEq, Repr

def OnDefineDomainParams.GetVmi (p : OnDefineDomainParams) : Bytes := p.Vmi

def OnDefineDomainParams.GetDomainXML (p : OnDefineDomainParams) : Bytes := p.DomainXML

structure v1alpha1Server where
  deriving DecidableEq, Repr

structure v1alpha2Server where
  deriving DecidableEq, Repr

/-- The method `v1alpha2Server.OnDefineDomain` (perms.go lines 76-85). -/
def v1alpha2Server.OnDefineDomain (_s : v1alpha2Server) (dec : Decoders) (env : Env)
    (root : Option Node) (params : OnDefineDomainParams) : Call OnDefineDomainResult :=
  let r := onDefineDomain dec env root params.GetVmi params.GetDomainXML
  match r.outcome with
  | .failed err => { outcome := .failed err, root := r.root, calls := r.calls }
  | .fatal => { outcome := .fatal, root := r.root, calls := r.calls }
  | .panic => { outcome := .panic, root := r.root, calls := r.calls }
  | .returned newDomainXML =>
    { outcome := .returned { DomainXML := newDomainXML }, root := r.root, calls := r.calls }

/-- The method `v1alpha1Server.OnDefineDomain` (perms.go lines 92-101). -/
def v1alpha1Server.OnDefineDomain (_s : v1alpha1Server) (dec : Decoders) (env : Env)
    (root : Option Node) (params : OnDefineDomainParams) : Call OnDefineDomainResult :=
  let r := onDefineDomain dec env root params.GetVmi params.GetDomainXML
  match r.outcome with
  | .failed err => { outcome := .failed err, root := r.root, calls := r.calls }
  | .fatal => { outcome := .fatal, root := r.root, calls := r.calls }
  | .panic => { outcome := .panic, root := r.root, calls := r.calls }
  | .returned newDomainXML =>
    { outcome := .returned { DomainXML := newDomainXML }, root := r.root, calls := r.calls }

/-! ## Paths into the document: the library calls of `ensureFinalPathExists`

The model of `github.com/clbanning/mxj` covers what `ensureFinalPathExists` calls, for paths
of keys separated by dots. Two things a call depends on beyond its arguments are parameters of
the model: the order in which it ranges over the fields of a map, which Go leaves unspecified
and which the wildcard key `*` makes visible, and the routine the library hands a path with an
index reference (a `[`) to, which is not modelled. A document built by `NewMapXml` is a tree,
no map being reachable along two paths, and holds no nil value; the model has neither sharing
nor nil. -/

/-- What a call into the library depends on beyond its arguments. `scan` is the order in which
the fields of a map are ranged over: it gives the fields in the order of the range, a
permutation of the fields of the map. A call of `ensureFinalPathExists` is given one order,
and nothing ties the order of one call to that of the next. (Go may change the order between
two ranges of one call as well; the theorems below are about paths without wildcard, on which
no map is ranged over, and hold for every order.) `values` and `set` are the library routines
for a path with an index reference: the values of such a path, and the write of
`SetValueForPath` below such a parent path. -/
structure Library where
  scan : List (String × Value) → List (String × Value)
  values : List (String × Value) → String → List Value
  set : List (String × Value) → Value → String → Outcome Unit × List (String × Value)

/-- Go `strings.Split(s, ".")` on the characters of the string. -/
def splitDots : List Char → List (List Char)
  | [] => [[]]
  | c :: cs =>
    match splitDots cs with
    | [] => [[]]
    | seg :: rest => if c = '.' then [] :: seg :: rest else (c :: seg) :: rest

/-- Go `strings.Split(s, ".")`. -/
def Split (s : String) : List String := (splitDots s.data).map String.mk

/-- Go `strings.Join(a, ".")`. -/
def Join : List String → String
  | [] => ""
  | [a] => a
  | a :: b :: rest => a ++ "." ++ Join (b :: rest)

/-- The keys the library walks for a path: the path split at the dots, a last key that is empty
being dropped. -/
def pathKeys (path : String) : List String :=
  let keys := Split path
  if keys.getLast? = some "" then keys.dropLast else keys

/-- The library function `valuesForKeyPath`: the values found under a list of keys. With no
key left, the members of a list are the values, and any other value is itself the value. The
key `*` is the wildcard: it ranges over all values of a map, in the order `scan` gives; a list
passes a key on to its members that are maps. -/
def valuesForKeyPath (scan : List (String × Value) → List (String × Value)) :
    List String → Value → List Value
  | [], m =>
    match m with
    | .list items => items
    | _ => [m]
  | key :: keys, m =>
    if key = "*" then
      match m with
      | .map fields => (scan fields).flatMap (fun kv => valuesForKeyPath scan keys kv.2)
      | .list items => items.flatMap (fun v =>
          match v with
          | .map fields => (scan fields).flatMap (fun kv => valuesForKeyPath scan keys kv.2)
          | _ => valuesForKeyPath scan keys v)
      | _ => []
    else
      match m with
      | .map fields =>
        match lookup key fields with
        | some v => valuesForKeyPath scan keys v
        | none => []
      | .list items => items.flatMap (fun v =>
          match v with
          | .map fields =>
            match lookup key fields with
            | some vv => valuesForKeyPath scan keys vv
            | none => []
          | _ => [])
      | _ => []

/-- The library method `Map.ValuesForPath`: a path without index reference is split into its
keys, which are walked from the root. -/
def ValuesForPath (lib : Library) (m : List (String × Value)) (path : String) : List Value :=
  if '[' ∈ path.data then lib.values m path
  else valuesForKeyPath lib.scan (pathKeys path) (.map m)

/-- The library method `Map.Exists`: the path has at least one value. -/
def Exists (lib : Library) (m : List (String × Value)) (path : String) : Bool :=
  decide (0 < (ValuesForPath lib m path).length)

/-- The result of a write at the first value of a path: no value is there, the write is done
and gives the new container, or the first value is not a map and the type assertion panics. -/
inductive Upd (α : Type)
  | absent
  | done (a : α)
  | panic
  deriving Repr

def Upd.map {α β : Type} (f : α → β) : Upd α → Upd β
  | .absent => .absent
  | .done a => .done (f a)
  | .panic => .panic

/-- The write applied to the first member of a list that holds a value. -/
def updFirstIn {α : Type} (f : α → Upd α) : List α → Upd (List α)
  | [] => .absent
  | x :: xs =>
    match f x with
    | .absent => (updFirstIn f xs).map (fun ys => x :: ys)
    | .done y => .done (y :: xs)
    | .panic => .panic

/-- The statements `cVal := val.(map[string]interface{}); cVal[key] = value` of
`SetValueForPath` on the value found. -/
def assignAt (key : String) (value : Value) : Value → Upd Value
  | .map fields => .done (.map (assign key value fields))
  | _ => .panic

/-- The write applied below the wildcard in a map: the fields are tried in the order of the
range, and the first one under which the write finds a value gets the result under its key. -/
def updFirstField (f : Value → Upd Value) (fields : List (String × Value)) :
    List (String × Value) → Upd (List (String × Value))
  | [] => .absent
  | kv :: rest =>
    match f kv.2 with
    | .absent => updFirstField f fields rest
    | .done w => .done (assign kv.1 w fields)
    | .panic => .panic

/-- The write `f` applied below a key, in the order `valuesForKeyPath` descends: to the first
of the values the key leads to on which `f` finds a value; the containers around it are rebuilt.
-/
def updChildren (scan : List (String × Value) → List (String × Value)) (k : String)
    (f : Value → Upd Value) (m : Value) : Upd Value :=
  if k = "*" then
    match m with
    | .map fields => (updFirstField f fields (scan fields)).map .map
    | .list items => (updFirstIn (fun v =>
        match v with
        | .map fields => (updFirstField f fields (scan fields)).map .map
        | _ => f v) items).map .list
    | _ => .absent
  else
    match m with
    | .map fields =>
      match lookup k fields with
      | some v => (f v).map (fun w => .map (assign k w fields))
      | none => .absent
    | .list items => (updFirstIn (fun v =>
        match v with
        | .map fields =>
          match lookup k fields with
          | some vv => (f vv).map (fun w => .map (assign k w fields))
          | none => .absent
        | _ => .absent) items).map .list
    | _ => .absent

/-- The write `SetValueForPath` performs in place, as a function on the tree: the first value
`valuesForKeyPath` yields under the keys, in the order it yields them, is cast to a map and the
key is assigned in it. -/
def setFirst (scan : List (String × Value) → List (String × Value)) (key : String)
    (value : Value) : List String → Value → Upd Value
  | [], m =>
    match m with
    | .list items => (updFirstIn (assignAt key value) items).map .list
    | _ => assignAt key value m
  | k :: ks, m => updChildren scan k (setFirst scan key value ks) m

/-- The fields of a value that is a map. -/
def Value.fieldsOr (dflt : List (String × Value)) : Value → List (String × Value)
  | .map fields => fields
  | _ => dflt

/-- The library method `Map.SetValueForPath(value, path)`: the parent path is the path without
its last key; `ValueForPath` on it gives the first value or the error that the path does not
exist; the last key is assigned in that value. The document afterwards is returned with the
outcome. -/
def SetValueForPath (lib : Library) (m : List (String × Value)) (value : Value) (path : String) :
    Outcome Unit × List (String × Value) :=
  let pathAry := Split path
  let parentPath := Join pathAry.dropLast
  let key := pathAry.getLast?.getD ""
  if '[' ∈ parentPath.data then lib.set m value path
  else
    match setFirst lib.scan key value (pathKeys parentPath) (.map m) with
    | .absent => (.failed "Path does not exist", m)
    | .done w => (.returned (), w.fieldsOr m)
    | .panic => (.panic, m)

/-- The loop of `ensureFinalPathExists` over `pathSplitted[1:]`, from the current `vp`. -/
def ensureLoop (lib : Library) (m : List (String × Value)) (vp : String) :
    List String → Outcome Bytes × List (String × Value)
  | [] => (.returned [], m)
  | p :: rest =>
    if !Exists lib m vp then
      match SetValueForPath lib m (.map []) vp with
      | (.returned _, m1) => ensureLoop lib m1 (vp ++ "." ++ p) rest
      | (.failed err, m1) => (.failed err, m1)
      | (.fatal, m1) => (.fatal, m1)
      | (.panic, m1) => (.panic, m1)
    else ensureLoop lib m (vp ++ "." ++ p) rest

/-- The function `ensureFinalPathExists` (perms.go lines 161-174): what it returns and the
document afterwards. -/
def ensureFinalPathExists (lib : Library) (path : String) (m : List (String × Value)) :
    Outcome Bytes × List (String × Value) :=
  match Split path with
  | [] => (.panic, m)
  | vp :: rest => ensureLoop lib m vp rest

/-! ### The library on keys without wildcard

A key other than `*` never ranges over a map, so on such keys the order of the range plays no
part. The definitions below are the lookup and the write with a map ranged over in the order
the document lists its fields; the proofs are carried out on them, and `valuesForKeyPath` and
`setFirst` agree with them on keys without wildcard, whatever the order of the range. -/

/-- The values found under a list of keys, a map being ranged over in the order the document
lists its fields. -/
def valuesListed : List String → Value → List Value
  | [], m =>
    match m with
    | .list items => items
    | _ => [m]
  | key :: keys, m =>
    if key = "*" then
      match m with
      | .map fields => fields.flatMap (fun kv => valuesListed keys kv.2)
      | .list items => items.flatMap (fun v =>
          match v with
          | .map fields => fields.flatMap (fun kv => valuesListed keys kv.2)
          | _ => valuesListed keys v)
      | _ => []
    else
      match m with
      | .map fields =>
        match lookup key fields with
        | some v => valuesListed keys v
        | none => []
      | .list items => items.flatMap (fun v =>
          match v with
          | .map fields =>
            match lookup key fields with
            | some vv => valuesListed keys vv
            | none => []
          | _ => [])
      | _ => []

/-- The write `f` applied below a key, in the order `valuesListed` descends. -/
def updListed (k : String) (f : Value → Upd Value) (m : Value) : Upd Value :=
  if k = "*" then
    match m with
    | .map fields =>
      (updFirstIn (fun kv => (f kv.2).map (fun v => (kv.1, v))) fields).map .map
    | .list items => (updFirstIn (fun v =>
        match v with
        | .map fields =>
          (updFirstIn (fun kv => (f kv.2).map (fun v => (kv.1, v))) fields).map .map
        | _ => f v) items).map .list
    | _ => .absent
  else
    match m with
    | .map fields =>
      match lookup k fields with
      | some v => (f v).map (fun w => .map (assign k w fields))
      | none => .absent
    | .list items => (updFirstIn (fun v =>
        match v with
        | .map fields =>
          match lookup k fields with
          | some vv => (f vv).map (fun w => .map (assign k w fields))
          | none => .absent
        | _ => .absent) items).map .list
    | _ => .absent

/-- The write at the first value `valuesListed` yields under the keys. -/
def setListed (key : String) (value : Value) : List String → Value → Upd Value
  | [], m =>
    match m with
    | .list items => (updFirstIn (assignAt key value) items).map .list
    | _ => assignAt key value m
  | k :: ks, m => updListed k (setListed key value ks) m

/-- The values one key leads to from a value, in the order `valuesListed` descends. -/
def children (k : String) (m : Value) : List Value :=
  if k = "*" then
    match m with
    | .map fields => fields.map (fun kv => kv.2)
    | .list items => items.flatMap (fun v =>
        match v with
        | .map fields => fields.map (fun kv => kv.2)
        | _ => [v])
    | _ => []
  else
    match m with
    | .map fields => (lookup k fields).toList
    | .list items => items.flatMap (fun v =>
        match v with
        | .map fields => (lookup k fields).toList
        | _ => [])
    | _ => []

/-- The keys walked for a list of path segments: a last segment that is empty is dropped. -/
def stripKeys (keys : List String) : List String :=
  if keys.getLast? = some "" then keys.dropLast else keys

/-- The loop of `ensureFinalPathExists` on lists of keys instead of joined paths. -/
def loopKeys (m : List (String × Value)) (cur : List String) :
    List String → Outcome Bytes × List (String × Value)
  | [] => (.returned [], m)
  | p :: rest =>
    if 0 < (valuesListed (stripKeys cur) (.map m)).length then loopKeys m (cur ++ [p]) rest
    else
      match setListed (cur.getLast?.getD "") (.map []) (stripKeys cur.dropLast) (.map m) with
      | .absent => (.failed "Path does not exist", m)
      | .done w => loopKeys (w.fieldsOr m) (cur ++ [p]) rest
      | .panic => (.panic, m)

/-- A path of literal keys: no index reference and no segment that is the wildcard `*` of
the library. On such a path the library never ranges over a map. -/
def LiteralPath (path : String) : Prop :=
  '[' ∉ path.data ∧ ∀ s ∈ Split path, s ≠ "*"

/-- A dotted path: names separated by dots, none of them empty and none the wildcard `*` of
the library, without index reference. On such a path the library never scans a map. -/
def DottedPath (path : String) : Prop :=
  '[' ∉ path.data ∧ ∀ s ∈ Split path, s ≠ "" ∧ s ≠ "*"

/-- What is kept of a value: a scalar is the same scalar, a mapping is still a mapping and a
list is still a list. -/
def Keeps (x y : Value) : Prop :=
  (∀ s, x = .scalar s → y = .scalar s)
  ∧ (∀ fields, x = .map fields → ∃ fields1, y = .map fields1)
  ∧ (∀ items, x = .list items → ∃ items1, y = .list items1)

/-- A step into a value: to the value under a key of a map, or to a member of a list. -/
inductive Step
  | key (k : String)
  | index (i : Nat)
  deriving Repr, DecidableEq

/-- The part of a value one step down. -/
def Value.part : Step → Value → Option Value
  | .key k, .map fields => lookup k fields
  | .index i, .list items => items[i]?
  | _, _ => none

/-- The part of a value at a position: the steps are taken from the value down. -/
def Value.partAt : List Step → Value → Option Value
  | [], v => some v
  | s :: rest, v =>
    match v.part s with
    | some c => Value.partAt rest c
    | none => none

/-- What is kept of a part of the document: a scalar is the same scalar, a mapping is still a
mapping, and a list that has members is still a list with as many members. An empty list holds
no value for the library, and nothing is said of it. -/
def Kept (x y : Value) : Prop :=
  (∀ s, x = .scalar s → y = .scalar s)
  ∧ (∀ fields, x = .map fields → ∃ fields1, y = .map fields1)
  ∧ (∀ items, x = .list items → items ≠ [] →
      ∃ items1, y = .list items1 ∧ items1.length = items.length)

/-- Every part of the first value is kept, at its position, in the second. -/
def Extends (x y : Value) : Prop :=
  ∀ (pos : List Step) (v : Value), x.partAt pos = some v →
    ∃ w, y.partAt pos = some w ∧ Kept v w

/-- What a write leaves of the container it is applied to: a map stays a map, a list keeps
its length and the kind of its members, scalars being unchanged, and a scalar is never written
to. -/
def Shape : Value → Value → Prop
  | .map _, .map _ => True
  | .list a, .list b => List.Forall₂ Keeps a b
  | _, _ => False

/-- A write that leaves the shape of the container. -/
def Good (f : Value → Upd Value) : Prop := ∀ c c1, f c = .done c1 → Shape c c1

/-- The fields of a map after a write to one of its values, against the fields before. -/
def FieldsRel (P : Value → Value → Prop) (fields fields1 : List (String × Value)) : Prop :=
  List.Forall₂ (fun kv kv1 => kv1.1 = kv.1 ∧ (kv1.2 = kv.2 ∨ P kv.2 kv1.2)) fields fields1

/-- The write `updListed` applies to a member of a list. -/
def updItem (k : String) (f : Value → Upd Value) : Value → Upd Value
  | .map fields => updListed k f (.map fields)
  | .list l => if k = "*" then f (.list l) else .absent
  | .scalar s => if k = "*" then f (.scalar s) else .absent

/-- The values a key leads to from a member of a list. -/
def childrenItem (k : String) : Value → List Value
  | .map fields => children k (.map fields)
  | .list l => if k = "*" then [.list l] else []
  | .scalar s => if k = "*" then [.scalar s] else []

/-- A write that, applied to its own result, gives that result again. -/
def Idem (f : Value → Upd Value) : Prop := ∀ c c1, f c = .done c1 → f c1 = .done c1

/-! ## Concrete inputs used by the examples -/

/-- Deserializers that reject exactly the empty payload. -/
def sampleDecoders : Decoders :=
  { jsonUnmarshal := fun b => if b = [] then some "unexpected end of JSON input" else none
    NewMapXml := fun b => if b = [] then (none, some "EOF") else (some [("domain", .scalar "")], none) }

/-- The bytes of a machine specification that deserializes: an empty JSON object. -/
def sampleVmi : Bytes := [123, 125]

/-- The bytes of an empty domain description. -/
def sampleDomain : Bytes := [60, 100, 111, 109, 97, 105, 110, 47, 62]

/-- An environment in which every system call succeeds. -/
def okEnv : Env :=
  { chmodErr := fun _ => none, chownErr := fun _ => none, readdirErr := fun _ => none }

/-- An environment in which every chmod is refused. -/
def chmodDenied : Env :=
  { chmodErr := fun _ => some "operation not permitted"
    chownErr := fun _ => none
    readdirErr := fun _ => none }

/-- The root of the example of the specification: an image with mode 0640 owned by 1000/1000
and its lock file. -/
def sampleRoot : Option Node :=
  some (.dir "vmi-disks" { mode := 0o755, uid := 0, gid := 0 }
    [.file "disk0.img" .regular { mode := 0o640, uid := 1000, gid := 1000 },
     .file "disk0.img.lock" .regular { mode := 0o640, uid := 1000, gid := 1000 }])

/-- A root without image files. -/
def emptyRoot : Option Node :=
  some (.dir "vmi-disks" { mode := 0o755, uid := 0, gid := 0 } [])

/-- A root with an image whose owner cannot be changed and a directory that cannot be read,
which holds a second image. -/
def hiddenRoot : Option Node :=
  some (.dir "vmi-disks" { mode := 0o755, uid := 0, gid := 0 }
    [.file "a.img" .regular { mode := 0o640, uid := 1000, gid := 1000 },
     .dir "sub" { mode := 0o700, uid := 0, gid := 0 }
       [.file "b.img" .regular { mode := 0o640, uid := 1000, gid := 1000 }]])

/-- Every chmod succeeds, chown fails on `a.img` only, and `sub` cannot be read. -/
def hiddenEnv : Env :=
  { chmodErr := fun _ => none
    chownErr := fun p =>
      if p = "/var/run/kubevirt-private/vmi-disks/a.img" then some "operation not permitted"
      else none
    readdirErr := fun p =>
      if p = "/var/run/kubevirt-private/vmi-disks/sub" then some "permission denied" else none }

/-- A root with three images, one of them in a directory below the root, and a file that is
not an image. -/
def imagesRoot : Option Node :=
  some (.dir "vmi-disks" { mode := 0o755, uid := 0, gid := 0 }
    [.file "a.img" .regular { mode := 0o640, uid := 1000, gid := 1000 },
     .dir "sub" { mode := 0o700, uid := 0, gid := 0 }
       [.file "b.img" .regular { mode := 0o600, uid := 0, gid := 0 }],
     .file "c.img" .regular { mode := 0o644, uid := 1000, gid := 1000 },
     .file "notes.txt" .regular { mode := 0o644, uid := 1000, gid := 1000 }])

/-- Every chmod succeeds and every directory can be read; chown fails on `a.img` only. -/
def chownDeniedOnA : Env :=
  { chmodErr := fun _ => none
    chownErr := fun p =>
      if p = "/var/run/kubevirt-private/vmi-disks/a.img" then some "operation not permitted"
      else none
    readdirErr := fun _ => none }

/-- The kinds of the inodes of the examples with hard links: inode 1 is a directory, inode 4 a
symbolic link, every other inode a regular file. -/
def linkedTypes : Nat → InodeType :=
  fun i => if i = 1 then .directory else if i = 4 then .symlink else .regular

/-- The inodes of the examples with hard links: the directory has mode 0755 and owner 0/0,
every other inode mode 0640 and owner 1000/1000. -/
def linkedStats : Nat → Stat :=
  fun i => if i = 1 then { mode := 0o755, uid := 0, gid := 0 }
    else { mode := 0o640, uid := 1000, gid := 1000 }

/-- The root of the example of the specification, `disk0.img.lock` being a hard link to
`disk0.img`: both names link to inode 2. -/
def linkedRoot : Option Link :=
  some (.link "vmi-disks" 1 [.link "disk0.img" 2 [], .link "disk0.img.lock" 2 []])

/-- A root in which the lock file has an inode of its own, linked under a second name, next
to the image and a symbolic link whose name ends in "img". -/
def separateRoot : Option Link :=
  some (.link "vmi-disks" 1
    [.link "disk0.img" 2 [], .link "disk0.img.lock" 3 [], .link "lock" 3 [],
     .link "latest.img" 4 []])

/-- A library call that ranges over a map in the order the document lists its fields. The
routines for a path with an index reference are a stand-in; the examples, whose paths have no
index reference, never reach them. -/
def listOrder : Library :=
  { scan := fun fields => fields
    values := fun _ _ => []
    set := fun m _ _ => (.failed "index reference", m) }

/-- A library call that ranges over a map in the opposite order. -/
def reverseOrder : Library :=
  { scan := fun fields => fields.reverse
    values := fun _ _ => []
    set := fun m _ _ => (.failed "index reference", m) }

/-- A document with two elements, both empty. -/
def twoElements : List (String × Value) :=
  [("x", .map []), ("y", .map [])]

/-- A document with one element that holds a scalar. -/
def sampleDoc : List (String × Value) :=
  [("domain", .map [("name", .scalar "vm")])]

/-! ## The walk: helper lemmas -/

mutual
theorem walk_err (env : Env) (p : String) :
    ∀ n : Node, (walk (walkOptions env) env p n).err = none
  | .file name type st => by
    simp only [walk, walkOptions, ErrorCallback]
    split <;> rfl
  | .dir name st children => by
    have ih := walkChildren_err env p children
    simp only [walk, walkOptions, ErrorCallback]
    split
    · rfl
    · split
      · rfl
      · exact ih
theorem walkChildren_err (env : Env) (p : String) :
    ∀ l : List Node, (walkChildren (walkOptions env) env p l).err = none
  | [] => by simp [walkChildren]
  | child :: rest => by
    have h1 := walk_err env (p ++ "/" ++ child.name) child
    have h2 := walkChildren_err env p rest
    simp only [walkChildren, h1]
    exact h2
end

theorem Callback_dir (env : Env) (p name : String) (st : Stat) :
    Callback env p { name := name, isDir := true, isSymlink := false } st
      = { st := st, calls := [], err := none } := by
  simp [Callback, Dirent.IsDir]

theorem walk_file (env : Env) (p name : String) (type : FileType) (st : Stat) :
    walk (walkOptions env) env p (.file name type st)
      = { tree := .file name type
            (Callback env p { name := name, isDir := false, isSymlink := decide (type = .symlink) } st).st
          calls :=
            (Callback env p { name := name, isDir := false, isSymlink := decide (type = .symlink) } st).calls
          err := none } := by
  simp only [walk, walkOptions, ErrorCallback]
  split <;> rfl

theorem walk_dir_unreadable (env : Env) (p name : String) (st : Stat) (children : List Node)
    (e : Error) (h : env.readdirErr p = some e) :
    walk (walkOptions env) env p (.dir name st children)
      = { tree := .dir name st children, calls := [], err := none } := by
  simp [walk, walkOptions, ErrorCallback, Callback_dir, h]

theorem walk_dir_readable (env : Env) (p name : String) (st : Stat) (children : List Node)
    (h : env.readdirErr p = none) :
    walk (walkOptions env) env p (.dir name st children)
      = { tree := .dir name st (walkChildren (walkOptions env) env p children).tree
          calls := (walkChildren (walkOptions env) env p children).calls
          err := none } := by
  simp [walk, walkOptions, Callback_dir, h]
  exact walkChildren_err env p children

theorem walkChildren_cons (env : Env) (p : String) (child : Node) (rest : List Node) :
    walkChildren (walkOptions env) env p (child :: rest)
      = { tree := (walk (walkOptions env) env (p ++ "/" ++ child.name) child).tree
            :: (walkChildren (walkOptions env) env p rest).tree
          calls := (walk (walkOptions env) env (p ++ "/" ++ child.name) child).calls
            ++ (walkChildren (walkOptions env) env p rest).calls
          err := none } := by
  have h1 := walk_err env (p ++ "/" ++ child.name) child
  have h2 := walkChildren_err env p rest
  simp only [walkChildren, h1]
  rw [← h2]

theorem walk_name (env : Env) (p : String) (n : Node) :
    (walk (walkOptions env) env p n).tree.name = n.name := by
  cases n with
  | file name type st => simp [walk_file, Node.name]
  | dir name st children =>
    cases h : env.readdirErr p with
    | none => simp [walk_dir_readable env p name st children h, Node.name]
    | some e => simp [walk_dir_unreadable env p name st children e h, Node.name]

theorem visited_dir (env : Env) (p name : String) (st : Stat) :
    visited env { path := p, de := { name := name, isDir := true, isSymlink := false }, st := st }
      = { path := p, de := { name := name, isDir := true, isSymlink := false }, st := st } := by
  simp [visited, Callback_dir]

mutual
/-- When every directory can be read, the walk leaves every entry as the callback leaves it. -/
theorem entries_walk_readable (env : Env) (hread : ∀ q, env.readdirErr q = none) (p : String) :
    ∀ n : Node, entries p (walk (walkOptions env) env p n).tree = (entries p n).map (visited env)
  | .file name type st => by
    simp [walk_file, entries, visited]
  | .dir name st children => by
    have ih := entriesList_walk_readable env hread p children
    rw [walk_dir_readable env p name st children (hread p)]
    simp only [entries, List.map_cons, visited_dir, ih]
theorem entriesList_walk_readable (env : Env) (hread : ∀ q, env.readdirErr q = none)
    (p : String) :
    ∀ l : List Node, entriesList p (walkChildren (walkOptions env) env p l).tree
      = (entriesList p l).map (visited env)
  | [] => by simp [walkChildren, entriesList]
  | child :: rest => by
    have h1 := entries_walk_readable env hread (p ++ "/" ++ child.name) child
    have h2 := entriesList_walk_readable env hread p rest
    rw [walkChildren_cons]
    simp only [entriesList, walk_name, h1, h2, List.map_append]
end

mutual
/-- Whatever the system calls do, the walk leaves every entry untouched or as the callback
leaves it. -/
theorem entries_walk (env : Env) (p : String) :
    ∀ n : Node, List.Forall₂ (fun e e1 => e1 = e ∨ e1 = visited env e)
      (entries p n) (entries p (walk (walkOptions env) env p n).tree)
  | .file name type st => by
    simp [walk_file, entries, visited]
  | .dir name st children => by
    have ih := entriesList_walk env p children
    cases h : env.readdirErr p with
    | none =>
      rw [walk_dir_readable env p name st children h]
      simp only [entries]
      exact List.Forall₂.cons (Or.inl rfl) ih
    | some e =>
      rw [walk_dir_unreadable env p name st children e h]
      exact List.forall₂_same.mpr (fun _ _ => Or.inl rfl)
theorem entriesList_walk (env : Env) (p : String) :
    ∀ l : List Node, List.Forall₂ (fun e e1 => e1 = e ∨ e1 = visited env e)
      (entriesList p l) (entriesList p (walkChildren (walkOptions env) env p l).tree)
  | [] => by simp [walkChildren, entriesList]
  | child :: rest => by
    have h1 := entries_walk env (p ++ "/" ++ child.name) child
    have h2 := entriesList_walk env p rest
    rw [walkChildren_cons]
    simp only [entriesList, walk_name]
    exact List.rel_append h1 h2
end

theorem Callback_calls (env : Env) (p : String) (de : Dirent) (st : Stat) :
    ∀ c ∈ (Callback env p de st).calls,
      c.path = p ∧ de.IsDir = false ∧ de.IsSymlink = false ∧ HasSuffix p "img" = true := by
  intro c hc
  unfold Callback at hc
  split at hc
  · simp at hc
  · rename_i h1
    split at hc
    · simp at hc
    · rename_i h2
      simp only [Bool.or_eq_true, not_or, Bool.not_eq_true] at h1
      simp only [Bool.not_eq_true, Bool.not_eq_eq_eq_not, Bool.not_true, Bool.not_false,
        Bool.not_eq_false] at h2
      split at hc
      · simp only [List.mem_singleton] at hc
        subst hc
        exact ⟨rfl, h1.1, h1.2, by simpa using h2⟩
      · simp only [List.mem_cons, List.mem_singleton, List.not_mem_nil, or_false] at hc
        rcases hc with hc | hc <;> subst hc <;> exact ⟨rfl, h1.1, h1.2, by simpa using h2⟩

mutual
/-- Every system call of the walk is issued on the path of a qualifying entry. -/
theorem walk_calls (env : Env) (p : String) :
    ∀ n : Node, ∀ c ∈ (walk (walkOptions env) env p n).calls,
      ∃ e ∈ entries p n, e.qualifies = true ∧ c.path = e.path
  | .file name type st => by
    intro c hc
    rw [walk_file] at hc
    obtain ⟨h1, h2, h3, h4⟩ := Callback_calls env p _ st c hc
    refine ⟨⟨p, ⟨name, false, decide (type = .symlink)⟩, st⟩, by simp [entries], ?_, h1⟩
    simp only [Entry.qualifies, h2, h3, h4]
    rfl
  | .dir name st children => by
    intro c hc
    cases h : env.readdirErr p with
    | none =>
      rw [walk_dir_readable env p name st children h] at hc
      obtain ⟨e, he, hq⟩ := walkChildren_calls env p children c hc
      exact ⟨e, by simp [entries, he], hq⟩
    | some e =>
      rw [walk_dir_unreadable env p name st children e h] at hc
      simp at hc
theorem walkChildren_calls (env : Env) (p : String) :
    ∀ l : List Node, ∀ c ∈ (walkChildren (walkOptions env) env p l).calls,
      ∃ e ∈ entriesList p l, e.qualifies = true ∧ c.path = e.path
  | [] => by simp [walkChildren]
  | child :: rest => by
    intro c hc
    rw [walkChildren_cons] at hc
    simp only [List.mem_append] at hc
    rcases hc with hc | hc
    · obtain ⟨e, he, hq⟩ := walk_calls env (p ++ "/" ++ child.name) child c hc
      exact ⟨e, by simp [entriesList, he], hq⟩
    · obtain ⟨e, he, hq⟩ := walkChildren_calls env p rest c hc
      exact ⟨e, by simp [entriesList, he], hq⟩
end

theorem Callback_idem (env : Env) (p : String) (de : Dirent) (st : Stat) :
    Callback env p de (Callback env p de st).st = Callback env p de st := by
  unfold Callback
  split
  · rfl
  · split
    · rfl
    · unfold Chmod Chown
      cases env.chmodErr p <;> cases env.chownErr p <;> rfl

mutual
theorem walk_idem (env : Env) (p : String) :
    ∀ n : Node, walk (walkOptions env) env p (walk (walkOptions env) env p n).tree
      = walk (walkOptions env) env p n
  | .file name type st => by
    simp [walk_file, Callback_idem]
  | .dir name st children => by
    have ih := walkChildren_idem env p children
    cases h : env.readdirErr p with
    | none =>
      rw [walk_dir_readable env p name st children h, walk_dir_readable env p name st _ h, ih]
    | some e =>
      rw [walk_dir_unreadable env p name st children e h,
        walk_dir_unreadable env p name st children e h]
theorem walkChildren_idem (env : Env) (p : String) :
    ∀ l : List Node,
      walkChildren (walkOptions env) env p (walkChildren (walkOptions env) env p l).tree
        = walkChildren (walkOptions env) env p l
  | [] => by simp [walkChildren]
  | child :: rest => by
    have h1 := walk_idem env (p ++ "/" ++ child.name) child
    have h2 := walkChildren_idem env p rest
    rw [walkChildren_cons, walkChildren_cons]
    simp only [walk_name, h1, h2]
end

/-- The callback leaves an entry that does not qualify as it is, and issues no system call. -/
theorem Callback_skip (env : Env) (p : String) (de : Dirent) (st : Stat)
    (h : de.IsDir = true ∨ de.IsSymlink = true ∨ HasSuffix p "img" = false) :
    Callback env p de st = { st := st, calls := [], err := none } := by
  unfold Callback
  split
  · rfl
  · rename_i h1
    simp only [Bool.or_eq_true, not_or, Bool.not_eq_true] at h1
    rcases h with h | h | h
    · simp [h1.1] at h
    · simp [h1.2] at h
    · simp [h]

theorem not_qualifies (e : Entry) (h : ¬ e.qualifies = true) :
    e.de.IsDir = true ∨ e.de.IsSymlink = true ∨ HasSuffix e.path "img" = false := by
  unfold Entry.qualifies at h
  cases h1 : e.de.IsDir <;> cases h2 : e.de.IsSymlink <;> cases h3 : HasSuffix e.path "img" <;>
    simp [h1, h2, h3] at h ⊢

theorem visited_skip (env : Env) (e : Entry) (h : ¬ e.qualifies = true) : visited env e = e := by
  unfold visited
  rw [Callback_skip env e.path e.de e.st (not_qualifies e h)]

/-! ## Root-level facts -/

theorem enforce_err (env : Env) (name : String) (st : Stat) (children : List Node) :
    (enforce env (some (.dir name st children))).err = none := by
  simp only [enforce, Walk]
  exact walk_err env disk_root _

theorem rootEntries_enforce_readable (env : Env) (hread : ∀ q, env.readdirErr q = none) :
    ∀ root : Option Node,
      rootEntries (enforce env root).tree = (rootEntries root).map
        (fun e => if e.qualifies then visited env e else e)
  | none => by simp [enforce, Walk, rootEntries]
  | some (.file name type st) => by
    simp only [enforce, Walk, rootEntries, entries, List.map_cons, List.map_nil]
    have h : HasSuffix disk_root "img" = false := by decide
    simp [Entry.qualifies, h]
  | some (.dir name st children) => by
    simp only [enforce, Walk, rootEntries]
    rw [entries_walk_readable env hread]
    apply List.map_congr_left
    intro e _
    by_cases hq : e.qualifies = true
    · simp [hq]
    · simp [hq, visited_skip env e hq]

theorem rootEntries_enforce (env : Env) :
    ∀ root : Option Node,
      List.Forall₂ (fun e e1 => e1 = e ∨ e1 = visited env e)
        (rootEntries root) (rootEntries (enforce env root).tree)
  | none => by simp [enforce, Walk, rootEntries]
  | some (.file name type st) => by
    simp only [enforce, Walk, rootEntries]
    exact List.forall₂_same.mpr (fun _ _ => Or.inl rfl)
  | some (.dir name st children) => by
    simp only [enforce, Walk, rootEntries]
    exact entries_walk env disk_root _

theorem enforce_calls (env : Env) :
    ∀ root : Option Node, ∀ c ∈ (enforce env root).calls,
      ∃ e ∈ rootEntries root, e.qualifies = true ∧ c.path = e.path
  | none => by simp [enforce, Walk]
  | some (.file name type st) => by simp [enforce, Walk]
  | some (.dir name st children) => by
    simp only [enforce, Walk, rootEntries]
    exact walk_calls env disk_root _

theorem visited_path (env : Env) (e : Entry) : (visited env e).path = e.path := rfl

/-- The callback on a qualifying entry, by the outcome of the two system calls. -/
theorem Callback_qualifying (env : Env) (p : String) (de : Dirent) (st : Stat)
    (h1 : de.IsDir = false) (h2 : de.IsSymlink = false) (h3 : HasSuffix p "img" = true) :
    (Callback env p de st).st =
      match env.chmodErr p, env.chownErr p with
      | some _, _ => st
      | none, some _ => { st with mode := insecureMode }
      | none, none => fixedStat := by
  unfold Callback Chmod Chown
  simp only [h1, h2, h3, Bool.or_self, Bool.false_eq_true, ↓reduceIte, Bool.not_true]
  cases env.chmodErr p <;> cases env.chownErr p <;> rfl

theorem onDefineDomain_not_failed (dec : Decoders) (env : Env) (root : Option Node)
    (vmiJSON domainXML : Bytes) (err : Error) :
    (onDefineDomain dec env root vmiJSON domainXML).outcome ≠ .failed err := by
  unfold onDefineDomain
  split
  · simp
  · split <;> simp

theorem root_is_dir_of_qualifying (root : Option Node)
    (h : ∃ e ∈ rootEntries root, e.qualifies = true) :
    ∃ name st children, root = some (.dir name st children) := by
  obtain ⟨e, he, hq⟩ := h
  match root, he with
  | some (.file name type st), he =>
    simp only [rootEntries, entries, List.mem_singleton] at he
    subst he
    have h : HasSuffix disk_root "img" = false := by decide
    simp [Entry.qualifies, h] at hq
  | some (.dir name st children), _ => exact ⟨name, st, children, rfl⟩

/-! ## The walk on a filesystem with hard links: helper lemmas -/

theorem setStat_same (stats : Nat → Stat) (ino : Nat) : setStat stats ino (stats ino) = stats := by
  funext i
  simp only [setStat]
  split
  · rename_i h
    rw [h]
  · rfl

theorem setStat_ne (stats : Nat → Stat) (ino : Nat) (st : Stat) (i : Nat) (h : i ≠ ino) :
    setStat stats ino st i = stats i := by
  simp [setStat, h]

/-- The walk of the hook on one name: a directory that can be read is left as it is and its
names are walked; on any other name the callback acts and the walk goes on. -/
theorem linkedWalk_eq (env : Env) (types : Nat → InodeType) (p name : String) (ino : Nat)
    (children : List Link) (stats : Nat → Stat) :
    Linked.walk (walkOptions env) env types p (.link name ino children) stats =
      if types ino = .directory ∧ env.readdirErr p = none then
        { stats := (Linked.walkChildren (walkOptions env) env types p children stats).stats
          calls := (Linked.walkChildren (walkOptions env) env types p children stats).calls
          err := (Linked.walkChildren (walkOptions env) env types p children stats).err }
      else
        { stats := setStat stats ino (Callback env p (direntOf types name ino) (stats ino)).st
          calls := (Callback env p (direntOf types name ino) (stats ino)).calls
          err := none } := by
  by_cases hd : types ino = .directory
  · have hcb : Callback env p (direntOf types name ino) (stats ino)
        = { st := stats ino, calls := [], err := none } :=
      Callback_skip env p _ _ (Or.inl (by simp [direntOf, Dirent.IsDir, hd]))
    simp only [Linked.walk, walkOptions, hcb, setStat_same, hd, ↓reduceIte, true_and,
      List.nil_append]
    cases env.readdirErr p <;> simp [ErrorCallback]
  · simp only [Linked.walk, walkOptions, ErrorCallback, hd, ↓reduceIte, false_and]
    split <;> rfl

mutual
theorem linkedWalk_err (env : Env) (types : Nat → InodeType) (p : String) :
    ∀ (n : Link) (stats : Nat → Stat),
      (Linked.walk (walkOptions env) env types p n stats).err = none
  | .link name ino children, stats => by
    rw [linkedWalk_eq]
    split
    · exact linkedWalkChildren_err env types p children stats
    · rfl
theorem linkedWalkChildren_err (env : Env) (types : Nat → InodeType) (p : String) :
    ∀ (l : List Link) (stats : Nat → Stat),
      (Linked.walkChildren (walkOptions env) env types p l stats).err = none
  | [], stats => by simp [Linked.walkChildren]
  | child :: rest, stats => by
    have h1 := linkedWalk_err env types (p ++ "/" ++ child.name) child stats
    simp only [Linked.walkChildren, h1]
    exact linkedWalkChildren_err env types p rest _
end

theorem linkedWalkChildren_cons (env : Env) (types : Nat → InodeType) (p : String)
    (child : Link) (rest : List Link) (stats : Nat → Stat) :
    Linked.walkChildren (walkOptions env) env types p (child :: rest) stats
      = { stats := (Linked.walkChildren (walkOptions env) env types p rest
            (Linked.walk (walkOptions env) env types (p ++ "/" ++ child.name) child stats).stats).stats
          calls := (Linked.walk (walkOptions env) env types (p ++ "/" ++ child.name) child stats).calls
            ++ (Linked.walkChildren (walkOptions env) env types p rest
              (Linked.walk (walkOptions env) env types (p ++ "/" ++ child.name) child stats).stats).calls
          err := none } := by
  have h1 := linkedWalk_err env types (p ++ "/" ++ child.name) child stats
  have h2 := linkedWalkChildren_err env types p rest
    (Linked.walk (walkOptions env) env types (p ++ "/" ++ child.name) child stats).stats
  simp only [Linked.walkChildren, h1]
  rw [← h2]

theorem linked_not_qualifies (types : Nat → InodeType) (e : Linked.Entry)
    (h : ¬ e.qualifies types = true) :
    (e.de types).IsDir = true ∨ (e.de types).IsSymlink = true ∨ HasSuffix e.path "img" = false := by
  unfold Linked.Entry.qualifies at h
  cases h1 : (e.de types).IsDir <;> cases h2 : (e.de types).IsSymlink <;>
    cases h3 : HasSuffix e.path "img" <;> simp [h1, h2, h3] at h ⊢

/-- The callback on a name changes no inode but that of a qualifying name. -/
theorem linked_visit_frame (env : Env) (types : Nat → InodeType) (i : Nat) (p name : String)
    (ino : Nat) (stats : Nat → Stat)
    (h : Linked.Entry.qualifies types { path := p, name := name, ino := ino } = true → ino ≠ i) :
    setStat stats ino (Callback env p (direntOf types name ino) (stats ino)).st i = stats i := by
  by_cases hq : Linked.Entry.qualifies types { path := p, name := name, ino := ino } = true
  · exact setStat_ne stats ino _ i (Ne.symm (h hq))
  · have := linked_not_qualifies types _ hq
    simp only [Linked.Entry.de] at this
    rw [Callback_skip env p _ _ this, setStat_same]

mutual
/-- The walk leaves every inode that no qualifying name of the tree links to. -/
theorem linkedWalk_frame (env : Env) (types : Nat → InodeType) (i : Nat) (p : String) :
    ∀ (n : Link) (stats : Nat → Stat),
      (∀ f ∈ Linked.entries types p n, f.qualifies types = true → f.ino ≠ i) →
      (Linked.walk (walkOptions env) env types p n stats).stats i = stats i
  | .link name ino children, stats => by
    intro h
    rw [linkedWalk_eq]
    split
    · rename_i hd
      exact linkedWalkChildren_frame env types i p children stats
        (fun f hf => h f (by simp [Linked.entries, hd.1, hf]))
    · exact linked_visit_frame env types i p name ino stats
        (h { path := p, name := name, ino := ino } (by simp [Linked.entries]))
theorem linkedWalkChildren_frame (env : Env) (types : Nat → InodeType) (i : Nat) (p : String) :
    ∀ (l : List Link) (stats : Nat → Stat),
      (∀ f ∈ Linked.entriesList types p l, f.qualifies types = true → f.ino ≠ i) →
      (Linked.walkChildren (walkOptions env) env types p l stats).stats i = stats i
  | [], stats => by
    intro _
    simp [Linked.walkChildren]
  | child :: rest, stats => by
    intro h
    have h1 := linkedWalk_frame env types i (p ++ "/" ++ child.name) child stats
      (fun f hf => h f (by simp [Linked.entriesList, hf]))
    rw [linkedWalkChildren_cons]
    simp only
    rw [linkedWalkChildren_frame env types i p rest _
      (fun f hf => h f (by simp [Linked.entriesList, hf])), h1]
end

mutual
/-- Every system call of the walk is issued on the path of a qualifying name. -/
theorem linkedWalk_calls (env : Env) (types : Nat → InodeType) (p : String) :
    ∀ (n : Link) (stats : Nat → Stat),
      ∀ c ∈ (Linked.walk (walkOptions env) env types p n stats).calls,
        ∃ e ∈ Linked.entries types p n, e.qualifies types = true ∧ c.path = e.path
  | .link name ino children, stats => by
    intro c hc
    rw [linkedWalk_eq] at hc
    split at hc
    · rename_i hd
      obtain ⟨e, he, hq⟩ := linkedWalkChildren_calls env types p children stats c hc
      exact ⟨e, by simp [Linked.entries, hd.1, he], hq⟩
    · obtain ⟨h1, h2, h3, h4⟩ := Callback_calls env p _ _ c hc
      refine ⟨{ path := p, name := name, ino := ino }, by simp [Linked.entries], ?_, h1⟩
      simp only [Linked.Entry.qualifies, Linked.Entry.de, h2, h3, h4]
      rfl
theorem linkedWalkChildren_calls (env : Env) (types : Nat → InodeType) (p : String) :
    ∀ (l : List Link) (stats : Nat → Stat),
      ∀ c ∈ (Linked.walkChildren (walkOptions env) env types p l stats).calls,
        ∃ e ∈ Linked.entriesList types p l, e.qualifies types = true ∧ c.path = e.path
  | [], stats => by simp [Linked.walkChildren]
  | child :: rest, stats => by
    intro c hc
    rw [linkedWalkChildren_cons] at hc
    simp only [List.mem_append] at hc
    rcases hc with hc | hc
    · obtain ⟨e, he, hq⟩ := linkedWalk_calls env types (p ++ "/" ++ child.name) child stats c hc
      exact ⟨e, by simp [Linked.entriesList, he], hq⟩
    · obtain ⟨e, he, hq⟩ := linkedWalkChildren_calls env types p rest _ c hc
      exact ⟨e, by simp [Linked.entriesList, he], hq⟩
end

/-- The enforcer walk leaves every inode that no qualifying name under the root links to. -/
theorem linkedEnforce_frame (env : Env) (types : Nat → InodeType) (stats : Nat → Stat)
    (root : Option Link) (i : Nat)
    (h : ∀ f ∈ Linked.rootEntries types root, f.qualifies types = true → f.ino ≠ i) :
    (Linked.enforce env types stats root).stats i = stats i := by
  cases root with
  | none => rfl
  | some n =>
    simp only [Linked.enforce, Linked.Walk]
    split
    · exact linkedWalk_frame env types i disk_root n stats h
    · rfl

theorem linkedEnforce_calls (env : Env) (types : Nat → InodeType) (stats : Nat → Stat)
    (root : Option Link) :
    ∀ c ∈ (Linked.enforce env types stats root).calls,
      ∃ e ∈ Linked.rootEntries types root, e.qualifies types = true ∧ c.path = e.path := by
  cases root with
  | none => simp [Linked.enforce, Linked.Walk]
  | some n =>
    intro c hc
    simp only [Linked.enforce, Linked.Walk] at hc
    split at hc
    · exact linkedWalk_calls env types disk_root n stats c hc
    · simp at hc

/-! ### The walk as a sequence of callbacks on inodes -/

theorem Callback_calls_indep (env : Env) (p : String) (de : Dirent) (st st1 : Stat) :
    (Callback env p de st).calls = (Callback env p de st1).calls := by
  unfold Callback
  split
  · rfl
  · split
    · rfl
    · unfold Chmod
      cases env.chmodErr p <;> rfl

theorem effect_apply_none (st : Stat) :
    Effect.apply { chmod := false, chown := false } st = st := by
  simp [Effect.apply]

theorem effect_apply_join (b c : Effect) (st : Stat) :
    c.apply (b.apply st) = (b.join c).apply st := by
  cases b with
  | mk b1 b2 =>
    cases c with
    | mk c1 c2 => cases b1 <;> cases b2 <;> cases c1 <;> cases c2 <;> rfl

theorem effect_apply_idem (b : Effect) (st : Stat) : b.apply (b.apply st) = b.apply st := by
  cases b with
  | mk b1 b2 => cases b1 <;> cases b2 <;> rfl

/-- The callback on a name has the effect of the name on the inode. -/
theorem visit_eq_effect (env : Env) (types : Nat → InodeType) (e : Linked.Entry) (st : Stat) :
    e.visit env types st = (e.effect env types).apply st := by
  by_cases hq : e.qualifies types = true
  · have hq1 := hq
    simp only [Linked.Entry.qualifies, Bool.and_eq_true, Bool.not_eq_true'] at hq1
    have hst := Callback_qualifying env e.path (e.de types) st hq1.1.1 hq1.1.2 hq1.2
    simp only [Linked.Entry.visit, Linked.Entry.effect, hq, ↓reduceIte, hst]
    cases env.chmodErr e.path <;> cases env.chownErr e.path <;>
      simp [Effect.apply, fixedStat]
  · simp only [Linked.Entry.visit, Linked.Entry.effect, hq, Bool.false_eq_true, ↓reduceIte,
      effect_apply_none]
    rw [Callback_skip env e.path (e.de types) st (linked_not_qualifies types e hq)]

theorem applyVisits_append (env : Env) (types : Nat → InodeType) :
    ∀ (l l1 : List Linked.Entry) (stats : Nat → Stat),
      Linked.applyVisits env types (l ++ l1) stats
        = Linked.applyVisits env types l1 (Linked.applyVisits env types l stats)
  | [], _, _ => rfl
  | e :: l, l1, stats => by
    simp only [List.cons_append, Linked.applyVisits]
    exact applyVisits_append env types l l1 _

/-- Mode, uid and gid of an inode after the callbacks: the effect of the names of the list on
it, applied to what it had. -/
theorem applyVisits_at (env : Env) (types : Nat → InodeType) (i : Nat) :
    ∀ (l : List Linked.Entry) (stats : Nat → Stat),
      Linked.applyVisits env types l stats i = (Linked.effectAt env types i l).apply (stats i)
  | [], stats => by
    simp [Linked.applyVisits, Linked.effectAt, effect_apply_none]
  | e :: l, stats => by
    simp only [Linked.applyVisits, Linked.effectAt]
    rw [applyVisits_at env types i l]
    by_cases h : e.ino = i
    · simp only [h, ↓reduceIte, setStat, visit_eq_effect, effect_apply_join]
    · have h1 : i ≠ e.ino := fun hx => h hx.symm
      simp only [h, ↓reduceIte, setStat_ne _ _ _ _ h1]

theorem applyVisits_idem (env : Env) (types : Nat → InodeType) (l : List Linked.Entry)
    (stats : Nat → Stat) :
    Linked.applyVisits env types l (Linked.applyVisits env types l stats)
      = Linked.applyVisits env types l stats := by
  funext i
  rw [applyVisits_at, applyVisits_at env types i l stats, effect_apply_idem]

mutual
/-- The inodes after the walk are the inodes after the callback on the names it visits. -/
theorem linkedWalk_visits (env : Env) (types : Nat → InodeType) (p : String) :
    ∀ (n : Link) (stats : Nat → Stat),
      (Linked.walk (walkOptions env) env types p n stats).stats
        = Linked.applyVisits env types (Linked.visits env types p n) stats
  | .link name ino children, stats => by
    rw [linkedWalk_eq]
    simp only [Linked.visits, Linked.applyVisits]
    split
    · rename_i hd
      have hcb : Callback env p (direntOf types name ino) (stats ino)
          = { st := stats ino, calls := [], err := none } :=
        Callback_skip env p _ _ (Or.inl (by simp [direntOf, Dirent.IsDir, hd.1]))
      simp only [Linked.Entry.visit, Linked.Entry.de, hcb, setStat_same]
      exact linkedWalkChildren_visits env types p children stats
    · simp only [Linked.applyVisits, Linked.Entry.visit, Linked.Entry.de]
theorem linkedWalkChildren_visits (env : Env) (types : Nat → InodeType) (p : String) :
    ∀ (l : List Link) (stats : Nat → Stat),
      (Linked.walkChildren (walkOptions env) env types p l stats).stats
        = Linked.applyVisits env types (Linked.visitsList env types p l) stats
  | [], stats => by simp [Linked.walkChildren, Linked.visitsList, Linked.applyVisits]
  | child :: rest, stats => by
    rw [linkedWalkChildren_cons]
    simp only [Linked.visitsList, applyVisits_append]
    rw [linkedWalkChildren_visits env types p rest,
      linkedWalk_visits env types (p ++ "/" ++ child.name) child]
end

mutual
/-- The system calls of the walk do not depend on mode, uid and gid of the inodes. -/
theorem linkedWalk_calls_indep (env : Env) (types : Nat → InodeType) (p : String) :
    ∀ (n : Link) (stats stats1 : Nat → Stat),
      (Linked.walk (walkOptions env) env types p n stats).calls
        = (Linked.walk (walkOptions env) env types p n stats1).calls
  | .link name ino children, stats, stats1 => by
    rw [linkedWalk_eq, linkedWalk_eq]
    split
    · exact linkedWalkChildren_calls_indep env types p children stats stats1
    · exact Callback_calls_indep env p _ _ _
theorem linkedWalkChildren_calls_indep (env : Env) (types : Nat → InodeType) (p : String) :
    ∀ (l : List Link) (stats stats1 : Nat → Stat),
      (Linked.walkChildren (walkOptions env) env types p l stats).calls
        = (Linked.walkChildren (walkOptions env) env types p l stats1).calls
  | [], _, _ => by simp [Linked.walkChildren]
  | child :: rest, stats, stats1 => by
    rw [linkedWalkChildren_cons, linkedWalkChildren_cons]
    simp only
    rw [linkedWalk_calls_indep env types (p ++ "/" ++ child.name) child stats stats1,
      linkedWalkChildren_calls_indep env types p rest _
        (Linked.walk (walkOptions env) env types (p ++ "/" ++ child.name) child stats1).stats]
end

mutual
/-- When every directory can be read, the walk visits every name of the tree. -/
theorem visits_readable (env : Env) (types : Nat → InodeType)
    (hread : ∀ q, env.readdirErr q = none) (p : String) :
    ∀ n : Link, Linked.visits env types p n = Linked.entries types p n
  | .link name ino children => by
    simp only [Linked.visits, Linked.entries, hread, and_true,
      visitsList_readable env types hread p children]
theorem visitsList_readable (env : Env) (types : Nat → InodeType)
    (hread : ∀ q, env.readdirErr q = none) (p : String) :
    ∀ l : List Link, Linked.visitsList env types p l = Linked.entriesList types p l
  | [] => rfl
  | child :: rest => by
    simp only [Linked.visitsList, Linked.entriesList,
      visits_readable env types hread (p ++ "/" ++ child.name) child,
      visitsList_readable env types hread p rest]
end

/-- A name on which both system calls succeed leaves its inode with both effects, whatever
the other names of the list do. -/
theorem effectAt_mem (env : Env) (types : Nat → InodeType) (e : Linked.Entry)
    (he : e.effect env types = { chmod := true, chown := true }) :
    ∀ l : List Linked.Entry, e ∈ l →
      Linked.effectAt env types e.ino l = { chmod := true, chown := true }
  | [], h => by simp at h
  | x :: l, h => by
    simp only [Linked.effectAt]
    rcases List.mem_cons.mp h with h | h
    · subst h
      simp [he, Effect.join]
    · have ih := effectAt_mem env types e he l h
      split
      · simp [ih, Effect.join]
      · exact ih

/-! ### The tree of entries is the filesystem without hard links -/

theorem toNode_name (types : Nat → InodeType) (stats : Nat → Stat) (n : Link) :
    (Linked.toNode types stats n).name = n.name := by
  cases n with
  | link name ino children =>
    simp only [Linked.toNode]
    split <;> rfl

mutual
/-- The tree of entries reads mode, uid and gid of the inodes of its names only. -/
theorem toNode_congr (types : Nat → InodeType) (stats stats1 : Nat → Stat) (p : String) :
    ∀ n : Link, (∀ e ∈ Linked.entries types p n, stats1 e.ino = stats e.ino) →
      Linked.toNode types stats1 n = Linked.toNode types stats n
  | .link name ino children => by
    intro h
    have h0 : stats1 ino = stats ino :=
      h { path := p, name := name, ino := ino } (by simp [Linked.entries])
    simp only [Linked.toNode, h0]
    split
    · rename_i hd
      rw [toNodes_congr types stats stats1 p children
        (fun e he => h e (by simp [Linked.entries, hd, he]))]
    · rfl
theorem toNodes_congr (types : Nat → InodeType) (stats stats1 : Nat → Stat) (p : String) :
    ∀ l : List Link, (∀ e ∈ Linked.entriesList types p l, stats1 e.ino = stats e.ino) →
      Linked.toNodes types stats1 l = Linked.toNodes types stats l
  | [] => by
    intro _
    rfl
  | child :: rest => by
    intro h
    simp only [Linked.toNodes]
    rw [toNode_congr types stats stats1 (p ++ "/" ++ child.name) child
        (fun e he => h e (by simp [Linked.entriesList, he])),
      toNodes_congr types stats stats1 p rest
        (fun e he => h e (by simp [Linked.entriesList, he]))]
end

/-- The walk leaves every inode that no name of the tree links to. -/
theorem linkedWalk_outside (env : Env) (types : Nat → InodeType) (i : Nat) (p : String)
    (n : Link) (stats : Nat → Stat)
    (h : i ∉ (Linked.entries types p n).map (fun e => e.ino)) :
    (Linked.walk (walkOptions env) env types p n stats).stats i = stats i := by
  refine linkedWalk_frame env types i p n stats (fun f hf _ heq => h ?_)
  exact List.mem_map.mpr ⟨f, hf, heq⟩

theorem linkedWalkChildren_outside (env : Env) (types : Nat → InodeType) (i : Nat) (p : String)
    (l : List Link) (stats : Nat → Stat)
    (h : i ∉ (Linked.entriesList types p l).map (fun e => e.ino)) :
    (Linked.walkChildren (walkOptions env) env types p l stats).stats i = stats i := by
  refine linkedWalkChildren_frame env types i p l stats (fun f hf _ heq => h ?_)
  exact List.mem_map.mpr ⟨f, hf, heq⟩

theorem fileType_symlink (t : InodeType) :
    decide (t.fileType = .symlink) = decide (t = .symlink) := by
  cases t <;> rfl

mutual
/-- Where no two names of the tree link to the same inode, the walk on the tree of entries is
the walk on the filesystem with hard links. -/
theorem walk_toNode (env : Env) (types : Nat → InodeType) (p : String) :
    ∀ (n : Link) (stats : Nat → Stat),
      ((Linked.entries types p n).map (fun e => e.ino)).Nodup →
      walk (walkOptions env) env p (Linked.toNode types stats n)
        = { tree := Linked.toNode types
              (Linked.walk (walkOptions env) env types p n stats).stats n
            calls := (Linked.walk (walkOptions env) env types p n stats).calls
            err := (Linked.walk (walkOptions env) env types p n stats).err }
  | .link name ino children, stats => by
    intro hnd
    by_cases hd : types ino = .directory
    · simp only [Linked.entries, hd, ↓reduceIte, List.map_cons, List.nodup_cons] at hnd
      cases hr : env.readdirErr p with
      | some e =>
        have hcb : Callback env p (direntOf types name ino) (stats ino)
            = { st := stats ino, calls := [], err := none } :=
          Callback_skip env p _ _ (Or.inl (by simp [direntOf, Dirent.IsDir, hd]))
        rw [linkedWalk_eq]
        simp only [hr, and_false, ↓reduceIte, reduceCtorEq, hcb, setStat_same]
        simp only [Linked.toNode, hd, ↓reduceIte]
        exact walk_dir_unreadable env p name _ _ e hr
      | none =>
        have ih := walkChildren_toNodes env types p children stats hnd.2
        rw [linkedWalk_eq]
        simp only [hr, hd, and_self, ↓reduceIte]
        simp only [Linked.toNode, hd, ↓reduceIte]
        rw [walk_dir_readable env p name _ _ hr, ih,
          linkedWalkChildren_outside env types ino p children stats hnd.1,
          linkedWalkChildren_err]
    · have hcond : ¬ (types ino = .directory ∧ env.readdirErr p = none) := fun h => hd h.1
      rw [linkedWalk_eq]
      simp only [hcond, ↓reduceIte]
      simp only [Linked.toNode, hd, ↓reduceIte, setStat]
      rw [walk_file]
      simp only [direntOf, hd, decide_False, fileType_symlink]
theorem walkChildren_toNodes (env : Env) (types : Nat → InodeType) (p : String) :
    ∀ (l : List Link) (stats : Nat → Stat),
      ((Linked.entriesList types p l).map (fun e => e.ino)).Nodup →
      walkChildren (walkOptions env) env p (Linked.toNodes types stats l)
        = { tree := Linked.toNodes types
              (Linked.walkChildren (walkOptions env) env types p l stats).stats l
            calls := (Linked.walkChildren (walkOptions env) env types p l stats).calls
            err := (Linked.walkChildren (walkOptions env) env types p l stats).err }
  | [], stats => by
    intro _
    simp [Linked.toNodes, walkChildren, Linked.walkChildren]
  | child :: rest, stats => by
    intro hnd
    simp only [Linked.entriesList, List.map_append] at hnd
    obtain ⟨hnd1, hnd2, hdisj⟩ := List.nodup_append.mp hnd
    have ih1 := walk_toNode env types (p ++ "/" ++ child.name) child stats hnd1
    -- the walk of the first name leaves the inodes of the others
    have hrest : Linked.toNodes types
        (Linked.walk (walkOptions env) env types (p ++ "/" ++ child.name) child stats).stats rest
        = Linked.toNodes types stats rest := by
      refine toNodes_congr types stats _ p rest (fun e he => ?_)
      refine linkedWalk_outside env types e.ino _ child stats (fun hin => ?_)
      exact hdisj hin (List.mem_map.mpr ⟨e, he, rfl⟩)
    have ih2 := walkChildren_toNodes env types p rest
      (Linked.walk (walkOptions env) env types (p ++ "/" ++ child.name) child stats).stats hnd2
    rw [hrest] at ih2
    -- the walk of the others leaves the inodes of the first
    have hchild : Linked.toNode types
        (Linked.walkChildren (walkOptions env) env types p rest
          (Linked.walk (walkOptions env) env types (p ++ "/" ++ child.name) child
            stats).stats).stats child
        = Linked.toNode types
          (Linked.walk (walkOptions env) env types (p ++ "/" ++ child.name) child stats).stats
          child := by
      refine toNode_congr types _ _ (p ++ "/" ++ child.name) child (fun e he => ?_)
      refine linkedWalkChildren_outside env types e.ino p rest _ (fun hin => ?_)
      exact hdisj (List.mem_map.mpr ⟨e, he, rfl⟩) hin
    rw [linkedWalkChildren_cons]
    simp only [Linked.toNodes]
    rw [walkChildren_cons, toNode_name, ih1, ih2, hchild]
end

/-! ## The capability server and define-domain -/

/-- C8: for every configured version string and every request, `Info` returns a nil error and
a result named "permission-hook" whose versions are exactly the configured one and whose only
hook point is OnDefineDomain with priority 1. -/
theorem info_describes_capabilities (v : String) (params : InfoParams) :
    infoServer.Info { Version := v } params
      = (some { Name := "permission-hook"
                Versions := [v]
                HookPoints := [{ Name := OnDefineDomainHookPointName, Priority := 1 }] },
         none)
    ∧ OnDefineDomainHookPointName = "OnDefineDomain" :=
  ⟨rfl, rfl⟩

/-- C6: when both payloads deserialize, whatever the filesystem and the outcome of the system
calls, `onDefineDomain` returns exactly the input domain description bytes, and both versioned
wrappers return those bytes in `DomainXML`; bytes that are returned are always the input. -/
theorem onDefineDomain_identity (dec : Decoders) (env : Env) (root : Option Node)
    (vmiJSON domainXML : Bytes) (m : List (String × Value))
    (hvmi : dec.jsonUnmarshal vmiJSON = none)
    (hxml : dec.NewMapXml domainXML = (some m, none)) :
    (onDefineDomain dec env root vmiJSON domainXML).outcome = .returned domainXML
    ∧ (v1alpha2Server.OnDefineDomain {} dec env root
        { DomainXML := domainXML, Vmi := vmiJSON }).outcome
        = .returned { DomainXML := domainXML }
    ∧ (v1alpha1Server.OnDefineDomain {} dec env root
        { DomainXML := domainXML, Vmi := vmiJSON }).outcome
        = .returned { DomainXML := domainXML }
    ∧ ∀ out, (onDefineDomain dec env root vmiJSON domainXML).outcome = .returned out →
        out = domainXML := by
  have h : (onDefineDomain dec env root vmiJSON domainXML).outcome = .returned domainXML := by
    simp [onDefineDomain, hvmi, hxml]
  refine ⟨h, ?_, ?_, ?_⟩
  · simp [v1alpha2Server.OnDefineDomain, OnDefineDomainParams.GetVmi,
      OnDefineDomainParams.GetDomainXML, h]
  · simp [v1alpha1Server.OnDefineDomain, OnDefineDomainParams.GetVmi,
      OnDefineDomainParams.GetDomainXML, h]
  · intro out hout
    rw [h] at hout
    exact (Outcome.returned.inj hout).symm

/-- C6, at the example of the specification: an empty description and a root without image
files. -/
theorem onDefineDomain_identity_witness :
    (onDefineDomain sampleDecoders okEnv emptyRoot sampleVmi sampleDomain).outcome
      = .returned sampleDomain :=
  (onDefineDomain_identity sampleDecoders okEnv emptyRoot sampleVmi sampleDomain
    [("domain", .scalar "")] (by decide) (by rfl)).1

/-- C1, refuted as stated: chmod fails on the qualifying file `disk0.img`, yet
`onDefineDomain` returns the description bytes and no error. -/
theorem chmod_failure_returns_description :
    (∃ e ∈ rootEntries sampleRoot, e.qualifies = true ∧ chmodDenied.chmodErr e.path ≠ none)
    ∧ (onDefineDomain sampleDecoders chmodDenied sampleRoot sampleVmi sampleDomain).outcome
        = .returned sampleDomain := by
  refine ⟨⟨⟨"/var/run/kubevirt-private/vmi-disks/disk0.img",
    ⟨"disk0.img", false, false⟩, ⟨0o640, 1000, 1000⟩⟩, ?_, ?_, ?_⟩, ?_⟩
  · decide
  · decide
  · simp [chmodDenied]
  · decide

/-- C1, amended: if chmod fails for a qualifying file, `onDefineDomain` returns no error all
the same; for well-formed inputs it returns the input description bytes, and the walk itself
reports no error, its error callback skipping the node. -/
theorem chmod_failure_discarded (dec : Decoders) (env : Env) (root : Option Node)
    (vmiJSON domainXML : Bytes) (m : List (String × Value))
    (hvmi : dec.jsonUnmarshal vmiJSON = none)
    (hxml : dec.NewMapXml domainXML = (some m, none))
    (hfail : ∃ e ∈ rootEntries root, e.qualifies = true ∧ env.chmodErr e.path ≠ none) :
    (onDefineDomain dec env root vmiJSON domainXML).outcome = .returned domainXML
    ∧ (enforce env root).err = none := by
  refine ⟨by simp [onDefineDomain, hvmi, hxml], ?_⟩
  obtain ⟨e, he, hq, _⟩ := hfail
  match root, he with
  | some (.file name type st), he =>
    simp only [rootEntries, entries, List.mem_singleton] at he
    subst he
    have h : HasSuffix disk_root "img" = false := by decide
    simp [Entry.qualifies, h] at hq
  | some (.dir name st children), _ => exact enforce_err env name st children

/-- C1 amended, at the example tree with every chmod refused. -/
theorem chmod_failure_discarded_witness :
    (onDefineDomain sampleDecoders chmodDenied sampleRoot sampleVmi sampleDomain).outcome
      = .returned sampleDomain
    ∧ (enforce chmodDenied sampleRoot).err = none :=
  chmod_failure_discarded sampleDecoders chmodDenied sampleRoot sampleVmi sampleDomain
    [("domain", .scalar "")] (by decide) (by rfl)
    ⟨⟨"/var/run/kubevirt-private/vmi-disks/disk0.img",
      ⟨"disk0.img", false, false⟩, ⟨0o640, 1000, 1000⟩⟩, by decide, by decide,
      by simp [chmodDenied]⟩

/-! ## The enforcer walk -/

/-- C2: when every chmod and chown succeeds and every directory can be read, the enforcer walk
keeps the entries of the tree (paths and types), and afterwards every entry that is neither a
directory nor a symbolic link and whose path ends in "img" has mode 0666 and uid = gid = 107. -/
theorem enforce_fixes_images (env : Env) (root : Option Node)
    (hchmod : ∀ q, env.chmodErr q = none) (hchown : ∀ q, env.chownErr q = none)
    (hread : ∀ q, env.readdirErr q = none) :
    (rootEntries (enforce env root).tree).map (fun e => (e.path, e.de))
      = (rootEntries root).map (fun e => (e.path, e.de))
    ∧ ∀ e ∈ rootEntries (enforce env root).tree,
        e.de.IsDir = false → e.de.IsSymlink = false → HasSuffix e.path "img" = true →
        e.st.mode = 0o666 ∧ e.st.uid = 107 ∧ e.st.gid = 107 := by
  rw [rootEntries_enforce_readable env hread root]
  constructor
  · rw [List.map_map]
    apply List.map_congr_left
    intro e _
    by_cases hq : e.qualifies = true <;> simp [hq, visited]
  · intro e he h1 h2 h3
    obtain ⟨e0, _, rfl⟩ := List.mem_map.mp he
    by_cases hq : e0.qualifies = true
    · simp only [hq, ↓reduceIte] at h1 h2 h3 ⊢
      have hst := Callback_qualifying env e0.path e0.de e0.st h1 h2 h3
      rw [hchmod, hchown] at hst
      simp only [visited, hst]
      exact ⟨rfl, rfl, rfl⟩
    · simp only [hq, Bool.false_eq_true, ↓reduceIte] at h1 h2 h3
      exact absurd (by simp [Entry.qualifies, h1, h2, h3]) hq

/-- C2, at the example of the specification: `disk0.img` with mode 0640 and owner 1000/1000
ends with mode 0666 and owner 107/107, and the lock file is as before. -/
theorem enforce_fixes_images_witness :
    (∀ e ∈ rootEntries (enforce okEnv sampleRoot).tree,
        e.de.IsDir = false → e.de.IsSymlink = false → HasSuffix e.path "img" = true →
        e.st.mode = 0o666 ∧ e.st.uid = 107 ∧ e.st.gid = 107)
    ∧ (enforce okEnv sampleRoot).tree =
        some (.dir "vmi-disks" { mode := 0o755, uid := 0, gid := 0 }
          [.file "disk0.img" .regular { mode := 0o666, uid := 107, gid := 107 },
           .file "disk0.img.lock" .regular { mode := 0o640, uid := 1000, gid := 1000 }]) :=
  ⟨(enforce_fixes_images okEnv sampleRoot (fun _ => rfl) (fun _ => rfl) (fun _ => rfl)).2,
   by rfl⟩

/-- C3, refuted as stated: `disk0.img.lock` is a hard link to `disk0.img`, one inode under two
names, and every system call succeeds. The walk issues chmod and chown on the path of
`disk0.img` only, and `disk0.img.lock`, a file whose path does not end in "img", goes from mode
0640 and owner 1000/1000 to mode 0666 and owner 107/107. -/
theorem hard_link_is_modified :
    (∃ e ∈ Linked.rootEntries linkedTypes linkedRoot,
      e.path = "/var/run/kubevirt-private/vmi-disks/disk0.img.lock"
      ∧ (e.de linkedTypes).IsDir = false ∧ (e.de linkedTypes).IsSymlink = false
      ∧ HasSuffix e.path "img" = false
      ∧ linkedStats e.ino = { mode := 0o640, uid := 1000, gid := 1000 }
      ∧ (Linked.enforce okEnv linkedTypes linkedStats linkedRoot).stats e.ino
          = { mode := 0o666, uid := 107, gid := 107 })
    ∧ (Linked.enforce okEnv linkedTypes linkedStats linkedRoot).calls
        = [.chmod "/var/run/kubevirt-private/vmi-disks/disk0.img" 0o666,
           .chown "/var/run/kubevirt-private/vmi-disks/disk0.img" 107 107] :=
  ⟨⟨⟨"/var/run/kubevirt-private/vmi-disks/disk0.img.lock", "disk0.img.lock", 2⟩,
    by decide, rfl, by decide, by decide, by decide, by decide, by decide⟩, by decide⟩

/-- C3, amended: for every tree of names, every assignment of the names to inodes (hard links
included) and every outcome of chmod, chown and directory reads, every name that is a
directory or a symbolic link, and every file whose path does not end in "img" and whose inode
no qualifying name of the tree links to (a name that is neither directory nor symbolic link and
whose path ends in "img"), has the same mode, uid and gid after the enforcer walk as before
it; the callback issues no system call on such a name; and every chmod and chown of the walk is
issued on the path of a qualifying name. -/
theorem enforce_selective (env : Env) (types : Nat → InodeType) (stats : Nat → Stat)
    (root : Option Link) :
    (∀ e ∈ Linked.rootEntries types root,
        ((e.de types).IsDir = true ∨ (e.de types).IsSymlink = true
          ∨ (HasSuffix e.path "img" = false
            ∧ ∀ f ∈ Linked.rootEntries types root, f.qualifies types = true → f.ino ≠ e.ino)) →
        (Linked.enforce env types stats root).stats e.ino = stats e.ino
        ∧ ∀ st, (Callback env e.path (e.de types) st).calls = [])
    ∧ ∀ c ∈ (Linked.enforce env types stats root).calls,
        ∃ e ∈ Linked.rootEntries types root,
          (e.de types).IsDir = false ∧ (e.de types).IsSymlink = false
          ∧ HasSuffix e.path "img" = true ∧ c.path = e.path := by
  constructor
  · intro e _ hcond
    constructor
    · refine linkedEnforce_frame env types stats root e.ino (fun f _ hq => ?_)
      simp only [Linked.Entry.qualifies, Linked.Entry.de, direntOf, Dirent.IsDir,
        Dirent.IsSymlink, Bool.and_eq_true, Bool.not_eq_true', decide_eq_false_iff_not] at hq
      rcases hcond with h | h | h
      · simp only [Linked.Entry.de, direntOf, Dirent.IsDir, decide_eq_true_eq] at h
        intro heq
        exact hq.1.1 (heq ▸ h)
      · simp only [Linked.Entry.de, direntOf, Dirent.IsSymlink, decide_eq_true_eq] at h
        intro heq
        exact hq.1.2 (heq ▸ h)
      · refine h.2 f (by assumption) ?_
        simp only [Linked.Entry.qualifies, Linked.Entry.de, direntOf, Dirent.IsDir,
          Dirent.IsSymlink, Bool.and_eq_true, Bool.not_eq_true', decide_eq_false_iff_not]
        exact hq
    · intro st
      rw [Callback_skip env e.path (e.de types) st
        (hcond.imp id (fun h => h.imp id (fun h2 => h2.1)))]
  · intro c hc
    obtain ⟨e, he, hq, hp⟩ := linkedEnforce_calls env types stats root c hc
    simp only [Linked.Entry.qualifies, Bool.and_eq_true, Bool.not_eq_true'] at hq
    exact ⟨e, he, hq.1.1, hq.1.2, hq.2, hp⟩

/-- C3 amended, at a root where the lock file has its own inode, linked under the two names
`disk0.img.lock` and `lock`, next to `disk0.img` and a symbolic link `latest.img`: the image
ends with mode 0666 and owner 107/107, and the inodes of the directory, of the lock file and
of the symbolic link are as before. -/
theorem enforce_selective_witness :
    (Linked.enforce okEnv linkedTypes linkedStats separateRoot).stats 2
      = { mode := 0o666, uid := 107, gid := 107 }
    ∧ (Linked.enforce okEnv linkedTypes linkedStats separateRoot).stats 1 = linkedStats 1
    ∧ (Linked.enforce okEnv linkedTypes linkedStats separateRoot).stats 3 = linkedStats 3
    ∧ (Linked.enforce okEnv linkedTypes linkedStats separateRoot).stats 4 = linkedStats 4
    ∧ ((∀ e ∈ Linked.rootEntries linkedTypes separateRoot,
        ((e.de linkedTypes).IsDir = true ∨ (e.de linkedTypes).IsSymlink = true
          ∨ (HasSuffix e.path "img" = false
            ∧ ∀ f ∈ Linked.rootEntries linkedTypes separateRoot,
                f.qualifies linkedTypes = true → f.ino ≠ e.ino)) →
        (Linked.enforce okEnv linkedTypes linkedStats separateRoot).stats e.ino
          = linkedStats e.ino
        ∧ ∀ st, (Callback okEnv e.path (e.de linkedTypes) st).calls = [])
      ∧ ∀ c ∈ (Linked.enforce okEnv linkedTypes linkedStats separateRoot).calls,
        ∃ e ∈ Linked.rootEntries linkedTypes separateRoot,
          (e.de linkedTypes).IsDir = false ∧ (e.de linkedTypes).IsSymlink = false
          ∧ HasSuffix e.path "img" = true ∧ c.path = e.path) :=
  ⟨by decide, by decide, by decide, by decide,
   enforce_selective okEnv linkedTypes linkedStats separateRoot⟩

/-- C7: for every tree and every outcome of chmod, chown and directory reads that depends on
the path only, a second run of the enforcer walk leaves the tree, with the mode, uid and gid of
every entry, as the first run left it. -/
theorem enforce_idempotent (env : Env) (root : Option Node) :
    (enforce env (enforce env root).tree).tree = (enforce env root).tree := by
  match root with
  | none => rfl
  | some (.file name type st) => rfl
  | some (.dir name st children) =>
    have h := walk_idem env disk_root (.dir name st children)
    cases hr : env.readdirErr disk_root with
    | none =>
      rw [walk_dir_readable env disk_root name st children hr] at h
      simp only [enforce, Walk, walk_dir_readable env disk_root name st children hr]
      rw [h]
    | some e =>
      simp only [enforce, Walk, walk_dir_unreadable env disk_root name st children e hr]

/-- C4, refuted as stated: every chmod succeeds and chown fails for exactly one qualifying file,
`a.img`; the other qualifying file, `b.img`, lies in a directory that cannot be read, is skipped
by the walk, and keeps mode 0640 and owner 1000/1000. -/
theorem unreadable_directory_hides_image :
    (∀ q, hiddenEnv.chmodErr q = none)
    ∧ (∀ e ∈ rootEntries hiddenRoot, e.qualifies = true →
        (hiddenEnv.chownErr e.path ≠ none ↔ e.path = "/var/run/kubevirt-private/vmi-disks/a.img"))
    ∧ (∃ e ∈ rootEntries (enforce hiddenEnv hiddenRoot).tree,
        e.qualifies = true ∧ e.path ≠ "/var/run/kubevirt-private/vmi-disks/a.img"
        ∧ e.st = { mode := 0o640, uid := 1000, gid := 1000 }) := by
  refine ⟨fun _ => rfl, by decide, ?_⟩
  exact ⟨⟨"/var/run/kubevirt-private/vmi-disks/sub/b.img", ⟨"b.img", false, false⟩,
    ⟨0o640, 1000, 1000⟩⟩, by decide, by decide, by decide, rfl⟩

/-- C4, amended: in a tree whose directories can all be read, where every chmod succeeds and
chown fails for exactly one qualifying file, the walk reports no error, `onDefineDomain` returns
no error (and returns the description when both payloads deserialize), the entries of the tree
are kept, every other qualifying file ends with mode 0666 and uid = gid = 107, and the file
whose chown failed has mode 0666. -/
theorem chown_failure_isolated (dec : Decoders) (env : Env) (root : Option Node)
    (vmiJSON domainXML : Bytes) (f : String)
    (hread : ∀ q, env.readdirErr q = none)
    (hchmod : ∀ q, env.chmodErr q = none)
    (hf : ∃ e ∈ rootEntries root, e.qualifies = true ∧ e.path = f)
    (hchown : ∀ e ∈ rootEntries root, e.qualifies = true →
      (env.chownErr e.path ≠ none ↔ e.path = f)) :
    (enforce env root).err = none
    ∧ (∀ err, (onDefineDomain dec env root vmiJSON domainXML).outcome ≠ .failed err)
    ∧ (dec.jsonUnmarshal vmiJSON = none → (∃ m, dec.NewMapXml domainXML = (some m, none)) →
        (onDefineDomain dec env root vmiJSON domainXML).outcome = .returned domainXML)
    ∧ (rootEntries (enforce env root).tree).map (fun e => (e.path, e.de))
        = (rootEntries root).map (fun e => (e.path, e.de))
    ∧ (∀ e ∈ rootEntries (enforce env root).tree, e.qualifies = true → e.path ≠ f →
        e.st.mode = 0o666 ∧ e.st.uid = 107 ∧ e.st.gid = 107)
    ∧ (∀ e ∈ rootEntries (enforce env root).tree, e.qualifies = true → e.path = f →
        e.st.mode = 0o666) := by
  obtain ⟨name, st, children, hroot⟩ :=
    root_is_dir_of_qualifying root (hf.imp fun e h => ⟨h.1, h.2.1⟩)
  have key : ∀ e ∈ rootEntries (enforce env root).tree, e.qualifies = true →
      (e.path ≠ f → e.st = fixedStat) ∧ (e.path = f → e.st.mode = insecureMode) := by
    intro e he hq
    rw [rootEntries_enforce_readable env hread root] at he
    obtain ⟨e0, he0, rfl⟩ := List.mem_map.mp he
    have hq0 : e0.qualifies = true := by
      by_cases h : e0.qualifies = true
      · exact h
      · simp [h] at hq
    simp only [hq0, ↓reduceIte, visited_path]
    have hq1 := hq0
    simp only [Entry.qualifies, Bool.and_eq_true, Bool.not_eq_true'] at hq1
    have hst := Callback_qualifying env e0.path e0.de e0.st hq1.1.1 hq1.1.2 hq1.2
    rw [hchmod] at hst
    have hc := hchown e0 he0 hq0
    constructor
    · intro hne
      have : env.chownErr e0.path = none := by
        by_contra hx
        exact hne (hc.mp hx)
      rw [this] at hst
      simp only [visited, hst]
    · intro heq
      cases hx : env.chownErr e0.path with
      | none =>
        rw [hx] at hst
        simp only [visited, hst, fixedStat]
      | some err =>
        rw [hx] at hst
        simp only [visited, hst]
  refine ⟨?_, onDefineDomain_not_failed dec env root vmiJSON domainXML, ?_, ?_, ?_, ?_⟩
  · rw [hroot]
    exact enforce_err env name st children
  · rintro hvmi ⟨m, hxml⟩
    simp [onDefineDomain, hvmi, hxml]
  · rw [rootEntries_enforce_readable env hread root, List.map_map]
    apply List.map_congr_left
    intro e _
    by_cases hq : e.qualifies = true <;> simp [hq, visited]
  · intro e he hq hne
    have h := (key e he hq).1 hne
    rw [h]
    exact ⟨rfl, rfl, rfl⟩
  · intro e he hq heq
    exact (key e he hq).2 heq

/-- C4 amended, at a tree with three qualifying files, `a.img`, `sub/b.img` and `c.img`, where
chown fails on `a.img` only: the walk reports no error, the description is returned, the two
other images end with mode 0666 and owner 107/107, and `a.img` has mode 0666 with the owner it
had. -/
theorem chown_failure_isolated_witness :
    ((rootEntries imagesRoot).filter (fun e => e.qualifies)).map (fun e => e.path)
      = ["/var/run/kubevirt-private/vmi-disks/a.img",
         "/var/run/kubevirt-private/vmi-disks/sub/b.img",
         "/var/run/kubevirt-private/vmi-disks/c.img"]
    ∧ (enforce chownDeniedOnA imagesRoot).tree
      = some (.dir "vmi-disks" { mode := 0o755, uid := 0, gid := 0 }
          [.file "a.img" .regular { mode := 0o666, uid := 1000, gid := 1000 },
           .dir "sub" { mode := 0o700, uid := 0, gid := 0 }
             [.file "b.img" .regular { mode := 0o666, uid := 107, gid := 107 }],
           .file "c.img" .regular { mode := 0o666, uid := 107, gid := 107 },
           .file "notes.txt" .regular { mode := 0o644, uid := 1000, gid := 1000 }])
    ∧ ((enforce chownDeniedOnA imagesRoot).err = none
      ∧ (∀ err, (onDefineDomain sampleDecoders chownDeniedOnA imagesRoot sampleVmi
          sampleDomain).outcome ≠ .failed err)
      ∧ (sampleDecoders.jsonUnmarshal sampleVmi = none →
          (∃ m, sampleDecoders.NewMapXml sampleDomain = (some m, none)) →
          (onDefineDomain sampleDecoders chownDeniedOnA imagesRoot sampleVmi
            sampleDomain).outcome = .returned sampleDomain)
      ∧ (rootEntries (enforce chownDeniedOnA imagesRoot).tree).map (fun e => (e.path, e.de))
          = (rootEntries imagesRoot).map (fun e => (e.path, e.de))
      ∧ (∀ e ∈ rootEntries (enforce chownDeniedOnA imagesRoot).tree, e.qualifies = true →
          e.path ≠ "/var/run/kubevirt-private/vmi-disks/a.img" →
          e.st.mode = 0o666 ∧ e.st.uid = 107 ∧ e.st.gid = 107)
      ∧ (∀ e ∈ rootEntries (enforce chownDeniedOnA imagesRoot).tree, e.qualifies = true →
          e.path = "/var/run/kubevirt-private/vmi-disks/a.img" → e.st.mode = 0o666)) :=
  ⟨by decide, by rfl,
   chown_failure_isolated sampleDecoders chownDeniedOnA imagesRoot sampleVmi sampleDomain
    "/var/run/kubevirt-private/vmi-disks/a.img" (fun _ => rfl) (fun _ => rfl)
    ⟨⟨"/var/run/kubevirt-private/vmi-disks/a.img", ⟨"a.img", false, false⟩,
      ⟨0o640, 1000, 1000⟩⟩, by decide, by decide, rfl⟩
    (by decide)⟩

/-- C5, refuted as stated: the machine specification deserializes, the domain description
does not; `onDefineDomain` ends in the fatal failure, but the enforcer walk has run before:
`disk0.img` has been given mode 0666 and owner 107/107. -/
theorem malformed_description_after_walk :
    sampleDecoders.NewMapXml [] = (none, some "EOF")
    ∧ (onDefineDomain sampleDecoders okEnv sampleRoot sampleVmi []).outcome = .fatal
    ∧ (onDefineDomain sampleDecoders okEnv sampleRoot sampleVmi []).root =
        some (.dir "vmi-disks" { mode := 0o755, uid := 0, gid := 0 }
          [.file "disk0.img" .regular { mode := 0o666, uid := 107, gid := 107 },
           .file "disk0.img.lock" .regular { mode := 0o640, uid := 1000, gid := 1000 }])
    ∧ (onDefineDomain sampleDecoders okEnv sampleRoot sampleVmi []).calls =
        [.chmod "/var/run/kubevirt-private/vmi-disks/disk0.img" 0o666,
         .chown "/var/run/kubevirt-private/vmi-disks/disk0.img" 107 107] := by
  refine ⟨by rfl, by decide, by rfl, by decide⟩

/-- C5, amended: `onDefineDomain` deserializes the machine specification, runs the enforcer
walk, and then deserializes the domain description. If the machine specification fails to
deserialize, the call ends in the fatal failure with no system call issued and the tree
unchanged; if it deserializes and the domain description does not, the call ends in the fatal
failure after the walk, with the tree as the walk left it. -/
theorem malformed_input_is_fatal (dec : Decoders) (env : Env) (root : Option Node)
    (vmiJSON domainXML : Bytes) :
    (dec.jsonUnmarshal vmiJSON ≠ none →
      (onDefineDomain dec env root vmiJSON domainXML).outcome = .fatal
      ∧ (onDefineDomain dec env root vmiJSON domainXML).root = root
      ∧ (onDefineDomain dec env root vmiJSON domainXML).calls = [])
    ∧ (dec.jsonUnmarshal vmiJSON = none →
      ((dec.NewMapXml domainXML).2 ≠ none ∨ (dec.NewMapXml domainXML).1 = none) →
      (onDefineDomain dec env root vmiJSON domainXML).outcome = .fatal
      ∧ (onDefineDomain dec env root vmiJSON domainXML).root = (enforce env root).tree
      ∧ (onDefineDomain dec env root vmiJSON domainXML).calls = (enforce env root).calls) := by
  constructor
  · intro h
    cases hv : dec.jsonUnmarshal vmiJSON with
    | none => exact absurd hv h
    | some e => simp [onDefineDomain, hv]
  · intro hv hx
    unfold onDefineDomain
    simp only [hv]
    split
    · exact ⟨rfl, rfl, rfl⟩
    · exact ⟨rfl, rfl, rfl⟩
    · rename_i heq
      rw [heq] at hx
      simp at hx

/-- C5 amended, at a machine specification that does not deserialize, and at a domain
description that does not. -/
theorem malformed_input_is_fatal_witness :
    ((onDefineDomain sampleDecoders okEnv sampleRoot [] sampleDomain).outcome = .fatal
      ∧ (onDefineDomain sampleDecoders okEnv sampleRoot [] sampleDomain).root = sampleRoot
      ∧ (onDefineDomain sampleDecoders okEnv sampleRoot [] sampleDomain).calls = [])
    ∧ ((onDefineDomain sampleDecoders okEnv sampleRoot sampleVmi []).outcome = .fatal
      ∧ (onDefineDomain sampleDecoders okEnv sampleRoot sampleVmi []).root
          = (enforce okEnv sampleRoot).tree
      ∧ (onDefineDomain sampleDecoders okEnv sampleRoot sampleVmi []).calls
          = (enforce okEnv sampleRoot).calls) :=
  ⟨(malformed_input_is_fatal sampleDecoders okEnv sampleRoot [] sampleDomain).1 (by decide),
   (malformed_input_is_fatal sampleDecoders okEnv sampleRoot sampleVmi []).2 (by decide)
     (Or.inl (by decide))⟩

/-! ## The enforcer on a filesystem with hard links

The postcondition and the idempotence of the walk, stated above on a tree in which every name
has a mode, uid and gid of its own, hold as well where names share inodes. -/

/-- With hard links, when every chmod, every chown and every directory read succeeds, every
qualifying name ends with mode 0666 and uid = gid = 107. -/
theorem linked_enforce_fixes_images (env : Env) (types : Nat → InodeType) (stats : Nat → Stat)
    (root : Option Link)
    (hread : ∀ q, env.readdirErr q = none)
    (hchmod : ∀ q, env.chmodErr q = none)
    (hchown : ∀ q, env.chownErr q = none) :
    ∀ e ∈ Linked.rootEntries types root, e.qualifies types = true →
      (Linked.enforce env types stats root).stats e.ino
        = { mode := 0o666, uid := 107, gid := 107 } := by
  intro e he hq
  cases root with
  | none => simp [Linked.rootEntries] at he
  | some n =>
    simp only [Linked.rootEntries] at he
    simp only [Linked.enforce, Linked.Walk]
    split
    · rw [linkedWalk_visits, visits_readable env types hread, applyVisits_at,
        effectAt_mem env types e (by simp [Linked.Entry.effect, hq, hchmod, hchown]) _ he]
      rfl
    · rename_i hd
      cases n with
      | link name ino children =>
        simp only [Link.ino] at hd
        simp only [Linked.entries, hd, ↓reduceIte, List.mem_singleton] at he
        subst he
        have h : HasSuffix disk_root "img" = false := by decide
        simp [Linked.Entry.qualifies, h] at hq

/-- With hard links, for every outcome of chmod, chown and directory reads that depends on the
path only, a second walk leaves mode, uid and gid of every inode as the first walk left them,
issues the same system calls and returns the same error. -/
theorem linked_enforce_idempotent (env : Env) (types : Nat → InodeType) (stats : Nat → Stat)
    (root : Option Link) :
    (Linked.enforce env types (Linked.enforce env types stats root).stats root).stats
      = (Linked.enforce env types stats root).stats
    ∧ (Linked.enforce env types (Linked.enforce env types stats root).stats root).calls
      = (Linked.enforce env types stats root).calls
    ∧ (Linked.enforce env types (Linked.enforce env types stats root).stats root).err
      = (Linked.enforce env types stats root).err := by
  cases root with
  | none => exact ⟨rfl, rfl, rfl⟩
  | some n =>
    simp only [Linked.enforce, Linked.Walk]
    split
    · refine ⟨?_, ?_, ?_⟩
      · rw [linkedWalk_visits, linkedWalk_visits, applyVisits_idem]
      · exact linkedWalk_calls_indep env types disk_root n _ _
      · rw [linkedWalk_err, linkedWalk_err]
    · exact ⟨rfl, rfl, rfl⟩

/-- The example of the specification with `disk0.img.lock` a hard link to `disk0.img`: a second
walk changes nothing. -/
theorem linked_enforce_idempotent_example :
    (Linked.enforce okEnv linkedTypes
        (Linked.enforce okEnv linkedTypes linkedStats linkedRoot).stats linkedRoot).stats 2
      = (Linked.enforce okEnv linkedTypes linkedStats linkedRoot).stats 2 := by
  decide

/-- The tree of entries is the filesystem in which no file is linked under two names: where
no two names under the root link to the same inode, the enforcer walk on the tree of entries
leaves the tree of entries of the filesystem after the walk, with the same system calls and the
same error. -/
theorem enforce_of_linked (env : Env) (types : Nat → InodeType) (stats : Nat → Stat)
    (root : Option Link)
    (hnodup : ((Linked.rootEntries types root).map (fun e => e.ino)).Nodup) :
    enforce env (root.map (Linked.toNode types stats))
      = { tree := root.map
            (Linked.toNode types (Linked.enforce env types stats root).stats)
          calls := (Linked.enforce env types stats root).calls
          err := (Linked.enforce env types stats root).err } := by
  cases root with
  | none => rfl
  | some n =>
    cases n with
    | link name ino children =>
      by_cases hd : types ino = .directory
      · have h := walk_toNode env types disk_root (.link name ino children) stats hnodup
        simp only [Linked.toNode, hd, ↓reduceIte] at h
        simp only [enforce, Walk, Linked.enforce, Linked.Walk, Option.map_some', Linked.toNode,
          Link.ino, hd, ↓reduceIte, h]
      · simp [enforce, Walk, Linked.enforce, Linked.Walk, Linked.toNode, Link.ino, hd]

/-- The example of the specification as a filesystem in which every name has its own inode:
its tree of entries is the tree of the example, and the walk on either ends in the same tree.
-/
theorem enforce_of_linked_example :
    (some (Link.link "vmi-disks" 1 [.link "disk0.img" 2 [], .link "disk0.img.lock" 3 []])).map
        (Linked.toNode linkedTypes linkedStats) = sampleRoot
    ∧ (enforce okEnv sampleRoot).tree
      = (some (Link.link "vmi-disks" 1 [.link "disk0.img" 2 [], .link "disk0.img.lock" 3 []])).map
          (Linked.toNode linkedTypes
            (Linked.enforce okEnv linkedTypes linkedStats
              (some (.link "vmi-disks" 1
                [.link "disk0.img" 2 [], .link "disk0.img.lock" 3 []]))).stats) := by
  have h := enforce_of_linked okEnv linkedTypes linkedStats
    (some (.link "vmi-disks" 1 [.link "disk0.img" 2 [], .link "disk0.img.lock" 3 []]))
    (by decide)
  have h0 : (some (Link.link "vmi-disks" 1
      [.link "disk0.img" 2 [], .link "disk0.img.lock" 3 []])).map
        (Linked.toNode linkedTypes linkedStats) = sampleRoot := by rfl
  rw [h0] at h
  exact ⟨h0, by rw [h]⟩

/-! ## The document: helper lemmas -/

theorem lookup_assign_same (k : String) (v : Value) :
    ∀ fields : List (String × Value), lookup k (assign k v fields) = some v
  | [] => by simp [assign, lookup]
  | (j, u) :: rest => by
    by_cases h : j = k
    · simp [assign, lookup, h]
    · simp [assign, lookup, h, lookup_assign_same k v rest]

theorem lookup_assign_ne (k e : String) (v : Value) (h : e ≠ k) :
    ∀ fields : List (String × Value), lookup e (assign k v fields) = lookup e fields
  | [] => by simp [assign, lookup, Ne.symm h]
  | (j, u) :: rest => by
    by_cases hj : j = k
    · subst hj
      simp [assign, lookup, Ne.symm h]
    · by_cases he : j = e
      · subst he
        simp [assign, lookup, h]
      · simp [assign, lookup, hj, he, lookup_assign_ne k e v h rest]

theorem assign_assign (k : String) (u v : Value) :
    ∀ fields : List (String × Value), assign k v (assign k u fields) = assign k v fields
  | [] => by simp [assign]
  | (j, w) :: rest => by
    by_cases hj : j = k
    · simp [assign, hj]
    · simp [assign, hj, assign_assign k u v rest]

theorem updFirstIn_absent {α : Type} (f : α → Upd α) :
    ∀ l : List α, updFirstIn f l = .absent ↔ ∀ x ∈ l, f x = .absent
  | [] => by simp [updFirstIn]
  | x :: xs => by
    have ih := updFirstIn_absent f xs
    simp only [updFirstIn, List.mem_cons, forall_eq_or_imp]
    cases hx : f x with
    | absent =>
      cases hxs : updFirstIn f xs with
      | absent => simpa [Upd.map] using ih.mp hxs
      | done ys =>
        simp only [Upd.map, false_iff, true_and, reduceCtorEq]
        intro h
        rw [ih.mpr h] at hxs
        cases hxs
      | panic =>
        simp only [Upd.map, false_iff, true_and, reduceCtorEq]
        intro h
        rw [ih.mpr h] at hxs
        cases hxs
    | done y => simp
    | panic => simp

theorem updFirstIn_done {α : Type} (f : α → Upd α) :
    ∀ l l1 : List α, updFirstIn f l = .done l1 →
      ∃ pre x y post, l = pre ++ x :: post ∧ l1 = pre ++ y :: post
        ∧ (∀ z ∈ pre, f z = .absent) ∧ f x = .done y
  | [], l1 => by simp [updFirstIn]
  | x :: xs, l1 => by
    intro h
    simp only [updFirstIn] at h
    cases hx : f x with
    | absent =>
      rw [hx] at h
      cases hxs : updFirstIn f xs with
      | absent => simp [hxs, Upd.map] at h
      | panic => simp [hxs, Upd.map] at h
      | done ys =>
        simp only [hxs, Upd.map, Upd.done.injEq] at h
        obtain ⟨pre, a, b, post, h1, h2, h3, h4⟩ := updFirstIn_done f xs ys hxs
        refine ⟨x :: pre, a, b, post, by simp [h1], by simp [← h, h2], ?_, h4⟩
        intro z hz
        rcases List.mem_cons.mp hz with hz | hz
        · rw [hz, hx]
        · exact h3 z hz
    | done y =>
      rw [hx] at h
      simp only [Upd.done.injEq] at h
      exact ⟨[], x, y, xs, rfl, by simp [← h], by simp, hx⟩
    | panic =>
      rw [hx] at h
      cases h

theorem updFirstIn_split {α : Type} (f : α → Upd α) (pre : List α) (x y : α) (post : List α)
    (hpre : ∀ z ∈ pre, f z = .absent) (hx : f x = .done y) :
    updFirstIn f (pre ++ x :: post) = .done (pre ++ y :: post) := by
  induction pre with
  | nil => simp [updFirstIn, hx]
  | cons z zs ih =>
    have hz : f z = .absent := hpre z (by simp)
    have := ih (fun w hw => hpre w (by simp [hw]))
    simp [updFirstIn, hz, this, Upd.map]

theorem updFirstIn_idem {α : Type} (f : α → Upd α)
    (hf : ∀ x y, f x = .done y → f y = .done y) (l l1 : List α)
    (h : updFirstIn f l = .done l1) : updFirstIn f l1 = .done l1 := by
  obtain ⟨pre, x, y, post, _, h2, h3, h4⟩ := updFirstIn_done f l l1 h
  rw [h2]
  exact updFirstIn_split f pre y y post h3 (hf x y h4)

theorem values_cons (k : String) (ks : List String) (m : Value) :
    valuesListed (k :: ks) m = (children k m).flatMap (valuesListed ks) := by
  unfold valuesListed children
  by_cases hk : k = "*"
  · simp only [hk, ↓reduceIte]
    cases m with
    | scalar s => simp
    | map fields => simp [List.flatMap_map]
    | list items =>
      simp only [List.flatMap_assoc]
      congr 1
      funext v
      cases v <;> simp [List.flatMap_map]
  · simp only [hk, ↓reduceIte]
    cases m with
    | scalar s => simp
    | map fields => cases hl : lookup k fields <;> simp [hl]
    | list items =>
      simp only [List.flatMap_assoc]
      congr 1
      funext v
      cases v with
      | scalar s => simp
      | list l => simp
      | map fields => cases hl : lookup k fields <;> simp [hl]

theorem values_nil_eq_nil (m : Value) : valuesListed [] m = [] ↔ m = .list [] := by
  cases m with
  | scalar s => simp [valuesListed]
  | map fields => simp [valuesListed]
  | list items => simp [valuesListed]

theorem children_empty_list (k : String) : children k (.list []) = [] := by
  unfold children
  split <;> simp

theorem values_empty_list : ∀ ks : List String, valuesListed ks (.list []) = []
  | [] => by simp [valuesListed]
  | k :: ks => by simp [values_cons, children_empty_list]

/-- A path without values has no values under any longer path. -/
theorem values_append_nil :
    ∀ (ks more : List String) (m : Value),
      valuesListed ks m = [] → valuesListed (ks ++ more) m = []
  | [], more, m => by
    intro h
    rw [(values_nil_eq_nil m).mp h]
    exact values_empty_list _
  | k :: ks, more, m => by
    intro h
    rw [values_cons] at h
    rw [List.cons_append, values_cons]
    rw [List.flatMap_eq_nil_iff] at h ⊢
    intro c hc
    exact values_append_nil ks more c (h c hc)

/-! ### One key down: `children` and `updListed` -/

theorem children_star_map (fields : List (String × Value)) :
    children "*" (.map fields) = fields.map (fun kv => kv.2) := by
  simp [children]

theorem children_key_map (k : String) (hk : k ≠ "*") (fields : List (String × Value)) :
    children k (.map fields) = (lookup k fields).toList := by
  simp [children, hk]

theorem children_scalar (k s : String) : children k (.scalar s) = [] := by
  unfold children
  split <;> rfl

theorem children_list (k : String) (items : List Value) :
    children k (.list items) = items.flatMap (childrenItem k) := by
  unfold children
  by_cases hk : k = "*"
  · simp only [hk, ↓reduceIte]
    congr 1
    funext v
    cases v <;> simp [childrenItem, children]
  · simp only [hk, ↓reduceIte]
    congr 1
    funext v
    cases v <;> simp [childrenItem, children, hk]

theorem Upd.map_done {α β : Type} (f : α → β) (u : Upd α) (b : β) (h : u.map f = .done b) :
    ∃ a, u = .done a ∧ b = f a := by
  cases u with
  | absent => simp [Upd.map] at h
  | panic => simp [Upd.map] at h
  | done a =>
    simp only [Upd.map, Upd.done.injEq] at h
    exact ⟨a, rfl, h.symm⟩

theorem Upd.map_absent {α β : Type} (f : α → β) (u : Upd α) :
    u.map f = .absent ↔ u = .absent := by
  cases u <;> simp [Upd.map]

theorem forall₂_mem_left {α : Type} (R : α → α → Prop) :
    ∀ l l1 : List α, List.Forall₂ R l l1 → ∀ a ∈ l, ∃ b ∈ l1, R a b
  | [], _, _, a, ha => by simp at ha
  | x :: l, _, h, a, ha => by
    cases h with
    | @cons _ y _ l1 hxy hrest =>
      rcases List.mem_cons.mp ha with ha | ha
      · subst ha
        exact ⟨y, by simp, hxy⟩
      · obtain ⟨b, hb, hab⟩ := forall₂_mem_left R l l1 hrest a ha
        exact ⟨b, by simp [hb], hab⟩

theorem forall₂_refl_or {α : Type} (P : α → α → Prop) (l : List α) :
    List.Forall₂ (fun a b => b = a ∨ P a b) l l :=
  List.forall₂_same.mpr (fun _ _ => Or.inl rfl)

theorem lookup_rel (P : Value → Value → Prop) (e : String) :
    ∀ fields fields1 : List (String × Value), FieldsRel P fields fields1 →
      List.Forall₂ (fun a b => b = a ∨ P a b) (lookup e fields).toList (lookup e fields1).toList
  | [], _, h => by
    cases h
    simp [lookup]
  | (j, u) :: rest, _, h => by
    cases h with
    | @cons _ kv1 _ rest1 hhead htail =>
      obtain ⟨j1, u1⟩ := kv1
      simp only at hhead
      obtain ⟨hj, hu⟩ := hhead
      subst hj
      by_cases he : j1 = e
      · simp only [lookup, he, ↓reduceIte, Option.toList_some]
        exact List.Forall₂.cons hu List.Forall₂.nil
      · simp only [lookup, he, ↓reduceIte]
        exact lookup_rel P e rest rest1 htail

theorem children_map_rel (P : Value → Value → Prop) (e : String)
    (fields fields1 : List (String × Value)) (h : FieldsRel P fields fields1) :
    List.Forall₂ (fun a b => b = a ∨ P a b) (children e (.map fields))
      (children e (.map fields1)) := by
  by_cases he : e = "*"
  · subst he
    rw [children_star_map, children_star_map]
    rw [List.forall₂_map_left_iff, List.forall₂_map_right_iff]
    exact List.Forall₂.imp (fun _ _ hkv => hkv.2) h
  · rw [children_key_map e he, children_key_map e he]
    exact lookup_rel P e fields fields1 h

theorem assign_rel (k : String) (c c1 : Value) :
    ∀ fields : List (String × Value), lookup k fields = some c →
      FieldsRel (fun a b => a = c ∧ b = c1) fields (assign k c1 fields)
  | [], h => by simp [lookup] at h
  | (j, u) :: rest, h => by
    by_cases hj : j = k
    · simp only [lookup, hj, ↓reduceIte, Option.some.injEq] at h
      simp only [assign, hj, ↓reduceIte, FieldsRel]
      refine List.Forall₂.cons ⟨rfl, Or.inr ⟨h, rfl⟩⟩ ?_
      exact List.forall₂_same.mpr (fun _ _ => ⟨rfl, Or.inl rfl⟩)
    · simp only [lookup, hj, ↓reduceIte] at h
      simp only [assign, hj, ↓reduceIte, FieldsRel]
      exact List.Forall₂.cons ⟨rfl, Or.inl rfl⟩ (assign_rel k c c1 rest h)

theorem FieldsRel.imp {P Q : Value → Value → Prop} {fields fields1 : List (String × Value)}
    (h : FieldsRel P fields fields1) (hpq : ∀ a b, (∃ j, (j, a) ∈ fields) → P a b → Q a b) :
    FieldsRel Q fields fields1 := by
  unfold FieldsRel at h ⊢
  induction h with
  | nil => exact List.Forall₂.nil
  | @cons kv kv1 l l1 hhead _ ih =>
    refine List.Forall₂.cons ⟨hhead.1, ?_⟩ (ih ?_)
    · rcases hhead.2 with h2 | h2
      · exact Or.inl h2
      · exact Or.inr (hpq _ _ ⟨kv.1, by simp⟩ h2)
    · intro a b ⟨j, hj⟩ hp
      exact hpq a b ⟨j, by simp [hj]⟩ hp

theorem updFields_rel (f : Value → Upd Value) (fields fields1 : List (String × Value))
    (h : updFirstIn (fun kv => (f kv.2).map (fun v => (kv.1, v))) fields = .done fields1) :
    FieldsRel (fun a b => f a = .done b) fields fields1 := by
  obtain ⟨pre, x, y, post, h1, h2, _, h4⟩ := updFirstIn_done _ fields fields1 h
  obtain ⟨c1, hc1, hy⟩ := Upd.map_done _ _ _ h4
  subst h1 h2 hy
  unfold FieldsRel
  refine List.rel_append (List.forall₂_same.mpr (fun _ _ => ⟨rfl, Or.inl rfl⟩)) ?_
  exact List.Forall₂.cons ⟨rfl, Or.inr hc1⟩
    (List.forall₂_same.mpr (fun _ _ => ⟨rfl, Or.inl rfl⟩))

theorem lookup_mem (k : String) (c : Value) :
    ∀ fields : List (String × Value), lookup k fields = some c → (k, c) ∈ fields
  | [], h => by simp [lookup] at h
  | (j, u) :: rest, h => by
    by_cases hj : j = k
    · simp only [lookup, hj, ↓reduceIte, Option.some.injEq] at h
      simp [hj, h]
    · simp only [lookup, hj, ↓reduceIte] at h
      simp [lookup_mem k c rest h]

theorem Keeps.refl (x : Value) : Keeps x x :=
  ⟨fun _ h => h, fun fields h => ⟨fields, h⟩, fun items h => ⟨items, h⟩⟩

theorem Keeps.trans {x y z : Value} (h1 : Keeps x y) (h2 : Keeps y z) : Keeps x z := by
  refine ⟨fun s hs => h2.1 s (h1.1 s hs), fun fields hf => ?_, fun items hi => ?_⟩
  · obtain ⟨g, hg⟩ := h1.2.1 fields hf
    exact h2.2.1 g hg
  · obtain ⟨b, hb⟩ := h1.2.2 items hi
    exact h2.2.2 b hb

theorem Keeps.map_map (fields fields1 : List (String × Value)) :
    Keeps (.map fields) (.map fields1) :=
  ⟨fun _ h => (by cases h), fun _ _ => ⟨fields1, rfl⟩, fun _ h => (by cases h)⟩

theorem Keeps.list_list (items items1 : List Value) : Keeps (.list items) (.list items1) :=
  ⟨fun _ h => (by cases h), fun _ h => (by cases h), fun _ _ => ⟨items1, rfl⟩⟩

theorem updListed_list (k : String) (f : Value → Upd Value) (items : List Value) :
    updListed k f (.list items) = (updFirstIn (updItem k f) items).map .list := by
  unfold updListed
  by_cases hk : k = "*"
  · simp only [hk, ↓reduceIte]
    congr 2
    funext v
    cases v <;> simp [updItem, updListed]
  · simp only [hk, ↓reduceIte]
    congr 2
    funext v
    cases v <;> simp [updItem, updListed, hk]

theorem updListed_scalar (k : String) (f : Value → Upd Value) (s : String) :
    updListed k f (.scalar s) = .absent := by
  unfold updListed
  split <;> rfl

theorem updListed_map_rel (k : String) (f : Value → Upd Value)
    (fields : List (String × Value)) (w : Value)
    (h : updListed k f (.map fields) = .done w) :
    ∃ fields1, w = .map fields1
      ∧ FieldsRel (fun a b => a ∈ children k (.map fields) ∧ f a = .done b) fields fields1 := by
  by_cases hk : k = "*"
  · subst hk
    simp only [updListed, ↓reduceIte] at h
    obtain ⟨fields1, h1, h2⟩ := Upd.map_done _ _ _ h
    refine ⟨fields1, h2, (updFields_rel f fields fields1 h1).imp ?_⟩
    rintro a b ⟨j, hj⟩ hab
    refine ⟨?_, hab⟩
    rw [children_star_map]
    exact List.mem_map.mpr ⟨(j, a), hj, rfl⟩
  · simp only [updListed, hk, ↓reduceIte] at h
    cases hl : lookup k fields with
    | none => simp [hl] at h
    | some c =>
      simp only [hl] at h
      obtain ⟨c1, h1, h2⟩ := Upd.map_done _ _ _ h
      refine ⟨assign k c1 fields, h2, (assign_rel k c c1 fields hl).imp ?_⟩
      rintro a b _ ⟨ha, hb⟩
      subst ha hb
      rw [children_key_map k hk, hl]
      exact ⟨by simp, h1⟩

theorem Shape.not_scalar {c c1 : Value} (h : Shape c c1) (s : String) : c ≠ .scalar s := by
  intro hc
  subst hc
  cases c1 <;> simp [Shape] at h

theorem Shape.list_right {l : List Value} {c1 : Value} (h : Shape (.list l) c1) :
    ∃ l1, c1 = .list l1 := by
  cases c1 with
  | scalar s => simp [Shape] at h
  | map fields => simp [Shape] at h
  | list l1 => exact ⟨l1, rfl⟩

/-- The values a key leads to, after a write one key down, against those before. -/
theorem updListed_rel (k : String) (f : Value → Upd Value) (hf : Good f) (m w : Value)
    (h : updListed k f m = .done w) (e : String) :
    List.Forall₂ (fun c c1 => c1 = c ∨ (c ∈ children k m ∧ f c = .done c1))
      (children e m) (children e w) := by
  cases m with
  | scalar s => simp [updListed_scalar] at h
  | map fields =>
    obtain ⟨fields1, hw, hrel⟩ := updListed_map_rel k f fields w h
    subst hw
    exact children_map_rel _ e fields fields1 hrel
  | list items =>
    rw [updListed_list] at h
    obtain ⟨items1, h1, hw⟩ := Upd.map_done _ _ _ h
    subst hw
    obtain ⟨pre, x, y, post, hi, hi1, _, hxy⟩ := updFirstIn_done _ items items1 h1
    subst hi hi1
    have hmem : ∀ a, a ∈ childrenItem k x → a ∈ children k (.list (pre ++ x :: post)) := by
      intro a ha
      rw [children_list]
      exact List.mem_flatMap.mpr ⟨x, by simp, ha⟩
    rw [children_list e (pre ++ x :: post), children_list e (pre ++ y :: post)]
    simp only [List.flatMap_append, List.flatMap_cons]
    refine List.rel_append (forall₂_refl_or _ _) (List.rel_append ?_ (forall₂_refl_or _ _))
    cases x with
    | map fields =>
      simp only [updItem] at hxy
      obtain ⟨fields1, hy, hrel⟩ := updListed_map_rel k f fields y hxy
      subst hy
      simp only [childrenItem]
      refine children_map_rel _ e fields fields1 (hrel.imp ?_)
      rintro a b _ ⟨ha, hb⟩
      exact ⟨hmem a (by simpa [childrenItem] using ha), hb⟩
    | scalar s =>
      simp only [updItem] at hxy
      by_cases hk : k = "*"
      · simp only [hk, ↓reduceIte] at hxy
        exact absurd rfl ((hf _ _ hxy).not_scalar s)
      · simp [hk] at hxy
    | list l =>
      simp only [updItem] at hxy
      by_cases hk : k = "*"
      · simp only [hk, ↓reduceIte] at hxy
        obtain ⟨l1, hy⟩ := (hf _ _ hxy).list_right
        subst hy
        simp only [childrenItem]
        by_cases he : e = "*"
        · simp only [he, ↓reduceIte]
          refine List.Forall₂.cons (Or.inr ⟨?_, hxy⟩) List.Forall₂.nil
          exact hmem _ (by simp [childrenItem, hk])
        · simp [he]
      · simp [hk] at hxy

theorem updListed_absent (k : String) (f : Value → Upd Value) (m : Value)
    (h : ∀ c ∈ children k m, f c = .absent) : updListed k f m = .absent := by
  have hmap : ∀ fields, (∀ c ∈ children k (.map fields), f c = .absent) →
      updListed k f (.map fields) = .absent := by
    intro fields hc
    by_cases hk : k = "*"
    · subst hk
      simp only [updListed, ↓reduceIte, Upd.map_absent]
      rw [updFirstIn_absent]
      intro kv hkv
      rw [Upd.map_absent]
      exact hc _ (by rw [children_star_map]; exact List.mem_map.mpr ⟨kv, hkv, rfl⟩)
    · simp only [updListed, hk, ↓reduceIte]
      cases hl : lookup k fields with
      | none => rfl
      | some c =>
        simp only
        rw [Upd.map_absent]
        exact hc c (by simp [children_key_map k hk, hl])
  cases m with
  | scalar s => exact updListed_scalar k f s
  | map fields => exact hmap fields h
  | list items =>
    rw [updListed_list, Upd.map_absent, updFirstIn_absent]
    intro x hx
    have hx2 : ∀ c ∈ childrenItem k x, f c = .absent := by
      intro c hc
      exact h c (by rw [children_list]; exact List.mem_flatMap.mpr ⟨x, hx, hc⟩)
    cases x with
    | map fields => exact hmap fields (by simpa [childrenItem] using hx2)
    | scalar s =>
      by_cases hk : k = "*"
      · simpa [updItem, childrenItem, hk] using hx2
      · simp [updItem, hk]
    | list l =>
      by_cases hk : k = "*"
      · simpa [updItem, childrenItem, hk] using hx2
      · simp [updItem, hk]

theorem updListed_map_hit (k : String) (f : Value → Upd Value)
    (fields : List (String × Value)) (w : Value)
    (h : updListed k f (.map fields) = .done w) :
    ∃ c c1, c ∈ children k (.map fields) ∧ c1 ∈ children k w ∧ f c = .done c1 := by
  by_cases hk : k = "*"
  · subst hk
    simp only [updListed, ↓reduceIte] at h
    obtain ⟨fields1, h1, h2⟩ := Upd.map_done _ _ _ h
    obtain ⟨pre, x, y, post, hf, hf1, _, hxy⟩ := updFirstIn_done _ fields fields1 h1
    obtain ⟨c1, hc1, hy⟩ := Upd.map_done _ _ _ hxy
    subst h2 hf hf1 hy
    exact ⟨x.2, c1, by simp [children_star_map], by simp [children_star_map], hc1⟩
  · simp only [updListed, hk, ↓reduceIte] at h
    cases hl : lookup k fields with
    | none => simp [hl] at h
    | some c =>
      simp only [hl] at h
      obtain ⟨c1, h1, h2⟩ := Upd.map_done _ _ _ h
      subst h2
      exact ⟨c, c1, by simp [children_key_map k hk, hl],
        by simp [children_key_map k hk, lookup_assign_same], h1⟩

/-- A write one key down is applied to one of the values the key leads to, and its result is
among the values the key leads to afterwards. -/
theorem updListed_hit (k : String) (f : Value → Upd Value) (hf : Good f) (m w : Value)
    (h : updListed k f m = .done w) :
    ∃ c c1, c ∈ children k m ∧ c1 ∈ children k w ∧ f c = .done c1 := by
  cases m with
  | scalar s => simp [updListed_scalar] at h
  | map fields => exact updListed_map_hit k f fields w h
  | list items =>
    rw [updListed_list] at h
    obtain ⟨items1, h1, hw⟩ := Upd.map_done _ _ _ h
    subst hw
    obtain ⟨pre, x, y, post, hi, hi1, _, hxy⟩ := updFirstIn_done _ items items1 h1
    subst hi hi1
    have key : ∃ c c1, c ∈ childrenItem k x ∧ c1 ∈ childrenItem k y ∧ f c = .done c1 := by
      cases x with
      | map fields =>
        simp only [updItem] at hxy
        obtain ⟨fields1, hy, _⟩ := updListed_map_rel k f fields y hxy
        obtain ⟨c, c1, ha, hb, hc⟩ := updListed_map_hit k f fields y hxy
        subst hy
        exact ⟨c, c1, by simpa [childrenItem] using ha, by simpa [childrenItem] using hb, hc⟩
      | scalar s =>
        by_cases hk : k = "*"
        · simp only [updItem, hk, ↓reduceIte] at hxy
          exact absurd rfl ((hf _ _ hxy).not_scalar s)
        · simp [updItem, hk] at hxy
      | list l =>
        by_cases hk : k = "*"
        · simp only [updItem, hk, ↓reduceIte] at hxy
          obtain ⟨l1, hy⟩ := (hf _ _ hxy).list_right
          subst hy
          exact ⟨_, _, by simp [childrenItem, hk], by simp [childrenItem, hk], hxy⟩
        · simp [updItem, hk] at hxy
    obtain ⟨c, c1, hc, hc1, hcc⟩ := key
    refine ⟨c, c1, ?_, ?_, hcc⟩
    · rw [children_list]
      exact List.mem_flatMap.mpr ⟨x, by simp, hc⟩
    · rw [children_list]
      exact List.mem_flatMap.mpr ⟨y, by simp, hc1⟩

theorem updListed_map_idem (k : String) (f : Value → Upd Value) (hf : Idem f)
    (fields : List (String × Value)) (w : Value)
    (h : updListed k f (.map fields) = .done w) : updListed k f w = .done w := by
  by_cases hk : k = "*"
  · subst hk
    simp only [updListed, ↓reduceIte] at h
    obtain ⟨fields1, h1, h2⟩ := Upd.map_done _ _ _ h
    subst h2
    simp only [updListed, ↓reduceIte]
    rw [updFirstIn_idem _ ?_ fields fields1 h1]
    · rfl
    · intro x y hxy
      obtain ⟨c1, hc1, hy⟩ := Upd.map_done _ _ _ hxy
      subst hy
      simp [hf _ _ hc1, Upd.map]
  · simp only [updListed, hk, ↓reduceIte] at h
    cases hl : lookup k fields with
    | none => simp [hl] at h
    | some c =>
      simp only [hl] at h
      obtain ⟨c1, h1, h2⟩ := Upd.map_done _ _ _ h
      subst h2
      simp [updListed, hk, lookup_assign_same, hf _ _ h1, Upd.map, assign_assign]

theorem updListed_idem (k : String) (f : Value → Upd Value) (hf : Idem f) (hg : Good f) :
    Idem (updListed k f) := by
  intro m w h
  cases m with
  | scalar s => simp [updListed_scalar] at h
  | map fields => exact updListed_map_idem k f hf fields w h
  | list items =>
    rw [updListed_list] at h
    obtain ⟨items1, h1, hw⟩ := Upd.map_done _ _ _ h
    subst hw
    rw [updListed_list, updFirstIn_idem _ ?_ items items1 h1]
    · rfl
    · intro x y hxy
      cases x with
      | map fields =>
        simp only [updItem] at hxy
        obtain ⟨fields1, hy, _⟩ := updListed_map_rel k f fields y hxy
        have := updListed_map_idem k f hf fields y hxy
        subst hy
        simpa [updItem] using this
      | scalar s =>
        by_cases hk : k = "*"
        · simp only [updItem, hk, ↓reduceIte] at hxy
          exact absurd rfl ((hg _ _ hxy).not_scalar s)
        · simp [updItem, hk] at hxy
      | list l =>
        by_cases hk : k = "*"
        · simp only [updItem, hk, ↓reduceIte] at hxy
          obtain ⟨l1, hy⟩ := (hg _ _ hxy).list_right
          subst hy
          simpa [updItem, hk] using hf _ _ hxy
        · simp [updItem, hk] at hxy

theorem updListed_good (k : String) (f : Value → Upd Value) (hg : Good f) :
    Good (updListed k f) := by
  intro m w h
  cases m with
  | scalar s => simp [updListed_scalar] at h
  | map fields =>
    obtain ⟨fields1, hw, _⟩ := updListed_map_rel k f fields w h
    subst hw
    simp [Shape]
  | list items =>
    rw [updListed_list] at h
    obtain ⟨items1, h1, hw⟩ := Upd.map_done _ _ _ h
    subst hw
    obtain ⟨pre, x, y, post, hi, hi1, _, hxy⟩ := updFirstIn_done _ items items1 h1
    subst hi hi1
    simp only [Shape]
    refine List.rel_append (List.forall₂_same.mpr fun x _ => Keeps.refl x)
      (List.Forall₂.cons ?_ (List.forall₂_same.mpr fun x _ => Keeps.refl x))
    cases x with
    | map fields =>
      simp only [updItem] at hxy
      obtain ⟨fields1, hy, _⟩ := updListed_map_rel k f fields y hxy
      subst hy
      exact Keeps.map_map fields fields1
    | scalar s =>
      by_cases hk : k = "*"
      · simp only [updItem, hk, ↓reduceIte] at hxy
        exact absurd rfl ((hg _ _ hxy).not_scalar s)
      · simp [updItem, hk] at hxy
    | list l =>
      by_cases hk : k = "*"
      · simp only [updItem, hk, ↓reduceIte] at hxy
        obtain ⟨l1, hy⟩ := (hg _ _ hxy).list_right
        subst hy
        exact Keeps.list_list l l1
      · simp [updItem, hk] at hxy

/-! ### The write at the value found -/

theorem assignAt_done (key : String) (v x y : Value) (h : assignAt key v x = .done y) :
    ∃ fields, x = .map fields ∧ y = .map (assign key v fields) := by
  cases x with
  | scalar s => simp [assignAt] at h
  | list l => simp [assignAt] at h
  | map fields =>
    simp only [assignAt, Upd.done.injEq] at h
    exact ⟨fields, rfl, h.symm⟩

theorem assignAt_ne_absent (key : String) (v x : Value) : assignAt key v x ≠ .absent := by
  cases x <;> simp [assignAt]

/-- The write with no key left: the value is a map and the key is assigned in it, or it is a
list whose first member is a map and the key is assigned there. -/
theorem setListed_nil_done (key : String) (v m w : Value) (h : setListed key v [] m = .done w) :
    (∃ fields, m = .map fields ∧ w = .map (assign key v fields))
    ∨ (∃ fields post, m = .list (.map fields :: post)
        ∧ w = .list (.map (assign key v fields) :: post)) := by
  cases m with
  | scalar s => simp [setListed, assignAt] at h
  | map fields =>
    simp only [setListed, assignAt, Upd.done.injEq] at h
    exact Or.inl ⟨fields, rfl, h.symm⟩
  | list items =>
    simp only [setListed] at h
    obtain ⟨items1, h1, hw⟩ := Upd.map_done _ _ _ h
    cases items with
    | nil => simp [updFirstIn] at h1
    | cons x post =>
      simp only [updFirstIn] at h1
      cases hx : assignAt key v x with
      | absent => exact absurd hx (assignAt_ne_absent key v x)
      | panic => simp [hx] at h1
      | done y =>
        simp only [hx, Upd.done.injEq] at h1
        obtain ⟨fields, hxm, hym⟩ := assignAt_done key v x y hx
        subst hxm hym hw h1
        exact Or.inr ⟨fields, post, rfl, rfl⟩

theorem setListed_nil_absent (key : String) (v m : Value) (h : valuesListed [] m = []) :
    setListed key v [] m = .absent := by
  rw [(values_nil_eq_nil m).mp h]
  simp [setListed, updFirstIn, Upd.map]

theorem setListed_nil_good (key : String) (v : Value) : Good (setListed key v []) := by
  intro m w h
  rcases setListed_nil_done key v m w h with ⟨fields, hm, hw⟩ | ⟨fields, post, hm, hw⟩
  · subst hm hw
    simp [Shape]
  · subst hm hw
    simp only [Shape]
    exact List.Forall₂.cons (Keeps.map_map _ _)
      (List.forall₂_same.mpr fun x _ => Keeps.refl x)

theorem setListed_nil_idem (key : String) (v : Value) : Idem (setListed key v []) := by
  intro m w h
  rcases setListed_nil_done key v m w h with ⟨fields, hm, hw⟩ | ⟨fields, post, hm, hw⟩
  · subst hm hw
    simp [setListed, assignAt, assign_assign]
  · subst hm hw
    simp [setListed, assignAt, assign_assign, updFirstIn, Upd.map]

theorem mem_assign (key : String) (v : Value) :
    ∀ fields : List (String × Value), (key, v) ∈ assign key v fields
  | [] => by simp [assign]
  | (j, u) :: rest => by
    by_cases hj : j = key
    · simp [assign, hj]
    · simp [assign, hj, mem_assign key v rest]

theorem mem_assign_or (key : String) (v : Value) (j : String) (c : Value) :
    ∀ fields : List (String × Value), (j, c) ∈ fields →
      (j, c) ∈ assign key v fields ∨ (j = key ∧ lookup key fields = some c)
  | [], h => by simp at h
  | (i, u) :: rest, h => by
    by_cases hi : i = key
    · subst hi
      rcases List.mem_cons.mp h with h | h
      · right
        simp only [Prod.mk.injEq] at h
        simp [lookup, h.1, h.2]
      · left
        simp [assign, h]
    · rcases List.mem_cons.mp h with h | h
      · left
        simp [assign, hi, h]
      · rcases mem_assign_or key v j c rest h with h1 | h1
        · left
          simp [assign, hi, h1]
        · right
          simp [lookup, hi, h1]

theorem children_of_lookup (key : String) (fields : List (String × Value)) (c : Value)
    (h : lookup key fields = some c) : c ∈ children key (.map fields) := by
  by_cases hk : key = "*"
  · subst hk
    rw [children_star_map]
    exact List.mem_map.mpr ⟨("*", c), lookup_mem "*" c fields h, rfl⟩
  · simp [children_key_map key hk, h]

theorem assigned_mem_children (key : String) (v : Value) (fields : List (String × Value)) :
    v ∈ children key (.map (assign key v fields)) :=
  children_of_lookup key _ v (lookup_assign_same key v fields)

theorem assign_map_children (key : String) (v : Value) (fields : List (String × Value))
    (e : String) (c : Value) (hc : c ∈ children e (.map fields)) :
    c ∈ children e (.map (assign key v fields))
    ∨ (c ∈ children key (.map fields) ∧ v ∈ children e (.map (assign key v fields))) := by
  by_cases he : e = "*"
  · subst he
    rw [children_star_map] at hc
    obtain ⟨⟨j, c0⟩, hj, hc0⟩ := List.mem_map.mp hc
    simp only at hc0
    subst hc0
    rcases mem_assign_or key v j c0 fields hj with h | ⟨_, h⟩
    · left
      rw [children_star_map]
      exact List.mem_map.mpr ⟨(j, c0), h, rfl⟩
    · right
      refine ⟨children_of_lookup key fields c0 h, ?_⟩
      rw [children_star_map]
      exact List.mem_map.mpr ⟨(key, v), mem_assign key v fields, rfl⟩
  · rw [children_key_map e he] at hc
    by_cases hek : e = key
    · subst hek
      right
      refine ⟨by rw [children_key_map e he]; exact hc, ?_⟩
      simp [children_key_map e he, lookup_assign_same]
    · left
      rw [children_key_map e he, lookup_assign_ne key e v hek]
      exact hc

/-- After the write with no key left, a value a key leads to is still there, or it was under
the assigned key and the assigned value is there instead. -/
theorem setListed_nil_children (key : String) (v m w : Value)
    (h : setListed key v [] m = .done w) (e : String) (c : Value) (hc : c ∈ children e m) :
    c ∈ children e w ∨ (c ∈ children key m ∧ v ∈ children e w) := by
  rcases setListed_nil_done key v m w h with ⟨fields, hm, hw⟩ | ⟨fields, post, hm, hw⟩
  · subst hm hw
    exact assign_map_children key v fields e c hc
  · subst hm hw
    rw [children_list] at hc
    simp only [List.flatMap_cons, List.mem_append, childrenItem] at hc
    rw [children_list e, children_list key]
    simp only [List.flatMap_cons, List.mem_append, childrenItem]
    rcases hc with hc | hc
    · rcases assign_map_children key v fields e c hc with h1 | ⟨h1, h2⟩
      · exact Or.inl (Or.inl h1)
      · exact Or.inr ⟨Or.inl h1, Or.inl h2⟩
    · exact Or.inl (Or.inr hc)

theorem setListed_nil_assigned (key : String) (v m w : Value)
    (h : setListed key v [] m = .done w) : v ∈ children key w := by
  rcases setListed_nil_done key v m w h with ⟨fields, hm, hw⟩ | ⟨fields, post, hm, hw⟩
  · subst hm hw
    exact assigned_mem_children key v fields
  · subst hm hw
    rw [children_list]
    simp only [List.flatMap_cons, List.mem_append, childrenItem]
    exact Or.inl (assigned_mem_children key v fields)

theorem setListed_nil_other (key : String) (v m w : Value)
    (h : setListed key v [] m = .done w) (e : String) (he : e ≠ key) (hs : e ≠ "*") :
    children e w = children e m := by
  rcases setListed_nil_done key v m w h with ⟨fields, hm, hw⟩ | ⟨fields, post, hm, hw⟩
  · subst hm hw
    rw [children_key_map e hs, children_key_map e hs, lookup_assign_ne key e v he]
  · subst hm hw
    rw [children_list, children_list]
    simp only [List.flatMap_cons, childrenItem]
    rw [children_key_map e hs, children_key_map e hs, lookup_assign_ne key e v he]

/-! ### The write under a list of keys -/

theorem setListed_cons (key : String) (v : Value) (k : String) (ks : List String) (m : Value) :
    setListed key v (k :: ks) m = updListed k (setListed key v ks) m := rfl

theorem setListed_good (key : String) (v : Value) : ∀ ks : List String, Good (setListed key v ks)
  | [] => setListed_nil_good key v
  | k :: ks => by
    have ih := setListed_good key v ks
    intro m w h
    rw [setListed_cons] at h
    exact updListed_good k _ ih m w h

theorem setListed_idem (key : String) (v : Value) : ∀ ks : List String, Idem (setListed key v ks)
  | [] => setListed_nil_idem key v
  | k :: ks => by
    have ih := setListed_idem key v ks
    intro m w h
    rw [setListed_cons] at h ⊢
    exact updListed_idem k _ ih (setListed_good key v ks) m w h

/-- Where the keys lead to no value, the write finds none. -/
theorem setListed_absent (key : String) (v : Value) :
    ∀ (ks : List String) (m : Value), valuesListed ks m = [] → setListed key v ks m = .absent
  | [], m => setListed_nil_absent key v m
  | k :: ks, m => by
    intro h
    rw [values_cons, List.flatMap_eq_nil_iff] at h
    rw [setListed_cons]
    exact updListed_absent k _ m (fun c hc => setListed_absent key v ks c (h c hc))

theorem Shape.values_nil {m w : Value} (h : Shape m w) :
    List.Forall₂ Keeps (valuesListed [] m) (valuesListed [] w) := by
  cases m with
  | scalar s => exact absurd rfl (h.not_scalar s)
  | list l =>
    obtain ⟨l1, hw⟩ := h.list_right
    subst hw
    simpa [valuesListed, Shape] using h
  | map fields =>
    cases w with
    | scalar s => simp [Shape] at h
    | list l => simp [Shape] at h
    | map fields1 =>
      simp only [valuesListed]
      exact List.Forall₂.cons (Keeps.map_map _ _) List.Forall₂.nil

theorem values_ne_nil_of_mem {ks : List String} {c : Value} {k : String} {m : Value}
    (hc : c ∈ children k m) (h : valuesListed ks c ≠ []) :
    valuesListed (k :: ks) m ≠ [] := by
  rw [values_cons]
  intro hnil
  rw [List.flatMap_eq_nil_iff] at hnil
  exact h (hnil c hc)

/-- After a write under the keys, the keys followed by the assigned key lead to a value. -/
theorem setListed_creates (key : String) (v : Value) (hv : valuesListed [] v ≠ []) :
    ∀ (ks : List String) (m w : Value), setListed key v ks m = .done w →
      valuesListed (ks ++ [key]) w ≠ []
  | [], m, w => by
    intro h
    exact values_ne_nil_of_mem (setListed_nil_assigned key v m w h) hv
  | k :: ks, m, w => by
    intro h
    rw [setListed_cons] at h
    obtain ⟨c, c1, _, hc1, hcc⟩ := updListed_hit k _ (setListed_good key v ks) m w h
    exact values_ne_nil_of_mem hc1 (setListed_creates key v hv ks c c1 hcc)

/-- A write under `ks` keeps every path of at most one key more than `ks` that has a value. -/
theorem setListed_mono (key : String) (v : Value) (hv : valuesListed [] v ≠ []) :
    ∀ (ks es : List String) (m w : Value), es.length ≤ ks.length + 1 →
      setListed key v ks m = .done w →
      valuesListed es m ≠ [] → valuesListed es w ≠ []
  | ks, [], m, w => by
    intro _ h hne hnil
    have hs := (setListed_good key v ks m w h).values_nil
    rw [hnil] at hs
    exact hne (List.forall₂_nil_right_iff.mp hs)
  | [], e :: es, m, w => by
    intro hlen h hne
    have hes : es = [] := by
      cases es with
      | nil => rfl
      | cons a b => simp at hlen
    subst hes
    rw [values_cons] at hne
    obtain ⟨c, hc, hcne⟩ : ∃ c ∈ children e m, valuesListed [] c ≠ [] := by
      by_contra hcon
      push_neg at hcon
      exact hne (List.flatMap_eq_nil_iff.mpr hcon)
    rcases setListed_nil_children key v m w h e c hc with h1 | ⟨_, h2⟩
    · exact values_ne_nil_of_mem h1 hcne
    · exact values_ne_nil_of_mem h2 hv
  | k :: ks, e :: es, m, w => by
    intro hlen h hne
    rw [setListed_cons] at h
    have hrel := updListed_rel k _ (setListed_good key v ks) m w h e
    rw [values_cons] at hne
    obtain ⟨c, hc, hcne⟩ : ∃ c ∈ children e m, valuesListed es c ≠ [] := by
      by_contra hcon
      push_neg at hcon
      exact hne (List.flatMap_eq_nil_iff.mpr hcon)
    obtain ⟨c1, hc1, hr⟩ := forall₂_mem_left _ _ _ hrel c hc
    rcases hr with hr | ⟨_, hr⟩
    · subst hr
      exact values_ne_nil_of_mem hc1 hcne
    · have hlen2 : es.length ≤ ks.length + 1 := by simpa using hlen
      exact values_ne_nil_of_mem hc1 (setListed_mono key v hv ks es c c1 hlen2 hr hcne)

theorem flatMap_congr_rel {α β : Type} (R : α → α → Prop) (g : α → List β)
    (hg : ∀ a b, R a b → g a = g b) :
    ∀ l l1 : List α, List.Forall₂ R l l1 → l.flatMap g = l1.flatMap g
  | [], _, h => by
    cases h
    rfl
  | a :: l, _, h => by
    cases h with
    | cons hab hrest =>
      simp only [List.flatMap_cons]
      rw [hg a _ hab, flatMap_congr_rel R g hg l _ hrest]

/-- A write of a key that is not empty leaves the paths that go on with an empty key. -/
theorem setListed_other (key : String) (v : Value) (hkey : key ≠ "") :
    ∀ (ks rest : List String) (m w : Value), setListed key v ks m = .done w →
      valuesListed (ks ++ "" :: rest) w = valuesListed (ks ++ "" :: rest) m
  | [], rest, m, w => by
    intro h
    simp only [List.nil_append, values_cons]
    rw [setListed_nil_other key v m w h "" (Ne.symm hkey) (by decide)]
  | k :: ks, rest, m, w => by
    intro h
    rw [setListed_cons] at h
    have hrel := updListed_rel k _ (setListed_good key v ks) m w h k
    simp only [List.cons_append, values_cons]
    symm
    refine flatMap_congr_rel _ _ ?_ _ _ hrel
    intro a b hab
    rcases hab with hab | ⟨_, hab⟩
    · rw [hab]
    · exact (setListed_other key v hkey ks rest a b hab).symm

/-! ### The loop on lists of keys -/

theorem Shape.map_right {fields : List (String × Value)} {w : Value}
    (h : Shape (.map fields) w) : ∃ fields1, w = .map fields1 := by
  cases w with
  | scalar s => simp [Shape] at h
  | list l => simp [Shape] at h
  | map fields1 => exact ⟨fields1, rfl⟩

theorem setListed_map_done (key : String) (v : Value) (ks : List String)
    (m : List (String × Value)) (w : Value) (h : setListed key v ks (.map m) = .done w) :
    ∃ m1, w = .map m1 :=
  (setListed_good key v ks _ _ h).map_right

theorem stripKeys_concat_empty (l : List String) : stripKeys (l ++ [""]) = l := by
  simp [stripKeys]

theorem stripKeys_concat_ne (l : List String) (key : String) (h : key ≠ "") :
    stripKeys (l ++ [key]) = l ++ [key] := by
  simp [stripKeys, h]

theorem stripKeys_length_le (l : List String) : (stripKeys l).length ≤ l.length := by
  unfold stripKeys
  split
  · simp
  · exact Nat.le_refl _

theorem stripKeys_length_ge (l : List String) : l.length ≤ (stripKeys l).length + 1 := by
  unfold stripKeys
  split
  · simp only [List.length_dropLast]
    omega
  · omega

theorem getLast_empty_split (init : List String) (hi : init.getLast? = some "") :
    ∃ c, init = c ++ [""] := by
  rcases List.eq_nil_or_concat init with h | ⟨c, a, h⟩
  · simp [h] at hi
  · rw [h] at hi
    simp [Option.or] at hi
    exact ⟨c, by simp [h, hi]⟩

/-- How the keys checked for a path relate to the keys of its parent and its last key. -/
theorem stripKeys_cases (init : List String) (key : String) :
    stripKeys (init ++ [key]) = stripKeys init ++ [key]
    ∨ (key = "" ∧ stripKeys (init ++ [key]) = stripKeys init)
    ∨ (key ≠ "" ∧ stripKeys (init ++ [key]) = stripKeys init ++ ["", key]) := by
  by_cases hkey : key = ""
  · subst hkey
    rw [stripKeys_concat_empty]
    by_cases hi : init.getLast? = some ""
    · left
      obtain ⟨c, hc⟩ := getLast_empty_split init hi
      rw [hc, stripKeys_concat_empty]
    · right
      left
      simp [stripKeys, hi]
  · rw [stripKeys_concat_ne init key hkey]
    by_cases hi : init.getLast? = some ""
    · right
      right
      obtain ⟨c, hc⟩ := getLast_empty_split init hi
      refine ⟨hkey, ?_⟩
      rw [hc, stripKeys_concat_empty]
      simp
    · left
      simp [stripKeys, hi]

theorem values_empty_map_ne : valuesListed [] (.map []) ≠ [] := by
  simp [valuesListed]

theorem loopKeys_step (m : List (String × Value)) (init : List String) (key p : String)
    (rest : List String) :
    loopKeys m (init ++ [key]) (p :: rest) =
      if 0 < (valuesListed (stripKeys (init ++ [key])) (.map m)).length then
        loopKeys m (init ++ [key] ++ [p]) rest
      else
        match setListed key (.map []) (stripKeys init) (.map m) with
        | .absent => (.failed "Path does not exist", m)
        | .done w => loopKeys (w.fieldsOr m) (init ++ [key] ++ [p]) rest
        | .panic => (.panic, m) := by
  simp [loopKeys]

/-- A path that has a value and is shorter than the current one keeps a value through the
rest of the loop. -/
theorem loopKeys_mono :
    ∀ (rest : List String) (m : List (String × Value)) (init : List String) (key : String)
      (es : List String), es.length ≤ init.length →
      valuesListed es (.map m) ≠ [] →
      valuesListed es (.map (loopKeys m (init ++ [key]) rest).2) ≠ []
  | [], m, init, key, es => by
    intro _ h
    simpa [loopKeys] using h
  | p :: rest, m, init, key, es => by
    intro hlen h
    rw [loopKeys_step]
    have hlen2 : es.length ≤ (init ++ [key]).length := by
      simp only [List.length_append, List.length_singleton]
      omega
    split
    · exact loopKeys_mono rest m (init ++ [key]) p es hlen2 h
    · cases hs : setListed key (.map []) (stripKeys init) (.map m) with
      | absent => exact h
      | panic => exact h
      | done w =>
        obtain ⟨m1, hw⟩ := setListed_map_done _ _ _ _ _ hs
        subst hw
        simp only [Value.fieldsOr]
        refine loopKeys_mono rest m1 (init ++ [key]) p es hlen2 ?_
        refine setListed_mono key _ values_empty_map_ne (stripKeys init) es _ _ ?_ hs h
        have := stripKeys_length_ge init
        omega

theorem length_pos_iff_ne_nil {α : Type} (l : List α) : 0 < l.length ↔ l ≠ [] := by
  cases l <;> simp

/-- A second run of the loop, from the document the first run left, ends with the same
outcome and the same document. -/
theorem loopKeys_idem :
    ∀ (rest : List String) (m : List (String × Value)) (init : List String) (key : String),
      loopKeys (loopKeys m (init ++ [key]) rest).2 (init ++ [key]) rest
        = loopKeys m (init ++ [key]) rest
  | [], m, init, key => by simp [loopKeys]
  | p :: rest, m, init, key => by
    have ih := loopKeys_idem rest
    by_cases hex : 0 < (valuesListed (stripKeys (init ++ [key])) (.map m)).length
    · -- the path has a value: the first run goes on, and so does the second
      have h1 : loopKeys m (init ++ [key]) (p :: rest) = loopKeys m (init ++ [key] ++ [p]) rest := by
        rw [loopKeys_step, if_pos hex]
      rw [h1]
      have hex2 : 0 < (valuesListed (stripKeys (init ++ [key]))
          (.map (loopKeys m (init ++ [key] ++ [p]) rest).2)).length := by
        rw [length_pos_iff_ne_nil] at hex ⊢
        exact loopKeys_mono rest m (init ++ [key]) p _ (stripKeys_length_le _) hex
      rw [loopKeys_step, if_pos hex2]
      exact ih m (init ++ [key]) p
    · cases hs : setListed key (.map []) (stripKeys init) (.map m) with
      | absent =>
        have h1 : loopKeys m (init ++ [key]) (p :: rest) = (.failed "Path does not exist", m) := by
          rw [loopKeys_step, if_neg hex, hs]
        rw [h1]
        exact h1
      | panic =>
        have h1 : loopKeys m (init ++ [key]) (p :: rest) = (.panic, m) := by
          rw [loopKeys_step, if_neg hex, hs]
        rw [h1]
        exact h1
      | done w =>
        obtain ⟨m1, hw⟩ := setListed_map_done _ _ _ _ _ hs
        subst hw
        have h1 : loopKeys m (init ++ [key]) (p :: rest)
            = loopKeys m1 (init ++ [key] ++ [p]) rest := by
          rw [loopKeys_step, if_neg hex, hs]
          rfl
        rw [h1]
        have hnil : valuesListed (stripKeys (init ++ [key])) (.map m) = [] := by
          by_contra hne
          exact hex ((length_pos_iff_ne_nil _).mpr hne)
        rcases stripKeys_cases init key with hc | ⟨_, hc⟩ | ⟨hkey, hc⟩
        · -- the write creates the path that is checked
          have hex1 : valuesListed (stripKeys (init ++ [key])) (.map m1) ≠ [] := by
            rw [hc]
            exact setListed_creates key _ values_empty_map_ne _ _ _ hs
          have hex2 : 0 < (valuesListed (stripKeys (init ++ [key]))
              (.map (loopKeys m1 (init ++ [key] ++ [p]) rest).2)).length := by
            rw [length_pos_iff_ne_nil]
            exact loopKeys_mono rest m1 (init ++ [key]) p _ (stripKeys_length_le _) hex1
          rw [loopKeys_step, if_pos hex2]
          exact ih m1 (init ++ [key]) p
        · -- the path checked is the parent path: the write finds no value
          rw [hc] at hnil
          rw [setListed_absent key _ _ _ hnil] at hs
          cases hs
        · -- the write goes to another place than the path checked
          have hnil1 : valuesListed (stripKeys (init ++ [key])) (.map m1) = [] := by
            rw [hc] at hnil ⊢
            rw [setListed_other key _ hkey (stripKeys init) [key] _ _ hs]
            exact hnil
          have hcur : stripKeys (init ++ [key]) = init ++ [key] :=
            stripKeys_concat_ne init key hkey
          have hsame : (loopKeys m1 (init ++ [key] ++ [p]) rest).2 = m1 := by
            cases rest with
            | nil => simp [loopKeys]
            | cons p2 rest2 =>
              rw [loopKeys_step]
              have hn : valuesListed (stripKeys (init ++ [key] ++ [p])) (.map m1) = [] := by
                by_cases hp : p = ""
                · subst hp
                  rw [stripKeys_concat_empty, ← hcur]
                  exact hnil1
                · rw [stripKeys_concat_ne _ p hp]
                  rw [hcur] at hnil1
                  exact values_append_nil _ _ _ hnil1
              rw [hn]
              simp only [List.length_nil, Nat.lt_irrefl, ↓reduceIte]
              rw [setListed_absent p _ _ _ hnil1]
          rw [hsame]
          have hex1 : ¬ 0 < (valuesListed (stripKeys (init ++ [key])) (.map m1)).length := by
            rw [hnil1]
            simp
          rw [loopKeys_step, if_neg hex1, setListed_idem key _ _ _ _ hs]
          rfl

/-! ### Paths as strings -/

theorem splitDots_ne_nil : ∀ cs : List Char, splitDots cs ≠ []
  | [] => by simp [splitDots]
  | c :: cs => by
    have ih := splitDots_ne_nil cs
    simp only [splitDots]
    cases h : splitDots cs with
    | nil => exact absurd h ih
    | cons seg rest =>
      simp only
      split <;> simp

theorem splitDots_dotfree : ∀ (cs : List Char), ∀ seg ∈ splitDots cs, '.' ∉ seg
  | [], seg, h => by
    simp only [splitDots, List.mem_singleton] at h
    simp [h]
  | c :: cs, seg, h => by
    have ih := splitDots_dotfree cs
    simp only [splitDots] at h
    cases hs : splitDots cs with
    | nil => exact absurd hs (splitDots_ne_nil cs)
    | cons s rest =>
      rw [hs] at h ih
      simp only at h
      by_cases hc : c = '.'
      · simp only [hc, ↓reduceIte, List.mem_cons] at h
        rcases h with h | h | h
        · simp [h]
        · exact ih seg (by simp [h])
        · exact ih seg (by simp [h])
      · simp only [hc, ↓reduceIte, List.mem_cons] at h
        rcases h with h | h
        · subst h
          simp only [List.mem_cons, not_or]
          exact ⟨fun hx => hc hx.symm, ih s (by simp)⟩
        · exact ih seg (by simp [h])

theorem splitDots_append_dot :
    ∀ (a b : List Char), '.' ∉ a → splitDots (a ++ '.' :: b) = a :: splitDots b
  | [], b, _ => by
    simp only [List.nil_append, splitDots]
    cases h : splitDots b with
    | nil => exact absurd h (splitDots_ne_nil b)
    | cons s rest => simp
  | c :: a, b, h => by
    simp only [List.mem_cons, not_or] at h
    have ih := splitDots_append_dot a b h.2
    rw [List.cons_append]
    simp only [splitDots]
    rw [ih]
    simp [Ne.symm h.1]

theorem splitDots_of_dotfree : ∀ a : List Char, '.' ∉ a → splitDots a = [a]
  | [], _ => by simp [splitDots]
  | c :: a, h => by
    simp only [List.mem_cons, not_or] at h
    simp [splitDots, splitDots_of_dotfree a h.2, Ne.symm h.1]

theorem Split_ne_nil (path : String) : Split path ≠ [] := by
  simp [Split, splitDots_ne_nil]

theorem Split_dotfree (path : String) : ∀ s ∈ Split path, '.' ∉ s.data := by
  intro s hs
  simp only [Split, List.mem_map] at hs
  obtain ⟨seg, hseg, rfl⟩ := hs
  exact splitDots_dotfree path.data seg hseg

theorem Split_Join : ∀ l : List String, l ≠ [] → (∀ s ∈ l, '.' ∉ s.data) → Split (Join l) = l
  | [], h, _ => absurd rfl h
  | [a], _, hd => by
    simp [Join, Split, splitDots_of_dotfree a.data (hd a (by simp))]
  | a :: b :: rest, _, hd => by
    have ih := Split_Join (b :: rest) (by simp) (fun s hs => hd s (by simp [hs]))
    have ha : '.' ∉ a.data := hd a (by simp)
    simp only [Split] at ih
    have hdata : (Join (a :: b :: rest)).data = a.data ++ '.' :: (Join (b :: rest)).data := by
      simp [Join, String.data_append]
    simp only [Split, hdata, splitDots_append_dot _ _ ha, List.map_cons, ih]

theorem Join_concat : ∀ (l : List String) (p : String), l ≠ [] →
    Join l ++ "." ++ p = Join (l ++ [p])
  | [], _, h => absurd rfl h
  | [a], p, _ => by simp [Join]
  | a :: b :: rest, p, _ => by
    have ih := Join_concat (b :: rest) p (by simp)
    rw [List.cons_append] at ih
    show Join (a :: b :: rest) ++ "." ++ p = Join (a :: b :: (rest ++ [p]))
    rw [Join, Join, ← ih]
    simp only [String.append_assoc]

theorem pathKeys_Join (l : List String) (hd : ∀ s ∈ l, '.' ∉ s.data) :
    pathKeys (Join l) = stripKeys l := by
  cases l with
  | nil => rfl
  | cons a rest =>
    simp only [pathKeys, stripKeys, Split_Join (a :: rest) (by simp) hd]

theorem splitDots_mem : ∀ (cs : List Char), ∀ seg ∈ splitDots cs, ∀ c ∈ seg, c ∈ cs
  | [], seg, h, c, hc => by
    simp only [splitDots, List.mem_singleton] at h
    simp [h] at hc
  | d :: cs, seg, h, c, hc => by
    have ih := splitDots_mem cs
    simp only [splitDots] at h
    cases hs : splitDots cs with
    | nil => exact absurd hs (splitDots_ne_nil cs)
    | cons s rest =>
      rw [hs] at h ih
      simp only at h
      by_cases hd : d = '.'
      · simp only [hd, ↓reduceIte, List.mem_cons] at h
        rcases h with h | h | h
        · simp [h] at hc
        · exact List.mem_cons_of_mem _ (ih seg (by simp [h]) c hc)
        · exact List.mem_cons_of_mem _ (ih seg (by simp [h]) c hc)
      · simp only [hd, ↓reduceIte, List.mem_cons] at h
        rcases h with h | h
        · subst h
          rcases List.mem_cons.mp hc with hc | hc
          · simp [hc]
          · exact List.mem_cons_of_mem _ (ih s (by simp) c hc)
        · exact List.mem_cons_of_mem _ (ih seg (by simp [h]) c hc)

theorem Split_mem (path : String) (c : Char) (hc : c ∉ path.data) :
    ∀ s ∈ Split path, c ∉ s.data := by
  intro s hs hcs
  simp only [Split, List.mem_map] at hs
  obtain ⟨seg, hseg, rfl⟩ := hs
  exact hc (splitDots_mem path.data seg hseg c hcs)

theorem Join_mem (c : Char) (hc : c ≠ '.') :
    ∀ l : List String, (∀ s ∈ l, c ∉ s.data) → c ∉ (Join l).data
  | [], _ => by simp [Join]
  | [a], h => by simpa [Join] using h a (by simp)
  | a :: b :: rest, h => by
    have ih := Join_mem c hc (b :: rest) (fun s hs => h s (by simp [hs]))
    have ha := h a (by simp)
    simp only [Join, String.data_append, List.mem_append, not_or]
    exact ⟨⟨ha, by simpa using hc⟩, ih⟩

/-- A segment of a path without index reference: it holds neither a dot nor a bracket. -/
theorem Split_plain (path : String) (hp : '[' ∉ path.data) :
    ∀ s ∈ Split path, '.' ∉ s.data ∧ '[' ∉ s.data :=
  fun s hs => ⟨Split_dotfree path s hs, Split_mem path '[' hp s hs⟩

/-- On keys without wildcard the lookup does not depend on the order of the range. -/
theorem valuesForKeyPath_listed (scan : List (String × Value) → List (String × Value)) :
    ∀ (ks : List String) (m : Value), (∀ k ∈ ks, k ≠ "*") →
      valuesForKeyPath scan ks m = valuesListed ks m
  | [], m => by
    intro _
    cases m <;> simp [valuesForKeyPath, valuesListed]
  | k :: ks, m => by
    intro hk
    have hk1 : k ≠ "*" := hk k (by simp)
    have ih := fun c => valuesForKeyPath_listed scan ks c (fun j hj => hk j (by simp [hj]))
    unfold valuesForKeyPath valuesListed
    simp only [hk1, ↓reduceIte]
    cases m with
    | scalar s => rfl
    | map fields => cases hl : lookup k fields <;> simp [ih]
    | list items =>
      simp only
      congr 1
      funext v
      cases v with
      | scalar s => rfl
      | list l => rfl
      | map fields => cases hl : lookup k fields <;> simp [ih]

/-- Below a key that is not the wildcard the write does not depend on the order of the range.
-/
theorem updChildren_listed (scan : List (String × Value) → List (String × Value)) (k : String)
    (hk : k ≠ "*") (f g : Value → Upd Value) (hfg : ∀ c, f c = g c) (m : Value) :
    updChildren scan k f m = updListed k g m := by
  have hf : f = g := funext hfg
  subst hf
  unfold updChildren updListed
  simp only [hk, ↓reduceIte]

/-- On keys without wildcard the write does not depend on the order of the range. -/
theorem setFirst_listed (scan : List (String × Value) → List (String × Value)) (key : String)
    (v : Value) :
    ∀ (ks : List String) (m : Value), (∀ k ∈ ks, k ≠ "*") →
      setFirst scan key v ks m = setListed key v ks m
  | [], m => by
    intro _
    cases m <;> simp [setFirst, setListed]
  | k :: ks, m => by
    intro hk
    rw [setListed_cons]
    show updChildren scan k (setFirst scan key v ks) m = _
    exact updChildren_listed scan k (hk k (by simp)) _ _
      (fun c => setFirst_listed scan key v ks c (fun j hj => hk j (by simp [hj]))) m

theorem stripKeys_subset (l : List String) : ∀ s ∈ stripKeys l, s ∈ l := by
  intro s hs
  unfold stripKeys at hs
  split at hs
  · exact List.dropLast_subset _ hs
  · exact hs

theorem Exists_Join (lib : Library) (m : List (String × Value)) (l : List String)
    (hd : ∀ s ∈ l, '.' ∉ s.data ∧ '[' ∉ s.data) (hw : ∀ s ∈ l, s ≠ "*") :
    Exists lib m (Join l) = decide (0 < (valuesListed (stripKeys l) (.map m)).length) := by
  have hb : '[' ∉ (Join l).data := Join_mem '[' (by decide) l (fun s hs => (hd s hs).2)
  simp only [Exists, ValuesForPath, hb, ↓reduceIte, pathKeys_Join l (fun s hs => (hd s hs).1)]
  rw [valuesForKeyPath_listed lib.scan _ _ (fun s hs => hw s (stripKeys_subset l s hs))]

theorem SetValueForPath_Join (lib : Library) (m : List (String × Value)) (v : Value)
    (init : List String) (key : String)
    (hd : ∀ s ∈ init ++ [key], '.' ∉ s.data ∧ '[' ∉ s.data) (hw : ∀ s ∈ init, s ≠ "*") :
    SetValueForPath lib m v (Join (init ++ [key])) =
      match setListed key v (stripKeys init) (.map m) with
      | .absent => (.failed "Path does not exist", m)
      | .done w => (.returned (), w.fieldsOr m)
      | .panic => (.panic, m) := by
  have h1 : Split (Join (init ++ [key])) = init ++ [key] :=
    Split_Join _ (by simp) (fun s hs => (hd s hs).1)
  have h2 : pathKeys (Join init) = stripKeys init :=
    pathKeys_Join init (fun s hs => (hd s (by simp [hs])).1)
  have hb : '[' ∉ (Join init).data :=
    Join_mem '[' (by decide) init (fun s hs => (hd s (by simp [hs])).2)
  simp only [SetValueForPath, h1, List.dropLast_concat, h2, hb, ↓reduceIte]
  rw [setFirst_listed lib.scan _ _ _ _ (fun s hs => hw s (stripKeys_subset init s hs))]
  simp

/-- The loop of the source is the loop on lists of keys. -/
theorem ensureLoop_eq (lib : Library) :
    ∀ (rest : List String) (m : List (String × Value)) (init : List String) (key : String),
      (∀ s ∈ init ++ [key], ('.' ∉ s.data ∧ '[' ∉ s.data) ∧ s ≠ "*") →
      (∀ s ∈ rest, ('.' ∉ s.data ∧ '[' ∉ s.data) ∧ s ≠ "*") →
      ensureLoop lib m (Join (init ++ [key])) rest = loopKeys m (init ++ [key]) rest
  | [], m, init, key => by
    intro _ _
    simp [ensureLoop, loopKeys]
  | p :: rest, m, init, key => by
    intro hd hrest
    have hd2 : ∀ s ∈ init ++ [key] ++ [p], ('.' ∉ s.data ∧ '[' ∉ s.data) ∧ s ≠ "*" := by
      intro s hs
      rcases List.mem_append.mp hs with hs | hs
      · exact hd s hs
      · simp only [List.mem_singleton] at hs
        exact hrest s (by simp [hs])
    have ih := fun m1 => ensureLoop_eq lib rest m1 (init ++ [key]) p hd2
      (fun s hs => hrest s (by simp [hs]))
    rw [loopKeys_step]
    simp only [ensureLoop, Exists_Join lib m _ (fun s hs => (hd s hs).1) (fun s hs => (hd s hs).2),
      SetValueForPath_Join lib m _ init key (fun s hs => (hd s hs).1)
        (fun s hs => (hd s (by simp [hs])).2),
      Join_concat (init ++ [key]) p (by simp)]
    by_cases hex : 0 < (valuesListed (stripKeys (init ++ [key])) (.map m)).length
    · simp only [hex, decide_True, Bool.not_true, Bool.false_eq_true, ↓reduceIte]
      exact ih m
    · simp only [hex, decide_False, Bool.not_false, ↓reduceIte]
      cases hs : setListed key (.map []) (stripKeys init) (.map m) with
      | absent => rfl
      | panic => rfl
      | done w => exact ih _

/-- On a path of literal keys the function is the loop on lists of keys, whatever the order in
which the library ranges over maps. -/
theorem ensureFinalPathExists_eq (lib : Library) (path : String) (hp : LiteralPath path)
    (m : List (String × Value)) :
    ∃ key rest, Split path = key :: rest
      ∧ ensureFinalPathExists lib path m = loopKeys m ([] ++ [key]) rest := by
  cases hs : Split path with
  | nil => exact absurd hs (Split_ne_nil path)
  | cons key rest =>
    refine ⟨key, rest, rfl, ?_⟩
    have hplain := Split_plain path hp.1
    have hw := hp.2
    rw [hs] at hplain hw
    simp only [ensureFinalPathExists, hs]
    have := ensureLoop_eq lib rest m [] key
      (fun s h => by
        simp only [List.nil_append, List.mem_singleton] at h
        exact ⟨hplain s (by simp [h]), hw s (by simp [h])⟩)
      (fun s h => ⟨hplain s (by simp [h]), hw s (by simp [h])⟩)
    simpa [Join] using this

/-! ### What the loop creates and what it keeps -/

/-- A write that creates a path without values keeps what is found under every path. -/
theorem setListed_keeps (key : String) (v : Value) :
    ∀ (ks q : List String) (m w : Value), valuesListed (ks ++ [key]) m = [] →
      setListed key v ks m = .done w →
      ∀ x ∈ valuesListed q m, ∃ y ∈ valuesListed q w, Keeps x y
  | ks, [], m, w => by
    intro _ h x hx
    exact forall₂_mem_left _ _ _ (setListed_good key v ks m w h).values_nil x hx
  | [], e :: es, m, w => by
    intro hnil h x hx
    rw [values_cons] at hx
    obtain ⟨c, hc, hxc⟩ := List.mem_flatMap.mp hx
    rcases setListed_nil_children key v m w h e c hc with h1 | ⟨h1, _⟩
    · exact ⟨x, by rw [values_cons]; exact List.mem_flatMap.mpr ⟨c, h1, hxc⟩, Keeps.refl x⟩
    · simp only [List.nil_append, values_cons, List.flatMap_eq_nil_iff] at hnil
      have := values_append_nil [] es c (hnil c h1)
      simp only [List.nil_append] at this
      rw [this] at hxc
      cases hxc
  | k :: ks, e :: es, m, w => by
    intro hnil h x hx
    rw [setListed_cons] at h
    have hrel := updListed_rel k _ (setListed_good key v ks) m w h e
    rw [values_cons] at hx
    obtain ⟨c, hc, hxc⟩ := List.mem_flatMap.mp hx
    obtain ⟨c1, hc1, hr⟩ := forall₂_mem_left _ _ _ hrel c hc
    rcases hr with hr | ⟨hck, hr⟩
    · subst hr
      exact ⟨x, by rw [values_cons]; exact List.mem_flatMap.mpr ⟨c1, hc1, hxc⟩, Keeps.refl x⟩
    · simp only [List.cons_append, values_cons, List.flatMap_eq_nil_iff] at hnil
      obtain ⟨y, hy, hxy⟩ := setListed_keeps key v ks es c c1 (hnil c hck) hr x hxc
      exact ⟨y, by rw [values_cons]; exact List.mem_flatMap.mpr ⟨c1, hc1, hy⟩, hxy⟩

theorem stripKeys_of_ne (l : List String) (h : ∀ s ∈ l, s ≠ "") : stripKeys l = l := by
  unfold stripKeys
  split
  · rename_i hl
    obtain ⟨c, hc⟩ := getLast_empty_split l hl
    exact absurd rfl (h "" (by simp [hc]))
  · rfl

/-- With no empty segment, a run of the loop that returns leaves a value under the current
path and under every longer path it has gone through. -/
theorem loopKeys_prefixes :
    ∀ (rest : List String) (m : List (String × Value)) (init : List String) (key : String)
      (m1 : List (String × Value)), (∀ s ∈ init ++ [key] ++ rest, s ≠ "") →
      loopKeys m (init ++ [key]) rest = (.returned [], m1) →
      ∀ j, j < rest.length → valuesListed (init ++ [key] ++ rest.take j) (.map m1) ≠ []
  | [], _, _, _, _ => by
    intro _ _ j hj
    simp at hj
  | p :: rest, m, init, key, m1 => by
    intro hne hrun j hj
    have hcur : stripKeys (init ++ [key]) = init ++ [key] :=
      stripKeys_of_ne _ (fun s hs => hne s (by simp at hs ⊢; tauto))
    have hinit : stripKeys init = init :=
      stripKeys_of_ne _ (fun s hs => hne s (by simp [hs]))
    have hne2 : ∀ s ∈ init ++ [key] ++ [p] ++ rest, s ≠ "" := by
      intro s hs
      exact hne s (by simpa using hs)
    -- the state after the first step, in which the current path has a value
    have step : ∃ m2, valuesListed (init ++ [key]) (.map m2) ≠ []
        ∧ loopKeys m2 (init ++ [key] ++ [p]) rest = (.returned [], m1) := by
      rw [loopKeys_step, hcur, hinit] at hrun
      by_cases hex : 0 < (valuesListed (init ++ [key]) (.map m)).length
      · rw [if_pos hex] at hrun
        exact ⟨m, (length_pos_iff_ne_nil _).mp hex, hrun⟩
      · rw [if_neg hex] at hrun
        cases hs : setListed key (.map []) init (.map m) with
        | absent => simp [hs] at hrun
        | panic => simp [hs] at hrun
        | done w =>
          obtain ⟨m2, hw⟩ := setListed_map_done _ _ _ _ _ hs
          subst hw
          simp only [hs, Value.fieldsOr] at hrun
          exact ⟨m2, setListed_creates key _ values_empty_map_ne _ _ _ hs, hrun⟩
    obtain ⟨m2, hm2, hrun2⟩ := step
    cases j with
    | zero =>
      simp only [List.take_zero, List.append_nil]
      have := loopKeys_mono rest m2 (init ++ [key]) p (init ++ [key]) (Nat.le_refl _) hm2
      rw [hrun2] at this
      exact this
    | succ j =>
      have := loopKeys_prefixes rest m2 (init ++ [key]) p m1 hne2 hrun2 j
        (by simpa using hj)
      simpa using this

/-- With no empty segment, the loop keeps what is found under every path. -/
theorem loopKeys_keeps :
    ∀ (rest : List String) (m : List (String × Value)) (init : List String) (key : String),
      (∀ s ∈ init ++ [key] ++ rest, s ≠ "") →
      ∀ (q : List String), ∀ x ∈ valuesListed q (.map m),
        ∃ y ∈ valuesListed q (.map (loopKeys m (init ++ [key]) rest).2), Keeps x y
  | [], m, init, key => by
    intro _ q x hx
    exact ⟨x, by simpa [loopKeys] using hx, Keeps.refl x⟩
  | p :: rest, m, init, key => by
    intro hne q x hx
    have hcur : stripKeys (init ++ [key]) = init ++ [key] :=
      stripKeys_of_ne _ (fun s hs => hne s (by simp at hs ⊢; tauto))
    have hinit : stripKeys init = init :=
      stripKeys_of_ne _ (fun s hs => hne s (by simp [hs]))
    have hne2 : ∀ s ∈ init ++ [key] ++ [p] ++ rest, s ≠ "" := by
      intro s hs
      exact hne s (by simpa using hs)
    rw [loopKeys_step, hcur, hinit]
    by_cases hex : 0 < (valuesListed (init ++ [key]) (.map m)).length
    · rw [if_pos hex]
      exact loopKeys_keeps rest m (init ++ [key]) p hne2 q x hx
    · rw [if_neg hex]
      cases hs : setListed key (.map []) init (.map m) with
      | absent => exact ⟨x, hx, Keeps.refl x⟩
      | panic => exact ⟨x, hx, Keeps.refl x⟩
      | done w =>
        obtain ⟨m2, hw⟩ := setListed_map_done _ _ _ _ _ hs
        subst hw
        simp only [Value.fieldsOr]
        have hnil : valuesListed (init ++ [key]) (.map m) = [] := by
          by_contra hcon
          exact hex ((length_pos_iff_ne_nil _).mpr hcon)
        obtain ⟨y, hy, hxy⟩ := setListed_keeps key _ init q _ _ hnil hs x hx
        obtain ⟨z, hz, hyz⟩ := loopKeys_keeps rest m2 (init ++ [key]) p hne2 q y hy
        exact ⟨z, hz, hxy.trans hyz⟩

/-! ### The container that is created -/

theorem updListed_map_split (k : String) (f : Value → Upd Value)
    (fields : List (String × Value)) (w : Value)
    (h : updListed k f (.map fields) = .done w) :
    ∃ pre c c1 post, children k (.map fields) = pre ++ c :: post
      ∧ children k w = pre ++ c1 :: post ∧ f c = .done c1 := by
  by_cases hk : k = "*"
  · subst hk
    simp only [updListed, ↓reduceIte] at h
    obtain ⟨fields1, h1, h2⟩ := Upd.map_done _ _ _ h
    obtain ⟨pre, x, y, post, hf, hf1, _, hxy⟩ := updFirstIn_done _ fields fields1 h1
    obtain ⟨c1, hc1, hy⟩ := Upd.map_done _ _ _ hxy
    subst h2 hf hf1 hy
    exact ⟨pre.map (fun kv => kv.2), x.2, c1, post.map (fun kv => kv.2),
      by simp [children_star_map], by simp [children_star_map], hc1⟩
  · simp only [updListed, hk, ↓reduceIte] at h
    cases hl : lookup k fields with
    | none => simp [hl] at h
    | some c =>
      simp only [hl] at h
      obtain ⟨c1, h1, h2⟩ := Upd.map_done _ _ _ h
      subst h2
      exact ⟨[], c, c1, [], by simp [children_key_map k hk, hl],
        by simp [children_key_map k hk, lookup_assign_same], h1⟩

/-- A write one key down changes exactly one of the values the key leads to. -/
theorem updListed_split (k : String) (f : Value → Upd Value) (hf : Good f) (m w : Value)
    (h : updListed k f m = .done w) :
    ∃ pre c c1 post, children k m = pre ++ c :: post ∧ children k w = pre ++ c1 :: post
      ∧ f c = .done c1 := by
  cases m with
  | scalar s => simp [updListed_scalar] at h
  | map fields => exact updListed_map_split k f fields w h
  | list items =>
    rw [updListed_list] at h
    obtain ⟨items1, h1, hw⟩ := Upd.map_done _ _ _ h
    subst hw
    obtain ⟨ipre, x, y, ipost, hi, hi1, _, hxy⟩ := updFirstIn_done _ items items1 h1
    subst hi hi1
    have key : ∃ pre c c1 post, childrenItem k x = pre ++ c :: post
        ∧ childrenItem k y = pre ++ c1 :: post ∧ f c = .done c1 := by
      cases x with
      | map fields =>
        simp only [updItem] at hxy
        obtain ⟨fields1, hy, _⟩ := updListed_map_rel k f fields y hxy
        obtain ⟨pre, c, c1, post, ha, hb, hc⟩ := updListed_map_split k f fields y hxy
        subst hy
        exact ⟨pre, c, c1, post, by simpa [childrenItem] using ha,
          by simpa [childrenItem] using hb, hc⟩
      | scalar s =>
        by_cases hk : k = "*"
        · simp only [updItem, hk, ↓reduceIte] at hxy
          exact absurd rfl ((hf _ _ hxy).not_scalar s)
        · simp [updItem, hk] at hxy
      | list l =>
        by_cases hk : k = "*"
        · simp only [updItem, hk, ↓reduceIte] at hxy
          obtain ⟨l1, hy⟩ := (hf _ _ hxy).list_right
          subst hy
          exact ⟨[], _, _, [], by simp [childrenItem, hk], by simp [childrenItem, hk], hxy⟩
        · simp [updItem, hk] at hxy
    obtain ⟨pre, c, c1, post, ha, hb, hc⟩ := key
    refine ⟨ipre.flatMap (childrenItem k) ++ pre, c, c1, post ++ ipost.flatMap (childrenItem k),
      ?_, ?_, hc⟩
    · rw [children_list]
      simp [ha]
    · rw [children_list]
      simp [hb]

theorem assign_values (key : String) (v : Value) :
    ∀ fields : List (String × Value),
      (∀ c ∈ children key (.map fields), valuesListed [] c = []) →
      (children key (.map (assign key v fields))).flatMap (valuesListed [])
        = valuesListed [] v := by
  intro fields h
  by_cases hk : key = "*"
  · subst hk
    simp only [children_star_map] at h ⊢
    induction fields with
    | nil => simp [assign]
    | cons kv rest ih =>
      obtain ⟨j, u⟩ := kv
      have hrest : ∀ c ∈ List.map (fun kv => kv.2) rest, valuesListed [] c = [] :=
        fun c hc => h c (by simp only [List.map_cons, List.mem_cons]; exact Or.inr hc)
      by_cases hj : j = "*"
      · simp only [assign, hj, ↓reduceIte, List.map_cons, List.flatMap_cons]
        rw [List.flatMap_eq_nil_iff.mpr hrest]
        simp
      · simp only [assign, hj, ↓reduceIte, List.map_cons, List.flatMap_cons]
        rw [h u (by simp), ih hrest]
        simp
  · simp [children_key_map key hk, lookup_assign_same]

/-- A write that creates a path without values leaves the assigned value as the only value
of that path. -/
theorem setListed_creates_only (key : String) (v : Value) :
    ∀ (ks : List String) (m w : Value), valuesListed (ks ++ [key]) m = [] →
      setListed key v ks m = .done w →
      valuesListed (ks ++ [key]) w = valuesListed [] v
  | [], m, w => by
    intro hnil h
    simp only [List.nil_append, values_cons, List.flatMap_eq_nil_iff] at hnil
    simp only [List.nil_append, values_cons]
    rcases setListed_nil_done key v m w h with ⟨fields, hm, hw⟩ | ⟨fields, post, hm, hw⟩
    · subst hm hw
      exact assign_values key v fields hnil
    · subst hm hw
      rw [children_list] at hnil ⊢
      simp only [List.flatMap_cons, List.mem_append, childrenItem] at hnil
      simp only [List.flatMap_cons, List.flatMap_append, childrenItem]
      rw [assign_values key v fields (fun c hc => hnil c (Or.inl hc))]
      rw [List.flatMap_eq_nil_iff.mpr (fun c hc => hnil c (Or.inr hc))]
      simp
  | k :: ks, m, w => by
    intro hnil h
    rw [setListed_cons] at h
    obtain ⟨pre, c, c1, post, ha, hb, hc⟩ :=
      updListed_split k _ (setListed_good key v ks) m w h
    simp only [List.cons_append, values_cons, List.flatMap_eq_nil_iff] at hnil
    simp only [List.cons_append, values_cons]
    rw [ha] at hnil
    rw [hb]
    simp only [List.flatMap_append, List.flatMap_cons]
    rw [setListed_creates_only key v ks c c1 (hnil c (by simp)) hc]
    rw [List.flatMap_eq_nil_iff.mpr (fun x hx => hnil x (by simp [hx]))]
    rw [List.flatMap_eq_nil_iff.mpr (fun x hx => hnil x (by simp [hx]))]
    simp

/-- Where no value of a path has anything under the next key, the longer paths have no value.
-/
theorem values_beyond_nil (k1 : String) (more : List String) :
    ∀ (ks : List String) (m : Value),
      (∀ x ∈ valuesListed ks m, childrenItem k1 x = []) →
      valuesListed (ks ++ k1 :: more) m = []
  | [], m => by
    intro h
    simp only [List.nil_append, values_cons]
    have : children k1 m = [] := by
      cases m with
      | scalar s => exact children_scalar k1 s
      | map fields => simpa [valuesListed, childrenItem] using h
      | list items =>
        rw [children_list, List.flatMap_eq_nil_iff]
        intro x hx
        exact h x (by simpa [valuesListed] using hx)
    rw [this]
    rfl
  | k :: ks, m => by
    intro h
    simp only [List.cons_append, values_cons, List.flatMap_eq_nil_iff]
    intro c hc
    refine values_beyond_nil k1 more ks c (fun x hx => h x ?_)
    rw [values_cons]
    exact List.mem_flatMap.mpr ⟨c, hc, hx⟩

theorem childrenItem_empty_map (k : String) : childrenItem k (.map []) = [] := by
  simp only [childrenItem, children]
  split <;> simp [lookup]

/-- With no empty segment, when the longest path the loop goes through has no value before,
its only value after a run that returns is an empty mapping. -/
theorem loopKeys_last :
    ∀ (rest : List String) (m : List (String × Value)) (init : List String) (key : String)
      (m1 : List (String × Value)), (∀ s ∈ init ++ [key] ++ rest, s ≠ "") → rest ≠ [] →
      valuesListed (init ++ [key] ++ rest.dropLast) (.map m) = [] →
      loopKeys m (init ++ [key]) rest = (.returned [], m1) →
      valuesListed (init ++ [key] ++ rest.dropLast) (.map m1) = [.map []]
  | [], _, _, _, _ => by
    intro _ h
    exact absurd rfl h
  | [p], m, init, key, m1 => by
    intro hne _ hnil hrun
    have hcur : stripKeys (init ++ [key]) = init ++ [key] :=
      stripKeys_of_ne _ (fun s hs => hne s (by simp at hs ⊢; tauto))
    have hinit : stripKeys init = init :=
      stripKeys_of_ne _ (fun s hs => hne s (by simp [hs]))
    simp only [List.dropLast_single, List.append_nil] at hnil ⊢
    rw [loopKeys_step, hcur, hinit, hnil] at hrun
    simp only [List.length_nil, Nat.lt_irrefl, ↓reduceIte] at hrun
    cases hs : setListed key (.map []) init (.map m) with
    | absent => simp [hs] at hrun
    | panic => simp [hs] at hrun
    | done w =>
      obtain ⟨m2, hw⟩ := setListed_map_done _ _ _ _ _ hs
      subst hw
      simp only [hs, Value.fieldsOr, loopKeys, Prod.mk.injEq, true_and] at hrun
      subst hrun
      rw [setListed_creates_only key _ init _ _ hnil hs]
      rfl
  | p :: p2 :: rest, m, init, key, m1 => by
    intro hne _ hnil hrun
    have hcur : stripKeys (init ++ [key]) = init ++ [key] :=
      stripKeys_of_ne _ (fun s hs => hne s (by simp at hs ⊢; tauto))
    have hinit : stripKeys init = init :=
      stripKeys_of_ne _ (fun s hs => hne s (by simp [hs]))
    have hne2 : ∀ s ∈ init ++ [key] ++ [p] ++ (p2 :: rest), s ≠ "" := by
      intro s hs
      exact hne s (by simpa using hs)
    have hlist : init ++ [key] ++ (p :: p2 :: rest).dropLast
        = init ++ [key] ++ [p] ++ (p2 :: rest).dropLast := by
      simp
    rw [hlist] at hnil ⊢
    rw [loopKeys_step, hcur, hinit] at hrun
    by_cases hex : 0 < (valuesListed (init ++ [key]) (.map m)).length
    · rw [if_pos hex] at hrun
      exact loopKeys_last (p2 :: rest) m (init ++ [key]) p m1 hne2 (by simp) hnil hrun
    · rw [if_neg hex] at hrun
      have hnil0 : valuesListed (init ++ [key]) (.map m) = [] := by
        by_contra hcon
        exact hex ((length_pos_iff_ne_nil _).mpr hcon)
      cases hs : setListed key (.map []) init (.map m) with
      | absent => simp [hs] at hrun
      | panic => simp [hs] at hrun
      | done w =>
        obtain ⟨m2, hw⟩ := setListed_map_done _ _ _ _ _ hs
        subst hw
        simp only [hs, Value.fieldsOr] at hrun
        have hval := setListed_creates_only key _ init _ _ hnil0 hs
        have hnil2 : valuesListed (init ++ [key] ++ [p] ++ (p2 :: rest).dropLast)
            (.map m2) = [] := by
          rw [List.append_assoc (init ++ [key])]
          refine values_beyond_nil p _ (init ++ [key]) _ ?_
          intro x hx
          rw [hval] at hx
          simp only [valuesListed, List.mem_singleton] at hx
          subst hx
          exact childrenItem_empty_map p
        exact loopKeys_last (p2 :: rest) m2 (init ++ [key]) p m1 hne2 (by simp) hnil2 hrun


/-- With no empty segment, a run of the loop that returns leaves the values of the full path
as they were: nothing is created there. -/
theorem loopKeys_full :
    ∀ (rest : List String) (m : List (String × Value)) (init : List String) (key : String)
      (m1 : List (String × Value)), (∀ s ∈ init ++ [key] ++ rest, s ≠ "") →
      loopKeys m (init ++ [key]) rest = (.returned [], m1) →
      valuesListed (init ++ [key] ++ rest) (.map m1)
        = valuesListed (init ++ [key] ++ rest) (.map m)
  | [], m, init, key, m1 => by
    intro _ hrun
    simp only [loopKeys, Prod.mk.injEq, true_and] at hrun
    subst hrun
    rfl
  | p :: rest, m, init, key, m1 => by
    intro hne hrun
    have hcur : stripKeys (init ++ [key]) = init ++ [key] :=
      stripKeys_of_ne _ (fun s hs => hne s (by simp at hs ⊢; tauto))
    have hinit : stripKeys init = init :=
      stripKeys_of_ne _ (fun s hs => hne s (by simp [hs]))
    have hne2 : ∀ s ∈ init ++ [key] ++ [p] ++ rest, s ≠ "" := by
      intro s hs
      exact hne s (by simpa using hs)
    have hlist : init ++ [key] ++ p :: rest = init ++ [key] ++ [p] ++ rest := by simp
    rw [hlist]
    rw [loopKeys_step, hcur, hinit] at hrun
    by_cases hex : 0 < (valuesListed (init ++ [key]) (.map m)).length
    · rw [if_pos hex] at hrun
      exact loopKeys_full rest m (init ++ [key]) p m1 hne2 hrun
    · rw [if_neg hex] at hrun
      have hnil0 : valuesListed (init ++ [key]) (.map m) = [] := by
        by_contra hcon
        exact hex ((length_pos_iff_ne_nil _).mpr hcon)
      cases hs : setListed key (.map []) init (.map m) with
      | absent => simp [hs] at hrun
      | panic => simp [hs] at hrun
      | done w =>
        obtain ⟨m2, hw⟩ := setListed_map_done _ _ _ _ _ hs
        subst hw
        simp only [hs, Value.fieldsOr] at hrun
        have hval := setListed_creates_only key _ init _ _ hnil0 hs
        have hafter : valuesListed (init ++ [key] ++ [p] ++ rest) (.map m2) = [] := by
          rw [List.append_assoc (init ++ [key])]
          refine values_beyond_nil p _ (init ++ [key]) _ ?_
          intro x hx
          rw [hval] at hx
          simp only [valuesListed, List.mem_singleton] at hx
          subst hx
          exact childrenItem_empty_map p
        have hbefore : valuesListed (init ++ [key] ++ [p] ++ rest) (.map m) = [] := by
          rw [List.append_assoc (init ++ [key])]
          exact values_append_nil _ _ _ hnil0
        rw [loopKeys_full rest m2 (init ++ [key]) p m1 hne2 hrun, hafter, hbefore]

/-! ### Every part of the document stays at its position -/

theorem kept_refl (x : Value) : Kept x x :=
  ⟨fun _ h => h, fun fields h => ⟨fields, h⟩, fun items h _ => ⟨items, h, rfl⟩⟩

theorem kept_trans {x y z : Value} (h1 : Kept x y) (h2 : Kept y z) : Kept x z := by
  refine ⟨fun s hs => h2.1 s (h1.1 s hs), fun fields hf => ?_, fun items hi hne => ?_⟩
  · obtain ⟨g, hg⟩ := h1.2.1 fields hf
    exact h2.2.1 g hg
  · obtain ⟨b, hb, hlen⟩ := h1.2.2 items hi hne
    have hbne : b ≠ [] := by
      intro hb0
      rw [hb0] at hlen
      exact hne (List.length_eq_zero.mp hlen.symm)
    obtain ⟨c, hc, hlen2⟩ := h2.2.2 b hb hbne
    exact ⟨c, hc, hlen2.trans hlen⟩

theorem partAt_nil (v : Value) : v.partAt [] = some v := rfl

theorem partAt_cons (s : Step) (rest : List Step) (v : Value) :
    v.partAt (s :: rest) = (v.part s).bind (Value.partAt rest) := by
  simp only [Value.partAt]
  cases v.part s <;> rfl

theorem extends_refl (x : Value) : Extends x x :=
  fun _ v h => ⟨v, h, kept_refl v⟩

theorem extends_trans {x y z : Value} (h1 : Extends x y) (h2 : Extends y z) : Extends x z := by
  intro pos v hv
  obtain ⟨w, hw, hvw⟩ := h1 pos v hv
  obtain ⟨u, hu, hwu⟩ := h2 pos w hw
  exact ⟨u, hu, kept_trans hvw hwu⟩

/-- Nothing is said of an empty list, which has no parts. -/
theorem extends_empty_list (y : Value) : Extends (.list []) y := by
  intro pos v hv
  cases pos with
  | nil =>
    simp only [partAt_nil, Option.some.injEq] at hv
    subst hv
    refine ⟨y, rfl, fun _ h => (by cases h), fun _ h => (by cases h), fun items h hne => ?_⟩
    simp only [Value.list.injEq] at h
    exact absurd h.symm hne
  | cons s rest =>
    cases s <;> simp [partAt_cons, Value.part] at hv

theorem extends_map (fields fields1 : List (String × Value))
    (h : ∀ k c, lookup k fields = some c → ∃ c1, lookup k fields1 = some c1 ∧ Extends c c1) :
    Extends (.map fields) (.map fields1) := by
  intro pos v hv
  cases pos with
  | nil =>
    simp only [partAt_nil, Option.some.injEq] at hv
    subst hv
    exact ⟨_, rfl, fun _ h => (by cases h), fun _ _ => ⟨fields1, rfl⟩, fun _ h => (by cases h)⟩
  | cons s rest =>
    cases s with
    | index i => simp [partAt_cons, Value.part] at hv
    | key k =>
      simp only [partAt_cons, Value.part] at hv ⊢
      cases hl : lookup k fields with
      | none => simp [hl] at hv
      | some c =>
        obtain ⟨c1, hc1, hext⟩ := h k c hl
        rw [hl] at hv
        rw [hc1]
        exact hext rest v hv

theorem forall₂_get {α : Type} (R : α → α → Prop) :
    ∀ (a b : List α), List.Forall₂ R a b → ∀ (i : Nat) (c : α), a[i]? = some c →
      ∃ c1, b[i]? = some c1 ∧ R c c1
  | [], _, _, i, c, hc => by simp at hc
  | x :: a, _, h, i, c, hc => by
    cases h with
    | @cons _ y _ b hxy hrest =>
      cases i with
      | zero =>
        simp only [List.getElem?_cons_zero, Option.some.injEq] at hc
        subst hc
        exact ⟨y, by simp, hxy⟩
      | succ i =>
        simp only [List.getElem?_cons_succ] at hc ⊢
        exact forall₂_get R a b hrest i c hc

theorem extends_list (items items1 : List Value) (h : List.Forall₂ Extends items items1) :
    Extends (.list items) (.list items1) := by
  intro pos v hv
  cases pos with
  | nil =>
    simp only [partAt_nil, Option.some.injEq] at hv
    subst hv
    refine ⟨_, rfl, fun _ h => (by cases h), fun _ h => (by cases h), fun l hl _ => ?_⟩
    simp only [Value.list.injEq] at hl
    subst hl
    exact ⟨items1, rfl, h.length_eq.symm⟩
  | cons s rest =>
    cases s with
    | key k => simp [partAt_cons, Value.part] at hv
    | index i =>
      simp only [partAt_cons, Value.part] at hv ⊢
      cases hl : items[i]? with
      | none => simp [hl] at hv
      | some c =>
        obtain ⟨c1, hc1, hext⟩ := forall₂_get Extends items items1 h i c hl
        rw [hl] at hv
        rw [hc1]
        exact hext rest v hv

theorem extends_of_fields (P : Value → Value → Prop) (fields fields1 : List (String × Value))
    (h : FieldsRel P fields fields1) (hP : ∀ a b, P a b → Extends a b) :
    Extends (.map fields) (.map fields1) := by
  refine extends_map fields fields1 (fun k c hc => ?_)
  have hrel := lookup_rel P k fields fields1 h
  rw [hc] at hrel
  cases hl : lookup k fields1 with
  | none =>
    rw [hl] at hrel
    cases hrel
  | some c1 =>
    rw [hl] at hrel
    simp only [Option.toList_some] at hrel
    cases hrel with
    | cons hhead _ =>
      refine ⟨c1, rfl, ?_⟩
      rcases hhead with hhead | hhead
      · rw [hhead]
        exact extends_refl c
      · exact hP c c1 hhead

/-- A write one key down keeps every part of the container where the write itself does. -/
theorem updListed_extends (k : String) (f : Value → Upd Value) (m w : Value)
    (hf : ∀ c c1, c ∈ children k m → f c = .done c1 → Extends c c1)
    (h : updListed k f m = .done w) : Extends m w := by
  cases m with
  | scalar s => simp [updListed_scalar] at h
  | map fields =>
    obtain ⟨fields1, hw, hrel⟩ := updListed_map_rel k f fields w h
    subst hw
    exact extends_of_fields _ fields fields1 hrel (fun a b hab => hf a b hab.1 hab.2)
  | list items =>
    rw [updListed_list] at h
    obtain ⟨items1, h1, hw⟩ := Upd.map_done _ _ _ h
    subst hw
    obtain ⟨pre, x, y, post, hi, hi1, _, hxy⟩ := updFirstIn_done _ items items1 h1
    subst hi hi1
    have hmem : ∀ c ∈ childrenItem k x, c ∈ children k (.list (pre ++ x :: post)) := by
      intro c hc
      rw [children_list]
      exact List.mem_flatMap.mpr ⟨x, by simp, hc⟩
    have hxy1 : Extends x y := by
      cases x with
      | map fields =>
        simp only [updItem] at hxy
        obtain ⟨fields1, hy, hrel⟩ := updListed_map_rel k f fields y hxy
        subst hy
        exact extends_of_fields _ fields fields1 hrel
          (fun a b hab => hf a b (hmem a (by simpa [childrenItem] using hab.1)) hab.2)
      | scalar s =>
        by_cases hk : k = "*"
        · simp only [updItem, hk, ↓reduceIte] at hxy
          exact hf _ _ (hmem _ (by simp [childrenItem, hk])) hxy
        · simp [updItem, hk] at hxy
      | list l =>
        by_cases hk : k = "*"
        · simp only [updItem, hk, ↓reduceIte] at hxy
          exact hf _ _ (hmem _ (by simp [childrenItem, hk])) hxy
        · simp [updItem, hk] at hxy
    refine extends_list _ _ (List.rel_append (List.forall₂_same.mpr (fun c _ => extends_refl c)) ?_)
    exact List.Forall₂.cons hxy1 (List.forall₂_same.mpr (fun c _ => extends_refl c))

/-- The assignment of a key under which the library finds no value keeps every part of the
map. -/
theorem assign_extends (key : String) (v : Value) (fields : List (String × Value))
    (hnil : ∀ c ∈ children key (.map fields), valuesListed [] c = []) :
    Extends (.map fields) (.map (assign key v fields)) := by
  refine extends_map _ _ (fun k c hc => ?_)
  by_cases hk : k = key
  · subst hk
    refine ⟨v, lookup_assign_same k v fields, ?_⟩
    have := (values_nil_eq_nil c).mp (hnil c (children_of_lookup k fields c hc))
    rw [this]
    exact extends_empty_list v
  · exact ⟨c, by rw [lookup_assign_ne key k v hk fields, hc], extends_refl c⟩

/-- A write that creates a path without values keeps every part of the document. -/
theorem setListed_extends (key : String) (v : Value) :
    ∀ (ks : List String) (m w : Value), valuesListed (ks ++ [key]) m = [] →
      setListed key v ks m = .done w → Extends m w
  | [], m, w => by
    intro hnil h
    simp only [List.nil_append, values_cons, List.flatMap_eq_nil_iff] at hnil
    rcases setListed_nil_done key v m w h with ⟨fields, hm, hw⟩ | ⟨fields, post, hm, hw⟩
    · subst hm hw
      exact assign_extends key v fields hnil
    · subst hm hw
      rw [children_list] at hnil
      refine extends_list _ _ (List.Forall₂.cons ?_
        (List.forall₂_same.mpr (fun c _ => extends_refl c)))
      refine assign_extends key v fields (fun c hc => hnil c ?_)
      simp only [List.flatMap_cons, List.mem_append, childrenItem]
      exact Or.inl hc
  | k :: ks, m, w => by
    intro hnil h
    rw [setListed_cons] at h
    simp only [List.cons_append, values_cons, List.flatMap_eq_nil_iff] at hnil
    exact updListed_extends k _ m w
      (fun c c1 hc hcc => setListed_extends key v ks c c1 (hnil c hc) hcc) h

/-- With no empty segment, the loop keeps every part of the document at its position. -/
theorem loopKeys_extends :
    ∀ (rest : List String) (m : List (String × Value)) (init : List String) (key : String),
      (∀ s ∈ init ++ [key] ++ rest, s ≠ "") →
      Extends (.map m) (.map (loopKeys m (init ++ [key]) rest).2)
  | [], m, init, key => by
    intro _
    simp only [loopKeys]
    exact extends_refl _
  | p :: rest, m, init, key => by
    intro hne
    have hcur : stripKeys (init ++ [key]) = init ++ [key] :=
      stripKeys_of_ne _ (fun s hs => hne s (by simp at hs ⊢; tauto))
    have hinit : stripKeys init = init :=
      stripKeys_of_ne _ (fun s hs => hne s (by simp [hs]))
    have hne2 : ∀ s ∈ init ++ [key] ++ [p] ++ rest, s ≠ "" := by
      intro s hs
      exact hne s (by simpa using hs)
    rw [loopKeys_step, hcur, hinit]
    by_cases hex : 0 < (valuesListed (init ++ [key]) (.map m)).length
    · rw [if_pos hex]
      exact loopKeys_extends rest m (init ++ [key]) p hne2
    · rw [if_neg hex]
      cases hs : setListed key (.map []) init (.map m) with
      | absent => exact extends_refl _
      | panic => exact extends_refl _
      | done w =>
        obtain ⟨m2, hw⟩ := setListed_map_done _ _ _ _ _ hs
        subst hw
        simp only [Value.fieldsOr]
        have hnil : valuesListed (init ++ [key]) (.map m) = [] := by
          by_contra hcon
          exact hex ((length_pos_iff_ne_nil _).mpr hcon)
        exact extends_trans (setListed_extends key _ init _ _ hnil hs)
          (loopKeys_extends rest m2 (init ++ [key]) p hne2)

/-- With no empty segment, when the longest path the loop goes through has a value, the loop
returns and writes nothing. -/
theorem loopKeys_unchanged :
    ∀ (rest : List String) (m : List (String × Value)) (init : List String) (key : String),
      (∀ s ∈ init ++ [key] ++ rest, s ≠ "") →
      (rest ≠ [] → valuesListed (init ++ [key] ++ rest.dropLast) (.map m) ≠ []) →
      loopKeys m (init ++ [key]) rest = (.returned [], m)
  | [], m, init, key => by
    intro _ _
    simp [loopKeys]
  | [p], m, init, key => by
    intro hne hval
    have hcur : stripKeys (init ++ [key]) = init ++ [key] :=
      stripKeys_of_ne _ (fun s hs => hne s (by simp at hs ⊢; tauto))
    have hex : 0 < (valuesListed (init ++ [key]) (.map m)).length := by
      have := hval (by simp)
      simp only [List.dropLast_single, List.append_nil] at this
      exact (length_pos_iff_ne_nil _).mpr this
    rw [loopKeys_step, hcur, if_pos hex]
    simp [loopKeys]
  | p :: p2 :: rest, m, init, key => by
    intro hne hval
    have hcur : stripKeys (init ++ [key]) = init ++ [key] :=
      stripKeys_of_ne _ (fun s hs => hne s (by simp at hs ⊢; tauto))
    have hne2 : ∀ s ∈ init ++ [key] ++ [p] ++ (p2 :: rest), s ≠ "" := by
      intro s hs
      exact hne s (by simpa using hs)
    have hlist : init ++ [key] ++ (p :: p2 :: rest).dropLast
        = init ++ [key] ++ [p] ++ (p2 :: rest).dropLast := by
      simp
    have hlong := hval (by simp)
    rw [hlist] at hlong
    have hex : 0 < (valuesListed (init ++ [key]) (.map m)).length := by
      refine (length_pos_iff_ne_nil _).mpr (fun hnil => hlong ?_)
      rw [List.append_assoc (init ++ [key])]
      exact values_append_nil _ _ _ hnil
    rw [loopKeys_step, hcur, if_pos hex]
    exact loopKeys_unchanged (p2 :: rest) m (init ++ [key]) p hne2 (fun _ => hlong)
/-! ## The helper `ensureFinalPathExists` -/

/-- C9, refuted as stated: on the empty document and the path "a" the call succeeds, the loop
over the segments after the first having nothing to do, and no container exists at the full
path afterwards. -/
theorem single_segment_creates_nothing :
    DottedPath "a"
    ∧ ensureFinalPathExists listOrder "a" [] = (.returned [], [])
    ∧ Exists listOrder (ensureFinalPathExists listOrder "a" []).2 "a" = false :=
  ⟨⟨by decide, by decide⟩, by rfl, by rfl⟩

/-- C9, amended: for every document, every path of names separated by dots (none empty, none
the wildcard `*`, no index reference) with segments s1...sn, and every order in which the
library ranges over maps, after `ensureFinalPathExists` succeeds: (a) a value exists at every
proper prefix s1...sk, 1 <= k < n; (b) the full path is not created, the values found under it
being those found before; (c) if the path has one segment only, or the longest proper prefix
had a value before, the document is unchanged, and if the longest proper prefix had no value
before, its only value afterwards is an empty mapping; (d) every part of the document, at any
position reached through keys of maps and indexes of lists, is still at that position: a scalar
is the same scalar, a mapping is still a mapping, a list that has members is still a list with
as many members (an empty list holds no value for the library and may be replaced). -/
theorem ensureFinalPathExists_parents (lib : Library) (path : String)
    (m m1 : List (String × Value)) (hpath : DottedPath path)
    (hok : ensureFinalPathExists lib path m = (.returned [], m1)) :
    (∀ k, 0 < k → k < (Split path).length →
        Exists lib m1 (Join ((Split path).take k)) = true)
    ∧ ValuesForPath lib m1 path = ValuesForPath lib m path
    ∧ ((Split path).length < 2 ∨ Exists lib m (Join (Split path).dropLast) = true → m1 = m)
    ∧ (2 ≤ (Split path).length → Exists lib m (Join (Split path).dropLast) = false →
        ValuesForPath lib m1 (Join (Split path).dropLast) = [.map []])
    ∧ (∀ (pos : List Step) (v : Value), (Value.map m).partAt pos = some v →
        ∃ w, (Value.map m1).partAt pos = some w ∧ Kept v w) := by
  obtain ⟨hp, hseg⟩ := hpath
  have hne : ∀ s ∈ Split path, s ≠ "" := fun s hs => (hseg s hs).1
  have hw : ∀ s ∈ Split path, s ≠ "*" := fun s hs => (hseg s hs).2
  obtain ⟨key, rest, hsplit, hrun⟩ := ensureFinalPathExists_eq lib path ⟨hp, hw⟩ m
  have hplain := Split_plain path hp
  have hpk : pathKeys path = stripKeys (Split path) := rfl
  rw [hsplit] at hne hw hplain hpk ⊢
  rw [hok] at hrun
  have hne1 : ∀ s ∈ [] ++ [key] ++ rest, s ≠ "" := fun s hs => hne s (by simpa using hs)
  have hlast : 2 ≤ (key :: rest).length →
      rest ≠ [] ∧ '[' ∉ (Join (key :: rest).dropLast).data
      ∧ pathKeys (Join (key :: rest).dropLast) = [] ++ [key] ++ rest.dropLast
      ∧ ∀ s ∈ [] ++ [key] ++ rest.dropLast, s ≠ "*" := by
    intro hlen
    have hrest : rest ≠ [] := by
      intro h
      simp [h] at hlen
    have hdrop : (key :: rest).dropLast = [] ++ [key] ++ rest.dropLast := by
      cases rest with
      | nil => exact absurd rfl hrest
      | cons a b => simp
    have hsub : ∀ s ∈ (key :: rest).dropLast, s ∈ key :: rest :=
      fun s hs => List.dropLast_subset _ hs
    refine ⟨hrest, ?_, ?_, ?_⟩
    · exact Join_mem '[' (by decide) _ (fun s hs => (hplain s (hsub s hs)).2)
    · rw [pathKeys_Join _ (fun s hs => (hplain s (hsub s hs)).1),
        stripKeys_of_ne _ (fun s hs => hne s (hsub s hs)), hdrop]
    · intro s hs
      rw [← hdrop] at hs
      exact hw s (hsub s hs)
  refine ⟨?_, ?_, ?_, ?_, ?_⟩
  · intro k hk0 hk
    obtain ⟨j, rfl⟩ : ∃ j, k = j + 1 := ⟨k - 1, by omega⟩
    have hj : j < rest.length := by simpa using hk
    have htake : (key :: rest).take (j + 1) = [] ++ [key] ++ rest.take j := by simp
    have hsub : ∀ s ∈ (key :: rest).take (j + 1), s ∈ key :: rest :=
      fun s hs => List.mem_of_mem_take hs
    rw [Exists_Join lib m1 _ (fun s hs => hplain s (hsub s hs)) (fun s hs => hw s (hsub s hs)),
      stripKeys_of_ne _ (fun s hs => hne s (hsub s hs)), htake]
    simp only [decide_eq_true_eq, length_pos_iff_ne_nil]
    exact loopKeys_prefixes rest m [] key m1 hne1 hrun.symm j hj
  · have hkeys : pathKeys path = [] ++ [key] ++ rest := by
      rw [hpk, stripKeys_of_ne _ hne]
      simp
    have hlit : ∀ s ∈ pathKeys path, s ≠ "*" := by
      intro s hs
      rw [hkeys] at hs
      exact hw s (by simpa using hs)
    simp only [ValuesForPath, hp, ↓reduceIte]
    rw [valuesForKeyPath_listed lib.scan _ _ hlit, valuesForKeyPath_listed lib.scan _ _ hlit,
      hkeys]
    exact loopKeys_full rest m [] key m1 hne1 hrun.symm
  · intro hcase
    have hval : rest ≠ [] → valuesListed ([] ++ [key] ++ rest.dropLast) (.map m) ≠ [] := by
      intro hrest
      have hlen : 2 ≤ (key :: rest).length := by
        cases rest with
        | nil => exact absurd rfl hrest
        | cons a b => simp
      rcases hcase with hshort | hex
      · omega
      · obtain ⟨_, hb, hkeys, hlit⟩ := hlast hlen
        simp only [Exists, ValuesForPath, hb, ↓reduceIte, hkeys, decide_eq_true_eq,
          length_pos_iff_ne_nil] at hex
        rw [valuesForKeyPath_listed lib.scan _ _ hlit] at hex
        exact hex
    have := loopKeys_unchanged rest m [] key hne1 hval
    rw [← hrun] at this
    exact (Prod.mk.inj this).2
  · intro hlen hex
    obtain ⟨hrest, hb, hkeys, hlit⟩ := hlast hlen
    simp only [Exists, ValuesForPath, hb, ↓reduceIte, hkeys, decide_eq_false_iff_not,
      length_pos_iff_ne_nil, not_not] at hex ⊢
    rw [valuesForKeyPath_listed lib.scan _ _ hlit] at hex ⊢
    exact loopKeys_last rest m [] key m1 hne1 hrest hex hrun.symm
  · have := loopKeys_extends rest m [] key hne1
    rw [← hrun] at this
    exact this

/-- C9 amended, at the path "domain.devices.disk" and a document that holds the domain name:
the containers at "domain" and "domain.devices" exist afterwards, nothing exists at the full
path, and the name is kept. -/
theorem ensureFinalPathExists_parents_witness :
    ensureFinalPathExists listOrder "domain.devices.disk" sampleDoc
      = (.returned [], [("domain", .map [("name", .scalar "vm"), ("devices", .map [])])])
    ∧ ((∀ k, 0 < k → k < (Split "domain.devices.disk").length →
        Exists listOrder [("domain", .map [("name", .scalar "vm"), ("devices", .map [])])]
          (Join ((Split "domain.devices.disk").take k)) = true)
    ∧ ValuesForPath listOrder [("domain", .map [("name", .scalar "vm"), ("devices", .map [])])]
        "domain.devices.disk" = ValuesForPath listOrder sampleDoc "domain.devices.disk"
    ∧ ((Split "domain.devices.disk").length < 2
          ∨ Exists listOrder sampleDoc (Join (Split "domain.devices.disk").dropLast) = true →
        [("domain", .map [("name", .scalar "vm"), ("devices", .map [])])] = sampleDoc)
    ∧ (2 ≤ (Split "domain.devices.disk").length →
        Exists listOrder sampleDoc (Join (Split "domain.devices.disk").dropLast) = false →
        ValuesForPath listOrder
          [("domain", .map [("name", .scalar "vm"), ("devices", .map [])])]
          (Join (Split "domain.devices.disk").dropLast) = [.map []])
    ∧ (∀ (pos : List Step) (v : Value), (Value.map sampleDoc).partAt pos = some v →
        ∃ w, (Value.map [("domain", .map [("name", .scalar "vm"), ("devices", .map [])])]).partAt
          pos = some w ∧ Kept v w)) :=
  ⟨by rfl,
   ensureFinalPathExists_parents listOrder "domain.devices.disk" sampleDoc
    [("domain", .map [("name", .scalar "vm"), ("devices", .map [])])]
    ⟨by decide, by decide⟩ (by rfl)⟩

/-- C10, refuted as stated: on the path "*..b.c" and a document with the two empty elements
x and y, both calls return without error, and the second call changes the document. With the
wildcard the write goes to the first element in the order of the range; the first call ranges
over x first and creates b under x, the second ranges over y first (the order is a permutation
of the fields, as any order of a range is) and creates b under y. -/
theorem wildcard_second_call_writes :
    (∀ fields, (reverseOrder.scan fields).Perm (listOrder.scan fields))
    ∧ ensureFinalPathExists listOrder "*..b.c" twoElements
        = (.returned [], [("x", .map [("b", .map [])]), ("y", .map [])])
    ∧ ensureFinalPathExists reverseOrder "*..b.c"
          (ensureFinalPathExists listOrder "*..b.c" twoElements).2
        = (.returned [], [("x", .map [("b", .map [])]), ("y", .map [("b", .map [])])])
    ∧ ensureFinalPathExists reverseOrder "*..b.c"
          (ensureFinalPathExists listOrder "*..b.c" twoElements).2
        ≠ ensureFinalPathExists listOrder "*..b.c" twoElements := by
  have h1 : ensureFinalPathExists listOrder "*..b.c" twoElements
      = (.returned [], [("x", .map [("b", .map [])]), ("y", .map [])]) := by rfl
  have h2 : ensureFinalPathExists reverseOrder "*..b.c"
        (ensureFinalPathExists listOrder "*..b.c" twoElements).2
      = (.returned [], [("x", .map [("b", .map [])]), ("y", .map [("b", .map [])])]) := by rfl
  refine ⟨fun fields => List.reverse_perm fields, h1, h2, ?_⟩
  rw [h2, h1]
  simp

/-- C10, amended: for every document and every path of literal keys (no segment is the
wildcard `*`, no index reference), a second call of `ensureFinalPathExists` with the same path
returns the same result and leaves the document as the first call left it, whether the first
call returned, failed or panicked, and whatever the order in which the library ranges over
maps in either call. -/
theorem ensureFinalPathExists_idempotent (lib1 lib2 : Library) (path : String)
    (hpath : LiteralPath path) (m : List (String × Value)) :
    ensureFinalPathExists lib2 path (ensureFinalPathExists lib1 path m).2
      = ensureFinalPathExists lib1 path m := by
  obtain ⟨key, rest, hsplit, hrun⟩ := ensureFinalPathExists_eq lib1 path hpath m
  obtain ⟨key1, rest1, hsplit1, hrun1⟩ :=
    ensureFinalPathExists_eq lib2 path hpath (ensureFinalPathExists lib1 path m).2
  rw [hsplit] at hsplit1
  obtain ⟨hk, hr⟩ := List.cons.inj hsplit1
  subst hk hr
  rw [hrun1, hrun]
  exact loopKeys_idem rest m [] key

/-- C10 amended, at the path "domain.devices.disk": the second call changes nothing, the two
calls ranging over maps in opposite orders. -/
theorem ensureFinalPathExists_idempotent_witness :
    LiteralPath "domain.devices.disk"
    ∧ ensureFinalPathExists listOrder "domain.devices.disk" sampleDoc
        = (.returned [], [("domain", .map [("name", .scalar "vm"), ("devices", .map [])])])
    ∧ ensureFinalPathExists reverseOrder "domain.devices.disk"
          (ensureFinalPathExists listOrder "domain.devices.disk" sampleDoc).2
        = ensureFinalPathExists listOrder "domain.devices.disk" sampleDoc :=
  ⟨⟨by decide, by decide⟩, by rfl,
   ensureFinalPathExists_idempotent listOrder reverseOrder "domain.devices.disk"
    ⟨by decide, by decide⟩ sampleDoc⟩

/-! ### Beyond dotted paths -/

/-- With the wildcard, whether a call panics follows the order of the range: on the path
"*.b.c" and a document with an empty element x and a scalar y, the call that ranges over y
first panics at the type assertion and leaves the document as it is, and the call that ranges
over x first returns and creates b under x. -/
theorem wildcard_panic_follows_order :
    ensureFinalPathExists reverseOrder "*.b.c" [("x", .map []), ("y", .scalar "s")]
      = (.panic, [("x", .map []), ("y", .scalar "s")])
    ∧ ensureFinalPathExists listOrder "*.b.c" [("x", .map []), ("y", .scalar "s")]
      = (.returned [], [("x", .map [("b", .map [])]), ("y", .scalar "s")]) := by
  constructor <;> rfl

/-- An empty list holds no value for the library: a prefix that holds one counts as absent,
and the list is replaced by an empty mapping. -/
theorem empty_list_is_replaced :
    DottedPath "a.b.c"
    ∧ Exists listOrder [("a", .list [])] "a" = false
    ∧ ensureFinalPathExists listOrder "a.b.c" [("a", .list [])]
      = (.returned [], [("a", .map [("b", .map [])])]) :=
  ⟨⟨by decide, by decide⟩, by rfl, by rfl⟩

/-- What the library finds under a path of literal keys before a call on a dotted path, it
finds a counterpart of under the same path afterwards: a scalar is unchanged, a mapping is
still a mapping, a list is still a list. -/
theorem lookups_kept (lib : Library) (path : String) (m : List (String × Value))
    (hpath : DottedPath path) (q : String) (hq : LiteralPath q) :
    ∀ x ∈ ValuesForPath lib m q,
      ∃ y ∈ ValuesForPath lib (ensureFinalPathExists lib path m).2 q, Keeps x y := by
  obtain ⟨hp, hseg⟩ := hpath
  obtain ⟨key, rest, hsplit, hrun⟩ :=
    ensureFinalPathExists_eq lib path ⟨hp, fun s hs => (hseg s hs).2⟩ m
  have hne1 : ∀ s ∈ [] ++ [key] ++ rest, s ≠ "" := by
    intro s hs
    exact (hseg s (by rw [hsplit]; simpa using hs)).1
  have hpk : pathKeys q = stripKeys (Split q) := rfl
  have hlit : ∀ s ∈ pathKeys q, s ≠ "*" := by
    intro s hs
    rw [hpk] at hs
    exact hq.2 s (stripKeys_subset _ s hs)
  intro x hx
  simp only [ValuesForPath, hq.1, ↓reduceIte] at hx ⊢
  rw [valuesForKeyPath_listed lib.scan _ _ hlit] at hx ⊢
  rw [hrun]
  exact loopKeys_keeps rest m [] key hne1 (pathKeys q) x hx

/-- With an empty segment the write of `SetValueForPath` goes to the parent of the path that
`Exists` checks: content under "a.b" is replaced by an empty mapping. -/
theorem empty_segment_overwrites :
    ensureFinalPathExists listOrder "a..b.c"
        [("a", .map [("", .map []), ("b", .map [("x", .scalar "1")])])]
      = (.returned [], [("a", .map [("", .map []), ("b", .map [])])]) := by
  rfl

/-- With an empty segment a prefix can be without value after a successful call. -/
theorem empty_segment_prefix_missing :
    ensureFinalPathExists listOrder ".a.b" [] = (.returned [], [("a", .map [])])
    ∧ Exists listOrder [("a", .map [])] ".a" = false := by
  constructor <;> rfl

/-- A prefix that holds a scalar counts as existing and is left as it is. -/
theorem scalar_prefix_is_left :
    ensureFinalPathExists listOrder "a.b" [("a", .scalar "x")]
      = (.returned [], [("a", .scalar "x")]) := by
  rfl

end PermHook
